import Mathlib

/-!
# md5checker: the content-addressable store and its reconciliation

A shallow embedding of `generate.go` (ingestion, `NewMD5Hashes`) and `verify.go`
(reconciliation, `TestMD5Hashes`).

Modelling conventions.

* A Go `string` is a Lean `String`; `+` is `++`, `==` is equality.
* A Go `map[string]V` is an association list `List (String × V)`; a real map has
  pairwise distinct keys, which the theorems assume where they need it
  (`NodupKeys`).  `m[k]` is `List.lookup`, `range m` visits the list in order.
  Go leaves the order unspecified; the list order is universally quantified in
  every theorem, so each enumeration order of the store and of the disk index is
  covered.  Within one run a map is visited in the same order by each of its
  loops, and the maps built by the run are visited in order of first insertion.
* A Go slice is a `List`; `append` adds at the end.
* A `map[string]bool` that is only ever set to `true` is the list of its keys.
* File system and clock are inputs: the disk index `diskFiles` (path ↦ digest),
  the scan (path, digest, time of processing) and the file-existence predicate.
-/

namespace MD5Checker

/-! ## Data model (generate.go 18-29, verify.go 14-21) -/

/-- One known location of a content: `PathEntry` of generate.go. -/
structure PathEntry where
  Path : String
  FirstSeen : String
  LastSeen : String
deriving DecidableEq

/-- The record stored under one fingerprint: `InfoData` of generate.go. -/
structure InfoData where
  ContentMD5 : String
  RelativePaths : List PathEntry
  FirstCreated : String
  LastContentUpdate : String
deriving DecidableEq

/-- One reported classification: `Result` of verify.go; unset fields hold Go's zero values. -/
structure Result where
  Path : String
  ContentHash : String
  OriginalContentHash : String
  KnownOldPaths : List String
  OldPaths : List String
  NewPaths : List String
deriving DecidableEq

/-- The snapshot store `checksumDB : map[string]InfoData`. -/
abbrev ChecksumDB := List (String × InfoData)

/-- The disk index `diskFiles : map[string]string` (relative path ↦ digest). -/
abbrev DiskFiles := List (String × String)

/-- A map in the Go sense: no key occurs twice. -/
def NodupKeys {β : Type} (m : List (String × β)) : Prop := (m.map Prod.fst).Nodup

instance {β : Type} (m : List (String × β)) : Decidable (NodupKeys m) := by
  unfold NodupKeys; infer_instance

/-! ## Helpers of verify.go -/

/-- The function `getPaths` (verify.go 205-211). -/
def getPaths (entries : List PathEntry) : List String :=
  entries.map (fun e => e.Path)

/-- The function `getPathsFromResults` (verify.go 213-221): results with an empty `Path` are skipped. -/
def getPathsFromResults (results : List Result) : List String :=
  (results.filter (fun r => r.Path != "")).map (fun r => r.Path)

/-- The function `removeResults` (verify.go 223-238): keeps `r` unless some element of `toRemove`
agrees with it on `Path` and `ContentHash`. -/
def removeResults (all toRemove : List Result) : List Result :=
  all.filter (fun r => !(toRemove.any (fun rem => r.Path == rem.Path && r.ContentHash == rem.ContentHash)))

/-! ## Reconciliation (verify.go 101-177) -/

/-- The six result lists together with the two `processed…` sets of `TestMD5Hashes`. -/
structure VerifyState where
  OK : List Result
  MODIFIED : List Result
  MOVED : List Result
  NEW : List Result
  DELETED : List Result
  RENAMED : List Result
  processedDBPaths : List String
  processedDiskPaths : List String
deriving DecidableEq

/-- The state at verify.go 101-111: six empty lists, nothing processed. -/
def VerifyState.init : VerifyState :=
  { OK := [], MODIFIED := [], MOVED := [], NEW := [], DELETED := [], RENAMED := [],
    processedDBPaths := [], processedDiskPaths := [] }

/-- The result `Result{Path: relPath, ContentHash: diskHash}` (OK and NEW). -/
def mkPlain (relPath diskHash : String) : Result :=
  { Path := relPath, ContentHash := diskHash, OriginalContentHash := "",
    KnownOldPaths := [], OldPaths := [], NewPaths := [] }

/-- The MOVED result of verify.go 127. -/
def mkMoved (relPath diskHash : String) (infoData : InfoData) : Result :=
  { Path := relPath, ContentHash := diskHash, OriginalContentHash := "",
    KnownOldPaths := getPaths infoData.RelativePaths, OldPaths := [], NewPaths := [] }

/-- The MODIFIED result of verify.go 139. -/
def mkModified (path hash diskHash : String) : Result :=
  { Path := path, ContentHash := diskHash, OriginalContentHash := hash,
    KnownOldPaths := [], OldPaths := [], NewPaths := [] }

/-- The DELETED result of verify.go 142: `ContentHash` stays unset. -/
def mkDeleted (path hash : String) : Result :=
  { Path := path, ContentHash := "", OriginalContentHash := hash,
    KnownOldPaths := [], OldPaths := [], NewPaths := [] }

/-- The RENAMED result of verify.go 167-171. -/
def mkRenamed (hash : String) (deleted moved : List Result) : Result :=
  { Path := "", ContentHash := hash, OriginalContentHash := "", KnownOldPaths := [],
    OldPaths := getPathsFromResults deleted, NewPaths := getPathsFromResults moved }

/-- The key `hash + ":" + path` of `processedDBPaths`. -/
def dbKey (hash path : String) : String := hash ++ ":" ++ path

/-- Body of the loop "Compare disk to DB" (verify.go 114-131) for one disk pair. -/
def compareStep (checksumDB : ChecksumDB) (st : VerifyState) (e : String × String) : VerifyState :=
  match checksumDB.lookup e.2 with
  | some infoData =>
    if infoData.RelativePaths.any (fun p => p.Path == e.1) then
      { st with
        OK := st.OK ++ [mkPlain e.1 e.2]
        processedDBPaths := st.processedDBPaths ++ [dbKey e.2 e.1]
        processedDiskPaths := st.processedDiskPaths ++ [e.1] }
    else
      { st with
        MOVED := st.MOVED ++ [mkMoved e.1 e.2 infoData]
        processedDiskPaths := st.processedDiskPaths ++ [e.1] }
  | none => st

/-- The loop "Compare disk to DB" (verify.go 113-131). -/
def compareDiskToDB (checksumDB : ChecksumDB) (diskFiles : DiskFiles) (st : VerifyState) :
    VerifyState :=
  diskFiles.foldl (compareStep checksumDB) st

/-- Body of the inner loop of "Check DB for missing or modified" (verify.go 135-145). -/
def checkStep (diskFiles : DiskFiles) (hash : String) (st : VerifyState) (dbPath : PathEntry) :
    VerifyState :=
  if st.processedDBPaths.contains (dbKey hash dbPath.Path) then st
  else
    match diskFiles.lookup dbPath.Path with
    | some diskHash =>
      { st with
        MODIFIED := st.MODIFIED ++ [mkModified dbPath.Path hash diskHash]
        processedDiskPaths := st.processedDiskPaths ++ [dbPath.Path] }
    | none => { st with DELETED := st.DELETED ++ [mkDeleted dbPath.Path hash] }

/-- The loop "Check DB for missing or modified" (verify.go 133-146). -/
def checkDB (checksumDB : ChecksumDB) (diskFiles : DiskFiles) (st : VerifyState) : VerifyState :=
  checksumDB.foldl (fun st e => e.2.RelativePaths.foldl (checkStep diskFiles e.1) st) st

/-- Body of the loop "Find truly new files" (verify.go 149-153). -/
def newStep (st : VerifyState) (e : String × String) : VerifyState :=
  if st.processedDiskPaths.contains e.1 then st
  else { st with NEW := st.NEW ++ [mkPlain e.1 e.2] }

/-- The loop "Find truly new files" (verify.go 148-153). -/
def findNew (diskFiles : DiskFiles) (st : VerifyState) : VerifyState :=
  diskFiles.foldl newStep st

/-- The statement `m[k] = append(m[k], r)` on a `map[string][]Result`. -/
def appendToGroup (m : List (String × List Result)) (k : String) (r : Result) :
    List (String × List Result) :=
  match m with
  | [] => [(k, [r])]
  | (k', g) :: rest =>
    if k' = k then (k', g ++ [r]) :: rest else (k', g) :: appendToGroup rest k r

/-- The map `hashesWithMoved` (verify.go 156-159). -/
def groupMoved (moved : List Result) : List (String × List Result) :=
  moved.foldl (fun m r => appendToGroup m r.ContentHash r) []

/-- The map `hashesWithDeleted` (verify.go 160-163). -/
def groupDeleted (deleted : List Result) : List (String × List Result) :=
  deleted.foldl (fun m r => appendToGroup m r.OriginalContentHash r) []

/-- Body of the loop over `hashesWithMoved` (verify.go 165-177). -/
def renameStep (hashesWithDeleted : List (String × List Result)) (st : VerifyState)
    (e : String × List Result) : VerifyState :=
  match hashesWithDeleted.lookup e.1 with
  | some deleted =>
    { st with
      RENAMED := st.RENAMED ++ [mkRenamed e.1 deleted e.2]
      MOVED := removeResults st.MOVED e.2
      DELETED := removeResults st.DELETED deleted }
  | none => st

/-- The block "Handle RENAMED" (verify.go 155-177). -/
def handleRenamed (st : VerifyState) : VerifyState :=
  (groupMoved st.MOVED).foldl (renameStep (groupDeleted st.DELETED)) st

/-- The state before rename resolution (verify.go 101-153). -/
def provisional (checksumDB : ChecksumDB) (diskFiles : DiskFiles) : VerifyState :=
  findNew diskFiles (checkDB checksumDB diskFiles (compareDiskToDB checksumDB diskFiles VerifyState.init))

/-- The state in which `TestMD5Hashes` prints its report (verify.go 101-177). -/
def reconcile (checksumDB : ChecksumDB) (diskFiles : DiskFiles) : VerifyState :=
  handleRenamed (provisional checksumDB diskFiles)

/-- The count `totalDiscrepancies` (verify.go 196). -/
def totalDiscrepancies (st : VerifyState) : Nat :=
  st.MODIFIED.length + st.MOVED.length + st.NEW.length + st.DELETED.length + st.RENAMED.length

/-- The function `TestMD5Hashes` from the loaded store and the disk index on: an empty store
returns early without a report (verify.go 57-60), otherwise the report state of `reconcile`. -/
def TestMD5Hashes (checksumDB : ChecksumDB) (diskFiles : DiskFiles) : Option VerifyState :=
  if checksumDB.length = 0 then none else some (reconcile checksumDB diskFiles)

/-! ## Ingestion (generate.go 31-292) -/

/-- The pattern `^[a-f0-9]{32}$` of `md5Pattern` on one character. -/
def isLowerHex (c : Char) : Bool :=
  ('a' ≤ c && c ≤ 'f') || ('0' ≤ c && c ≤ '9')

/-- The test `md5Pattern.MatchString` (generate.go 102, 135): exactly 32 characters of `[a-f0-9]`. -/
def isMD5 (s : String) : Bool :=
  s.data.length == 32 && s.data.all isLowerHex

/-- One file of `filesToProcess` that was opened and hashed: its relative path, its digest
`fileContentHash`, and the clock reading `currentTime` taken while it is processed. -/
structure ScannedFile where
  Path : String
  Hash : String
  Now : String
deriving DecidableEq

/-- The store and the five counters of `NewMD5Hashes` (generate.go 96-100). -/
structure GenState where
  checksumDB : ChecksumDB
  processedFilesCount : Nat
  pathsAddedToDbCount : Nat
  pathsUpdatedInDbCount : Nat
  pathsPrunedFromDbCount : Nat
  errorCount : Nat
deriving DecidableEq

/-- The statement `m[k] = v` on a map. -/
def mapSet {β : Type} (m : List (String × β)) (k : String) (v : β) : List (String × β) :=
  match m with
  | [] => [(k, v)]
  | (k', v') :: rest => if k' = k then (k, v) :: rest else (k', v') :: mapSet rest k v

/-- The statement `delete(m, k)` on a map. -/
def mapDelete {β : Type} (m : List (String × β)) (k : String) : List (String × β) :=
  m.filter (fun e => e.1 != k)

/-- Go's zero value of `InfoData`, the value of `checksumDB[k]` for an absent key. -/
def InfoData.zero : InfoData :=
  { ContentMD5 := "", RelativePaths := [], FirstCreated := "", LastContentUpdate := "" }

/-- The search for `existingHash` (generate.go 144-156): the first enumerated entry holding the
path whose key is not the empty string (the empty string doubles as "not found"). -/
def findExistingHash (checksumDB : ChecksumDB) (path : String) : String :=
  match checksumDB with
  | [] => ""
  | (hash, info) :: rest =>
    let existingHash := if info.RelativePaths.any (fun p => p.Path == path) then hash else ""
    if existingHash != "" then existingHash else findExistingHash rest path

/-- Setting `LastSeen` of the first entry with the given path (generate.go 162-168 and the
pointer returned by `findPathEntry`, 202-205). -/
def refreshLastSeen (paths : List PathEntry) (path now : String) : List PathEntry :=
  match paths with
  | [] => []
  | p :: rest =>
    if p.Path = path then { p with LastSeen := now } :: rest
    else p :: refreshLastSeen rest path now

/-- The function `findPathEntry` (generate.go 303-310) as a test: is there an entry with the path. -/
def findPathEntry (paths : List PathEntry) (path : String) : Option PathEntry :=
  paths.find? (fun p => p.Path == path)

/-- The removal of the path from its old entry in Regenerate mode (generate.go 175-190). -/
def removeFromOld (checksumDB : ChecksumDB) (existingHash path : String) : ChecksumDB :=
  let oldInfo := (checksumDB.lookup existingHash).getD InfoData.zero
  let newPaths := oldInfo.RelativePaths.filter (fun p => p.Path != path)
  if newPaths.length = 0 then mapDelete checksumDB existingHash
  else mapSet checksumDB existingHash { oldInfo with RelativePaths := newPaths }

/-- The tail of the loop body (generate.go 192-219): add or refresh the path under its digest. -/
def addOrRefresh (st : GenState) (f : ScannedFile) : GenState :=
  let infoData := (st.checksumDB.lookup f.Hash).getD
    { ContentMD5 := f.Hash, RelativePaths := [], FirstCreated := f.Now, LastContentUpdate := f.Now }
  match findPathEntry infoData.RelativePaths f.Path with
  | some _ =>
    { st with
      checksumDB := mapSet st.checksumDB f.Hash
        { infoData with
          RelativePaths := refreshLastSeen infoData.RelativePaths f.Path f.Now
          LastContentUpdate := f.Now }
      pathsUpdatedInDbCount := st.pathsUpdatedInDbCount + 1
      processedFilesCount := st.processedFilesCount + 1 }
  | none =>
    { st with
      checksumDB := mapSet st.checksumDB f.Hash
        { infoData with
          RelativePaths := infoData.RelativePaths ++
            [{ Path := f.Path, FirstSeen := f.Now, LastSeen := f.Now }]
          LastContentUpdate := f.Now }
      pathsAddedToDbCount := st.pathsAddedToDbCount + 1
      processedFilesCount := st.processedFilesCount + 1 }

/-- Body of the processing loop (generate.go 110-220) for one hashed file. -/
def processFile (regenerateAll : Bool) (st : GenState) (f : ScannedFile) : GenState :=
  if !isMD5 f.Hash then { st with errorCount := st.errorCount + 1 }
  else
    let existingHash := findExistingHash st.checksumDB f.Path
    if !regenerateAll && existingHash != "" then
      if existingHash = f.Hash then
        let info := (st.checksumDB.lookup existingHash).getD InfoData.zero
        if info.RelativePaths.any (fun p => p.Path == f.Path) then
          { st with
            checksumDB := mapSet st.checksumDB existingHash
              { info with RelativePaths := refreshLastSeen info.RelativePaths f.Path f.Now }
            pathsUpdatedInDbCount := st.pathsUpdatedInDbCount + 1 }
        else st
      else st
    else
      let st1 :=
        if regenerateAll && existingHash != "" && existingHash != f.Hash then
          { st with checksumDB := removeFromOld st.checksumDB existingHash f.Path }
        else st
      addOrRefresh st1 f

/-- The prune loop (generate.go 233-250) over the enumerated entries: the surviving entries and
the number of dropped path records. -/
def pruneEntries (fileExists : String → Bool) (checksumDB : ChecksumDB) : ChecksumDB × Nat :=
  match checksumDB with
  | [] => ([], 0)
  | (hash, infoData) :: rest =>
    let newPaths := infoData.RelativePaths.filter (fun p => fileExists p.Path)
    let dropped := (infoData.RelativePaths.filter (fun p => !fileExists p.Path)).length
    let r := pruneEntries fileExists rest
    if newPaths.length = 0 then (r.1, r.2 + dropped)
    else ((hash, { infoData with RelativePaths := newPaths }) :: r.1, r.2 + dropped)

/-- The function `NewMD5Hashes` from the scan and the loaded store on: an empty scan returns
early and leaves the stored database as it is (generate.go 72-75); otherwise the processing loop,
then the prune pass, and the result is what is saved. -/
def NewMD5Hashes (regenerateAll : Bool) (scan : List ScannedFile) (fileExists : String → Bool)
    (checksumDB : ChecksumDB) : GenState :=
  let st0 : GenState :=
    { checksumDB := checksumDB, processedFilesCount := 0, pathsAddedToDbCount := 0,
      pathsUpdatedInDbCount := 0, pathsPrunedFromDbCount := 0, errorCount := 0 }
  if scan.length = 0 then st0
  else
    let st := scan.foldl (processFile regenerateAll) st0
    let r := pruneEntries fileExists st.checksumDB
    { st with checksumDB := r.1, pathsPrunedFromDbCount := st.pathsPrunedFromDbCount + r.2 }

/-- The disk index that `TestMD5Hashes` builds when the files on disk are those of the scan
(verify.go 86-99): each path mapped to its digest. -/
def diskIndexOf (scan : List ScannedFile) : DiskFiles :=
  scan.map (fun f => (f.Path, f.Hash))

/-! ## Closed forms used in the proofs -/

/-- What one disk pair adds to OK in the first loop. -/
def okOf (checksumDB : ChecksumDB) (e : String × String) : Option Result :=
  match checksumDB.lookup e.2 with
  | some infoData =>
    if infoData.RelativePaths.any (fun p => p.Path == e.1) then some (mkPlain e.1 e.2) else none
  | none => none

/-- What one disk pair adds to MOVED in the first loop. -/
def movedOf (checksumDB : ChecksumDB) (e : String × String) : Option Result :=
  match checksumDB.lookup e.2 with
  | some infoData =>
    if infoData.RelativePaths.any (fun p => p.Path == e.1) then none
    else some (mkMoved e.1 e.2 infoData)
  | none => none

/-- What one disk pair adds to `processedDBPaths` in the first loop. -/
def keyOf (checksumDB : ChecksumDB) (e : String × String) : Option String :=
  match checksumDB.lookup e.2 with
  | some infoData =>
    if infoData.RelativePaths.any (fun p => p.Path == e.1) then some (dbKey e.2 e.1) else none
  | none => none

/-- What one disk pair adds to `processedDiskPaths` in the first loop. -/
def seenOf (checksumDB : ChecksumDB) (e : String × String) : Option String :=
  match checksumDB.lookup e.2 with
  | some _ => some e.1
  | none => none

/-- All path records of the store with the key of their entry, in enumeration order. -/
def records (checksumDB : ChecksumDB) : List (String × PathEntry) :=
  checksumDB.flatMap (fun e => e.2.RelativePaths.map (fun p => (e.1, p)))

/-- What one path record adds to MODIFIED in the second loop. -/
def modOf (diskFiles : DiskFiles) (processed : List String) (x : String × PathEntry) :
    Option Result :=
  if processed.contains (dbKey x.1 x.2.Path) then none
  else
    match diskFiles.lookup x.2.Path with
    | some diskHash => some (mkModified x.2.Path x.1 diskHash)
    | none => none

/-- What one path record adds to DELETED in the second loop. -/
def delOf (diskFiles : DiskFiles) (processed : List String) (x : String × PathEntry) :
    Option Result :=
  if processed.contains (dbKey x.1 x.2.Path) then none
  else
    match diskFiles.lookup x.2.Path with
    | some _ => none
    | none => some (mkDeleted x.2.Path x.1)

/-- What one disk pair adds to NEW in the third loop. -/
def newOf (seen : List String) (e : String × String) : Option Result :=
  if seen.contains e.1 then none else some (mkPlain e.1 e.2)

/-- The store has a path record for `path` under the key `hash`. -/
def HasRecord (checksumDB : ChecksumDB) (hash path : String) : Prop :=
  ∃ infoData, checksumDB.lookup hash = some infoData ∧ ∃ p ∈ infoData.RelativePaths, p.Path = path

/-- Every path occurs in at most one entry of the store and at most once in it. -/
def UniquePaths (checksumDB : ChecksumDB) : Prop :=
  ((records checksumDB).map (fun x => x.2.Path)).Nodup

instance (checksumDB : ChecksumDB) : Decidable (UniquePaths checksumDB) := by
  unfold UniquePaths; infer_instance

/-- Every key of the store is a well-formed fingerprint. -/
def WellFormedKeys (checksumDB : ChecksumDB) : Prop :=
  ∀ e ∈ checksumDB, isMD5 e.1 = true

instance (checksumDB : ChecksumDB) : Decidable (WellFormedKeys checksumDB) := by
  unfold WellFormedKeys; infer_instance

/-- The comparison made by `removeResults`: same `Path` and same `ContentHash`. -/
def sameItem (r rem : Result) : Bool :=
  r.Path == rem.Path && r.ContentHash == rem.ContentHash

/-- What one entry of `hashesWithMoved` adds to RENAMED. -/
def renamedOf (hashesWithDeleted : List (String × List Result)) (e : String × List Result) :
    Option Result :=
  match hashesWithDeleted.lookup e.1 with
  | some deleted => some (mkRenamed e.1 deleted e.2)
  | none => none

/-- Whether the rename loop over `groups` removes `r` from MOVED. -/
def dropsMoved (hashesWithDeleted groups : List (String × List Result)) (r : Result) : Bool :=
  groups.any (fun e =>
    match hashesWithDeleted.lookup e.1 with
    | some _ => e.2.any (sameItem r)
    | none => false)

/-- Whether the rename loop over `groups` removes `r` from DELETED. -/
def dropsDeleted (hashesWithDeleted groups : List (String × List Result)) (r : Result) : Bool :=
  groups.any (fun e =>
    match hashesWithDeleted.lookup e.1 with
    | some deleted => deleted.any (sameItem r)
    | none => false)

/-! ## Concrete stores and disk indexes -/

/-- The list of `Path` fields of a result list. -/
def pathsOf (results : List Result) : List String :=
  results.map (fun r => r.Path)

/-- A path record with fixed timestamps. -/
def pathAt (path : String) : PathEntry :=
  { Path := path, FirstSeen := "2024-01-01T00:00:00Z", LastSeen := "2024-01-01T00:00:00Z" }

/-- A store entry with fixed timestamps holding the given paths. -/
def entryOf (hash : String) (paths : List String) : String × InfoData :=
  (hash, { ContentMD5 := hash, RelativePaths := paths.map pathAt,
           FirstCreated := "2024-01-01T00:00:00Z", LastContentUpdate := "2024-01-01T00:00:00Z" })

/-- A first well-formed fingerprint. -/
def fp1 : String := "0123456789abcdef0123456789abcdef"

/-- A second well-formed fingerprint. -/
def fp2 : String := "fedcba9876543210fedcba9876543210"

/-- A third well-formed fingerprint. -/
def fp3 : String := "00112233445566778899aabbccddeeff"

/-- A store of two paths under one fingerprint. -/
def cleanDB : ChecksumDB := [entryOf fp1 ["a.txt", "dir/b.txt"]]

/-- The disk index in which both paths of `cleanDB` still carry its fingerprint. -/
def cleanDisk : DiskFiles := [("a.txt", fp1), ("dir/b.txt", fp1)]

/-- A store with `a.txt` under `fp1` and `b.txt` under `fp2`. -/
def twoDB : ChecksumDB := [entryOf fp1 ["a.txt"], entryOf fp2 ["b.txt"]]

/-- The disk after the content of `b.txt` was copied over `a.txt`. -/
def overwrittenDisk : DiskFiles := [("a.txt", fp2), ("b.txt", fp2)]

/-- A store with the single path `a.txt` under `fp1`. -/
def oneDB : ChecksumDB := [entryOf fp1 ["a.txt"]]

/-- A list keyed by the empty path, carrying `fp1`. `TestMD5Hashes` keys its disk index by the
relative paths of the walked files (verify.go 97-98), so it builds no such index. -/
def emptyPathDisk : DiskFiles := [("", fp1)]

/-- The disk after `a.txt` was renamed to `b.txt`. -/
def renamedDisk : DiskFiles := [("b.txt", fp1)]

/-- A store as a database file can hold it, with one key that is not a fingerprint: the key of
`(fp1 ++ ":b", "c")` in `processedDBPaths` coincides with that of `(fp1, "b:c")`; and the record
under `fp2` has the empty path. -/
def collidingDB : ChecksumDB :=
  [entryOf fp1 ["b:c"], entryOf (fp1 ++ ":b") ["c"], entryOf fp2 [""]]

/-- A disk index as `TestMD5Hashes` builds it (non-empty paths, 32-digit digests): the file
`b:c` still carries `fp1`, and the file `new.txt` carries `fp2`. -/
def collidingDisk : DiskFiles := [("b:c", fp1), ("new.txt", fp2)]

/-- The number of final DELETED results whose `Path` is `p`. -/
def deletedCount (st : VerifyState) (p : String) : Nat :=
  (st.DELETED.filter (fun r => r.Path == p)).length

/-- The number of final RENAMED results that list `p` among their `OldPaths`. -/
def renamedOldCount (st : VerifyState) (p : String) : Nat :=
  (st.RENAMED.filter (fun r => r.OldPaths.contains p)).length

/-- Every path occurs in at most one entry of the store. -/
def OneEntryPerPath (checksumDB : ChecksumDB) : Prop :=
  ∀ e1 ∈ checksumDB, ∀ e2 ∈ checksumDB, ∀ p1 ∈ e1.2.RelativePaths, ∀ p2 ∈ e2.2.RelativePaths,
    p1.Path = p2.Path → e1.1 = e2.1

instance (checksumDB : ChecksumDB) : Decidable (OneEntryPerPath checksumDB) := by
  unfold OneEntryPerPath; infer_instance

/-- The same in terms of lookups: no path has a record under two keys. -/
def RecordedOnce (checksumDB : ChecksumDB) : Prop :=
  ∀ h1 h2 p, HasRecord checksumDB h1 p → HasRecord checksumDB h2 p → h1 = h2

/-- A store in which `x.txt` is recorded under two fingerprints. -/
def twiceDB : ChecksumDB := [entryOf fp1 ["x.txt"], entryOf fp2 ["x.txt"]]

/-- A store whose only entry is keyed by the empty string. -/
def emptyKeyDB : ChecksumDB := [entryOf "" ["x.txt"]]

/-- A scan that finds the single file `x.txt` with digest `fp3`. -/
def scanX : List ScannedFile :=
  [{ Path := "x.txt", Hash := fp3, Now := "2024-02-02T00:00:00Z" }]

/-- The existence test `os.Stat(filepath.Join(base, p))` of the prune pass (generate.go 236-237)
for a directory tree whose files are `files`, on clean relative paths: it succeeds for the base
directory itself (`p = ""`), for every file and for every directory on the way to a file. -/
def statIn (files : List String) (p : String) : Bool :=
  p == "" || files.any (fun f => f == p || (p ++ "/").data.isPrefixOf f.data)

/-- A store that records the file `data` under `fp1`. -/
def dataDB : ChecksumDB := [entryOf fp1 ["data"]]

/-- The scan after the file `data` was replaced by a directory holding `x.txt`. -/
def scanData : List ScannedFile :=
  [{ Path := "data/x.txt", Hash := fp3, Now := "2024-02-02T00:00:00Z" }]

/-- The existence test of a disk that holds exactly the paths of the scan. -/
def existsIn (scan : List ScannedFile) (path : String) : Bool :=
  (scan.map (fun f => f.Path)).contains path

/-- A store whose only record has the empty path. -/
def emptyPathDB : ChecksumDB := [entryOf fp1 [""]]

/-- A store in which `a.txt` is recorded under `fp1` and under `fp2`. -/
def sharedPathDB : ChecksumDB := [entryOf fp1 ["a.txt"], entryOf fp2 ["a.txt"]]

/-- The disk after the content of `a.txt` changed from `fp1` to `fp3`. -/
def modifiedDisk : DiskFiles := [("a.txt", fp3)]

/-- The disk on which `a.txt` is unchanged and `c.txt` appeared with the unknown digest `fp3`. -/
def newFileDisk : DiskFiles := [("a.txt", fp1), ("c.txt", fp3)]

/-- Executable form of `HasRecord`. -/
def hasRecordB (checksumDB : ChecksumDB) (hash path : String) : Bool :=
  match checksumDB.lookup hash with
  | some infoData => infoData.RelativePaths.any (fun p => p.Path == path)
  | none => false

/-- No entry lists a path twice. -/
def EntriesNodup (checksumDB : ChecksumDB) : Prop :=
  ∀ h infoData, checksumDB.lookup h = some infoData →
    (infoData.RelativePaths.map (fun p => p.Path)).Nodup

/-- The state in which `NewMD5Hashes` enters its processing loop (generate.go 96-100). -/
def startOf (checksumDB : ChecksumDB) : GenState :=
  { checksumDB := checksumDB, processedFilesCount := 0, pathsAddedToDbCount := 0,
    pathsUpdatedInDbCount := 0, pathsPrunedFromDbCount := 0, errorCount := 0 }

/-- Body of the prune loop (generate.go 233-249) for one enumerated entry, acting on the live
map and the pruned counter. -/
def pruneStep (fileExists : String → Bool) (acc : ChecksumDB × Nat) (e : String × InfoData) :
    ChecksumDB × Nat :=
  let newPaths := e.2.RelativePaths.filter (fun p => fileExists p.Path)
  let dropped := (e.2.RelativePaths.filter (fun p => !fileExists p.Path)).length
  if newPaths.length = 0 then (mapDelete acc.1 e.1, acc.2 + dropped)
  else (mapSet acc.1 e.1 { e.2 with RelativePaths := newPaths }, acc.2 + dropped)

/-- The prune loop (generate.go 233-250) as written: it ranges over the entries of the map and
deletes or overwrites the current key in the map itself. -/
def pruneLoop (fileExists : String → Bool) (checksumDB : ChecksumDB) : ChecksumDB × Nat :=
  checksumDB.foldl (pruneStep fileExists) (checksumDB, 0)

/-- A store with one entry whose files partly vanished and one entry whose only file vanished. -/
def staleDB : ChecksumDB := [entryOf fp1 ["a.txt", "gone.txt"], entryOf fp2 ["old.txt"]]

/-- A file-existence test under which only `a.txt` exists. -/
def onlyA (path : String) : Bool := path == "a.txt"

/-- Two RENAMED results that agree up to the order of their `OldPaths` and `NewPaths`. -/
def SameRenamed (r1 r2 : Result) : Prop :=
  r1.Path = r2.Path ∧ r1.ContentHash = r2.ContentHash ∧
    r1.OriginalContentHash = r2.OriginalContentHash ∧ r1.KnownOldPaths = r2.KnownOldPaths ∧
    r1.OldPaths.Perm r2.OldPaths ∧ r1.NewPaths.Perm r2.NewPaths

/-- What the rename loop adds to RENAMED for the key `k` of `hashesWithMoved`, in terms of the
provisional MOVED and DELETED lists. -/
def renamedFor (moved deleted : List Result) (k : String) : Option Result :=
  if deleted.filter (fun d => d.OriginalContentHash == k) = [] then none
  else some (mkRenamed k (deleted.filter (fun d => d.OriginalContentHash == k))
    (moved.filter (fun m => m.ContentHash == k)))

/-- A store with two entries, the second of them with two paths. -/
def threeDB : ChecksumDB := [entryOf fp1 ["a.txt"], entryOf fp2 ["b.txt", "c.txt"]]

/-- The entries of `threeDB` enumerated in the other order. -/
def threeDBSwapped : ChecksumDB := [entryOf fp2 ["b.txt", "c.txt"], entryOf fp1 ["a.txt"]]

/-- A disk on which `a.txt` and `b.txt` were renamed, `c.txt` is unchanged and `n.txt` is new. -/
def mixedDisk : DiskFiles :=
  [("a2.txt", fp1), ("b2.txt", fp2), ("c.txt", fp2), ("n.txt", fp3)]

/-- The pairs of `mixedDisk` enumerated in another order. -/
def mixedDiskSwapped : DiskFiles :=
  [("b2.txt", fp2), ("a2.txt", fp1), ("n.txt", fp3), ("c.txt", fp2)]

/-- The entry under which `addOrRefresh` files a path: the stored one, or a fresh one created
at the time of processing (generate.go 192-200). -/
def baseEntry (checksumDB : ChecksumDB) (f : ScannedFile) : InfoData :=
  (checksumDB.lookup f.Hash).getD
    { ContentMD5 := f.Hash, RelativePaths := [], FirstCreated := f.Now,
      LastContentUpdate := f.Now }

/-- The path record created for a newly filed path (generate.go 207-211). -/
def newRecord (f : ScannedFile) : PathEntry :=
  { Path := f.Path, FirstSeen := f.Now, LastSeen := f.Now }

/-- The entry after a new path record was appended to it (generate.go 212-217). -/
def extendedEntry (checksumDB : ChecksumDB) (f : ScannedFile) : InfoData :=
  { baseEntry checksumDB f with
    RelativePaths := (baseEntry checksumDB f).RelativePaths ++ [newRecord f]
    LastContentUpdate := f.Now }

/-- A scan item reporting `a.txt` with the digest `fp3`. -/
def changedA : ScannedFile := { Path := "a.txt", Hash := fp3, Now := "2024-02-02T00:00:00Z" }

/-- A scan item reporting the unknown path `c.txt` with the known digest `fp1`. -/
def copyC : ScannedFile := { Path := "c.txt", Hash := fp1, Now := "2024-02-02T00:00:00Z" }

/-- A scan item reporting `x.txt` with the digest `fp3`. -/
def changedX : ScannedFile := { Path := "x.txt", Hash := fp3, Now := "2024-02-02T00:00:00Z" }

/-- The `LastContentUpdate` of the entry under the key `k`, if the store has one. -/
def updateStamp (checksumDB : ChecksumDB) (k : String) : Option String :=
  (checksumDB.lookup k).map (fun v => v.LastContentUpdate)

/-- A scan item reporting `b.txt` with the digest `fp3`. -/
def changedB : ScannedFile := { Path := "b.txt", Hash := fp3, Now := "2024-02-02T00:00:00Z" }

/-- A scan item reporting `a.txt` with its recorded digest `fp1` at a later time. -/
def sameA : ScannedFile := { Path := "a.txt", Hash := fp1, Now := "2024-02-02T00:00:00Z" }

/-! ## Theorems -/

section Loops

theorem compareDiskToDB_eq (checksumDB : ChecksumDB) (diskFiles : DiskFiles) (st : VerifyState) :
    compareDiskToDB checksumDB diskFiles st =
      { st with
        OK := st.OK ++ diskFiles.filterMap (okOf checksumDB)
        MOVED := st.MOVED ++ diskFiles.filterMap (movedOf checksumDB)
        processedDBPaths := st.processedDBPaths ++ diskFiles.filterMap (keyOf checksumDB)
        processedDiskPaths := st.processedDiskPaths ++ diskFiles.filterMap (seenOf checksumDB) } := by
  induction diskFiles generalizing st with
  | nil => simp [compareDiskToDB]
  | cons e rest ih =>
    have ih2 := ih (compareStep checksumDB st e)
    simp only [compareDiskToDB, List.foldl_cons] at ih2 ⊢
    rw [ih2]
    simp only [compareStep, okOf, movedOf, keyOf, seenOf, List.filterMap_cons]
    cases hl : List.lookup e.2 checksumDB with
    | none => simp
    | some infoData =>
      by_cases hany : infoData.RelativePaths.any (fun p => p.Path == e.1) = true
      · simp [hany]
      · simp [hany]

theorem checkInner_eq (diskFiles : DiskFiles) (hash : String) (paths : List PathEntry)
    (st : VerifyState) :
    paths.foldl (checkStep diskFiles hash) st =
      { st with
        MODIFIED := st.MODIFIED ++
          (paths.map (fun p => (hash, p))).filterMap (modOf diskFiles st.processedDBPaths)
        DELETED := st.DELETED ++
          (paths.map (fun p => (hash, p))).filterMap (delOf diskFiles st.processedDBPaths)
        processedDiskPaths := st.processedDiskPaths ++
          ((paths.map (fun p => (hash, p))).filterMap
            (modOf diskFiles st.processedDBPaths)).map (fun r => r.Path) } := by
  induction paths generalizing st with
  | nil => simp
  | cons p rest ih =>
    rw [List.foldl_cons, ih]
    simp only [checkStep, modOf, delOf, List.map_cons, List.filterMap_cons]
    by_cases hc : dbKey hash p.Path ∈ st.processedDBPaths
    · simp [hc]
    · cases hl : List.lookup p.Path diskFiles with
      | none => simp [hc]
      | some diskHash => simp [hc, mkModified]

theorem checkDB_eq (checksumDB : ChecksumDB) (diskFiles : DiskFiles) (st : VerifyState) :
    checkDB checksumDB diskFiles st =
      { st with
        MODIFIED := st.MODIFIED ++
          (records checksumDB).filterMap (modOf diskFiles st.processedDBPaths)
        DELETED := st.DELETED ++
          (records checksumDB).filterMap (delOf diskFiles st.processedDBPaths)
        processedDiskPaths := st.processedDiskPaths ++
          ((records checksumDB).filterMap
            (modOf diskFiles st.processedDBPaths)).map (fun r => r.Path) } := by
  induction checksumDB generalizing st with
  | nil => simp [checkDB, records]
  | cons e rest ih =>
    have ih2 := ih (e.2.RelativePaths.foldl (checkStep diskFiles e.1) st)
    simp only [checkDB, List.foldl_cons] at ih2 ⊢
    rw [ih2, checkInner_eq]
    simp [records, List.filterMap_append]

theorem findNew_eq (diskFiles : DiskFiles) (st : VerifyState) :
    findNew diskFiles st =
      { st with NEW := st.NEW ++ diskFiles.filterMap (newOf st.processedDiskPaths) } := by
  induction diskFiles generalizing st with
  | nil => simp [findNew]
  | cons e rest ih =>
    have ih2 := ih (newStep st e)
    simp only [findNew, List.foldl_cons] at ih2 ⊢
    rw [ih2]
    simp only [newStep, newOf, List.filterMap_cons]
    by_cases hc : e.1 ∈ st.processedDiskPaths
    · simp [hc]
    · simp [hc]

end Loops

section Groups

theorem lookup_eq_some_of_mem {β : Type} {m : List (String × β)} (hnd : NodupKeys m)
    {k : String} {v : β} (hmem : (k, v) ∈ m) : m.lookup k = some v := by
  induction m with
  | nil => simp at hmem
  | cons a rest ih =>
    obtain ⟨k', v'⟩ := a
    simp only [NodupKeys, List.map_cons, List.nodup_cons] at hnd
    rcases List.mem_cons.1 hmem with h | h
    · cases h; simp [List.lookup]
    · have hne : k ≠ k' := by
        intro hk; subst hk
        exact hnd.1 (List.mem_map_of_mem Prod.fst h)
      have hb : (k == k') = false := by simpa using hne
      simp only [List.lookup, hb]
      exact ih hnd.2 h

theorem mem_of_lookup_eq_some {β : Type} {m : List (String × β)} {k : String} {v : β}
    (h : m.lookup k = some v) : (k, v) ∈ m := by
  induction m with
  | nil => simp at h
  | cons a rest ih =>
    obtain ⟨k', v'⟩ := a
    by_cases hk : k = k'
    · subst hk; simp [List.lookup] at h; simp [h]
    · have hb : (k == k') = false := by simpa using hk
      simp only [List.lookup, hb] at h
      exact List.mem_cons_of_mem _ (ih h)

theorem lookup_eq_none_iff {β : Type} {m : List (String × β)} {k : String} :
    m.lookup k = none ↔ k ∉ m.map Prod.fst := by
  induction m with
  | nil => simp
  | cons a rest ih =>
    obtain ⟨k', v'⟩ := a
    by_cases hk : k = k'
    · subst hk; simp [List.lookup]
    · have hb : (k == k') = false := by simpa using hk
      simp only [List.lookup, hb, List.map_cons, List.mem_cons, hk, false_or]
      exact ih

theorem keys_appendToGroup (m : List (String × List Result)) (k : String) (r : Result) :
    (appendToGroup m k r).map Prod.fst =
      if k ∈ m.map Prod.fst then m.map Prod.fst else m.map Prod.fst ++ [k] := by
  induction m with
  | nil => simp [appendToGroup]
  | cons a rest ih =>
    obtain ⟨k', g⟩ := a
    by_cases hk : k' = k
    · simp [appendToGroup, hk]
    · have hk2 : ¬ k = k' := fun h => hk h.symm
      simp only [appendToGroup, hk, if_false, List.map_cons, ih, List.mem_cons, hk2, false_or]
      split <;> simp

theorem nodupKeys_appendToGroup {m : List (String × List Result)} (hnd : NodupKeys m)
    (k : String) (r : Result) : NodupKeys (appendToGroup m k r) := by
  unfold NodupKeys at *
  rw [keys_appendToGroup]
  split
  · exact hnd
  · rename_i hk
    exact List.Nodup.append hnd (List.nodup_singleton k) (by simpa using hk)

theorem lookup_appendToGroup (m : List (String × List Result)) (k' k : String) (r : Result) :
    (appendToGroup m k' r).lookup k =
      if k' = k then some ((m.lookup k).getD [] ++ [r]) else m.lookup k := by
  induction m with
  | nil =>
    by_cases hk : k' = k
    · subst hk; simp [appendToGroup, List.lookup]
    · have hb : (k == k') = false := by simpa using fun h => hk h.symm
      simp [appendToGroup, List.lookup, hk, hb]
  | cons a rest ih =>
    obtain ⟨k2, g⟩ := a
    by_cases h2 : k2 = k'
    · subst h2
      by_cases hk : k2 = k
      · subst hk; simp [appendToGroup, List.lookup]
      · have hb : (k == k2) = false := by simpa using fun h => hk h.symm
        simp [appendToGroup, List.lookup, hk, hb]
    · by_cases hk : k = k2
      · subst hk
        have h3 : ¬ k' = k := fun h => h2 h.symm
        simp [appendToGroup, List.lookup, h2, h3]
      · have hb : (k == k2) = false := by simpa using hk
        simp only [appendToGroup, h2, if_false, List.lookup, hb, ih]

theorem nodupKeys_groupFold (key : Result → String) (l : List Result)
    (m0 : List (String × List Result)) (hnd : NodupKeys m0) :
    NodupKeys (l.foldl (fun m r => appendToGroup m (key r) r) m0) := by
  induction l generalizing m0 with
  | nil => simpa using hnd
  | cons r rest ih => exact ih _ (nodupKeys_appendToGroup hnd _ _)

theorem lookup_groupFold (key : Result → String) (l : List Result)
    (m0 : List (String × List Result)) (k : String) :
    (l.foldl (fun m r => appendToGroup m (key r) r) m0).lookup k =
      if m0.lookup k = none ∧ l.filter (fun r => key r == k) = [] then none
      else some ((m0.lookup k).getD [] ++ l.filter (fun r => key r == k)) := by
  induction l generalizing m0 with
  | nil =>
    cases h : m0.lookup k <;> simp [h]
  | cons r rest ih =>
    rw [List.foldl_cons, ih, lookup_appendToGroup]
    by_cases hk : key r = k
    · simp [hk, List.filter_cons]
    · have hb : (key r == k) = false := by simpa using hk
      rw [if_neg hk, List.filter_cons, hb]
      simp

end Groups


section Rename

theorem removeResults_eq (all toRemove : List Result) :
    removeResults all toRemove = all.filter (fun r => !(toRemove.any (sameItem r))) := rfl

theorem renameFold_eq (hd : List (String × List Result)) (groups : List (String × List Result))
    (st : VerifyState) :
    groups.foldl (renameStep hd) st =
      { st with
        RENAMED := st.RENAMED ++ groups.filterMap (renamedOf hd)
        MOVED := st.MOVED.filter (fun r => !(dropsMoved hd groups r))
        DELETED := st.DELETED.filter (fun r => !(dropsDeleted hd groups r)) } := by
  induction groups generalizing st with
  | nil => simp [dropsMoved, dropsDeleted]
  | cons e rest ih =>
    rw [List.foldl_cons, ih]
    simp only [renameStep, renamedOf, dropsMoved, dropsDeleted, List.filterMap_cons, List.any_cons]
    cases hl : List.lookup e.1 hd with
    | none => simp
    | some deleted =>
      simp only [removeResults_eq, List.filter_filter, List.append_assoc, List.singleton_append]
      congr 1
      · apply List.filter_congr
        intro r _
        cases (e.2.any (sameItem r)) <;> simp
      · apply List.filter_congr
        intro r _
        cases (deleted.any (sameItem r)) <;> simp

end Rename


section RenameClosed

theorem lookup_group (key : Result → String) (l : List Result) (k : String) :
    (l.foldl (fun m r => appendToGroup m (key r) r) []).lookup k =
      if l.filter (fun r => key r == k) = [] then none
      else some (l.filter (fun r => key r == k)) := by
  rw [lookup_groupFold]; simp

theorem mem_group (key : Result → String) (l : List Result) (k : String) (g : List Result) :
    (k, g) ∈ l.foldl (fun m r => appendToGroup m (key r) r) [] ↔
      g = l.filter (fun r => key r == k) ∧ g ≠ [] := by
  have hnd : NodupKeys (l.foldl (fun m r => appendToGroup m (key r) r) []) :=
    nodupKeys_groupFold key l [] (by simp [NodupKeys])
  constructor
  · intro h
    have h2 := lookup_eq_some_of_mem hnd h
    rw [lookup_group] at h2
    split at h2
    · cases h2
    · rename_i hne
      cases h2
      exact ⟨rfl, hne⟩
  · rintro ⟨rfl, hne⟩
    apply mem_of_lookup_eq_some
    rw [lookup_group, if_neg hne]

theorem handleRenamed_MOVED (st : VerifyState) :
    (handleRenamed st).MOVED =
      st.MOVED.filter (fun r =>
        !(st.DELETED.any (fun d => d.OriginalContentHash == r.ContentHash))) := by
  unfold handleRenamed
  rw [renameFold_eq]
  apply List.filter_congr
  intro r hr
  congr 1
  rw [Bool.eq_iff_iff]
  simp only [dropsMoved, List.any_eq_true, groupMoved, groupDeleted]
  constructor
  · rintro ⟨⟨k, g⟩, hmem, hcond⟩
    rw [mem_group] at hmem
    obtain ⟨rfl, -⟩ := hmem
    simp only [lookup_group] at hcond
    split at hcond
    · rename_i d hd
      split at hd
      · cases hd
      · rename_i hne
        obtain ⟨rem, hrem, hsame⟩ := List.any_eq_true.1 hcond
        obtain ⟨x, hx⟩ := List.exists_mem_of_ne_nil _ hne
        have hx2 := List.mem_filter.1 hx
        have hrem2 := List.mem_filter.1 hrem
        refine ⟨x, hx2.1, ?_⟩
        simp only [sameItem, Bool.and_eq_true, beq_iff_eq] at hsame
        simp only [beq_iff_eq] at hx2 hrem2 ⊢
        rw [hx2.2, hsame.2, hrem2.2]
    · cases hcond
  · rintro ⟨d, hd, hdr⟩
    simp only [beq_iff_eq] at hdr
    refine ⟨(r.ContentHash, st.MOVED.filter (fun m => m.ContentHash == r.ContentHash)), ?_, ?_⟩
    · rw [mem_group]
      refine ⟨rfl, List.ne_nil_of_mem (List.mem_filter.2 ⟨hr, by simp⟩)⟩
    · have hne : st.DELETED.filter (fun x => x.OriginalContentHash == r.ContentHash) ≠ [] :=
        List.ne_nil_of_mem (List.mem_filter.2 ⟨hd, by simp [hdr]⟩)
      simp only [lookup_group, if_neg hne]
      exact List.any_eq_true.2 ⟨r, List.mem_filter.2 ⟨hr, by simp⟩, by simp [sameItem]⟩

theorem handleRenamed_DELETED (st : VerifyState) :
    (handleRenamed st).DELETED =
      st.DELETED.filter (fun r =>
        !(st.DELETED.any (fun d => sameItem r d &&
          st.MOVED.any (fun m => m.ContentHash == d.OriginalContentHash)))) := by
  unfold handleRenamed
  rw [renameFold_eq]
  apply List.filter_congr
  intro r _
  congr 1
  rw [Bool.eq_iff_iff]
  simp only [dropsDeleted, List.any_eq_true, groupMoved, groupDeleted]
  constructor
  · rintro ⟨⟨k, g⟩, hmem, hcond⟩
    rw [mem_group] at hmem
    obtain ⟨rfl, hgne⟩ := hmem
    simp only [lookup_group] at hcond
    split at hcond
    · rename_i d hd
      split at hd
      · cases hd
      · cases hd
        obtain ⟨rem, hrem, hsame⟩ := List.any_eq_true.1 hcond
        obtain ⟨x, hx⟩ := List.exists_mem_of_ne_nil _ hgne
        have hx2 := List.mem_filter.1 hx
        have hrem2 := List.mem_filter.1 hrem
        refine ⟨rem, hrem2.1, ?_⟩
        simp only [beq_iff_eq] at hx2 hrem2
        simp only [hsame, Bool.true_and, List.any_eq_true, beq_iff_eq]
        exact ⟨x, hx2.1, by rw [hx2.2, hrem2.2]⟩
    · cases hcond
  · rintro ⟨d, hd, hdr⟩
    simp only [Bool.and_eq_true, List.any_eq_true, beq_iff_eq] at hdr
    obtain ⟨hsame, m, hm, hmd⟩ := hdr
    refine ⟨(d.OriginalContentHash,
      st.MOVED.filter (fun x => x.ContentHash == d.OriginalContentHash)), ?_, ?_⟩
    · rw [mem_group]
      exact ⟨rfl, List.ne_nil_of_mem (List.mem_filter.2 ⟨hm, by simp [hmd]⟩)⟩
    · have hne : st.DELETED.filter
          (fun x => x.OriginalContentHash == d.OriginalContentHash) ≠ [] :=
        List.ne_nil_of_mem (List.mem_filter.2 ⟨hd, by simp⟩)
      simp only [lookup_group, if_neg hne]
      exact List.any_eq_true.2 ⟨d, List.mem_filter.2 ⟨hd, by simp⟩, hsame⟩

theorem handleRenamed_RENAMED (st : VerifyState) :
    (handleRenamed st).RENAMED =
      st.RENAMED ++ (groupMoved st.MOVED).filterMap (renamedOf (groupDeleted st.DELETED)) := by
  unfold handleRenamed
  rw [renameFold_eq]

theorem handleRenamed_frame (st : VerifyState) :
    (handleRenamed st).OK = st.OK ∧ (handleRenamed st).MODIFIED = st.MODIFIED ∧
      (handleRenamed st).NEW = st.NEW := by
  unfold handleRenamed
  rw [renameFold_eq]
  exact ⟨rfl, rfl, rfl⟩

end RenameClosed


section Provisional

theorem provisional_OK (db : ChecksumDB) (disk : DiskFiles) :
    (provisional db disk).OK = disk.filterMap (okOf db) := by
  simp [provisional, findNew_eq, checkDB_eq, compareDiskToDB_eq, VerifyState.init]

theorem provisional_MOVED (db : ChecksumDB) (disk : DiskFiles) :
    (provisional db disk).MOVED = disk.filterMap (movedOf db) := by
  simp [provisional, findNew_eq, checkDB_eq, compareDiskToDB_eq, VerifyState.init]

theorem provisional_processedDBPaths (db : ChecksumDB) (disk : DiskFiles) :
    (provisional db disk).processedDBPaths = disk.filterMap (keyOf db) := by
  simp [provisional, findNew_eq, checkDB_eq, compareDiskToDB_eq, VerifyState.init]

theorem provisional_MODIFIED (db : ChecksumDB) (disk : DiskFiles) :
    (provisional db disk).MODIFIED =
      (records db).filterMap (modOf disk (disk.filterMap (keyOf db))) := by
  simp [provisional, findNew_eq, checkDB_eq, compareDiskToDB_eq, VerifyState.init]

theorem provisional_DELETED (db : ChecksumDB) (disk : DiskFiles) :
    (provisional db disk).DELETED =
      (records db).filterMap (delOf disk (disk.filterMap (keyOf db))) := by
  simp [provisional, findNew_eq, checkDB_eq, compareDiskToDB_eq, VerifyState.init]

theorem provisional_processedDiskPaths (db : ChecksumDB) (disk : DiskFiles) :
    (provisional db disk).processedDiskPaths =
      disk.filterMap (seenOf db) ++
        ((records db).filterMap (modOf disk (disk.filterMap (keyOf db)))).map (fun r => r.Path) := by
  simp [provisional, findNew_eq, checkDB_eq, compareDiskToDB_eq, VerifyState.init]

theorem provisional_NEW (db : ChecksumDB) (disk : DiskFiles) :
    (provisional db disk).NEW =
      disk.filterMap (newOf (provisional db disk).processedDiskPaths) := by
  simp [provisional, findNew_eq, checkDB_eq, compareDiskToDB_eq, VerifyState.init]

theorem provisional_RENAMED (db : ChecksumDB) (disk : DiskFiles) :
    (provisional db disk).RENAMED = [] := by
  simp [provisional, findNew_eq, checkDB_eq, compareDiskToDB_eq, VerifyState.init]

theorem any_path_iff (paths : List PathEntry) (path : String) :
    paths.any (fun p => p.Path == path) = true ↔ ∃ p ∈ paths, p.Path = path := by
  simp [List.any_eq_true]

theorem okOf_eq_some {db : ChecksumDB} {e : String × String} {r : Result} :
    okOf db e = some r ↔ HasRecord db e.2 e.1 ∧ r = mkPlain e.1 e.2 := by
  unfold okOf HasRecord
  cases hl : List.lookup e.2 db with
  | none => simp
  | some info =>
    by_cases hany : info.RelativePaths.any (fun p => p.Path == e.1) = true
    · have h2 := (any_path_iff _ _).1 hany
      simp only [hany, if_true, Option.some.injEq]
      constructor
      · rintro rfl; exact ⟨⟨info, rfl, h2⟩, rfl⟩
      · rintro ⟨-, rfl⟩; rfl
    · have h2 : ¬ ∃ p ∈ info.RelativePaths, p.Path = e.1 := fun h => hany ((any_path_iff _ _).2 h)
      simp only [hany]
      constructor
      · intro h; simp at h
      · rintro ⟨⟨info', h1, h3⟩, -⟩
        cases h1; exact absurd h3 h2

theorem keyOf_eq_some {db : ChecksumDB} {e : String × String} {k : String} :
    keyOf db e = some k ↔ HasRecord db e.2 e.1 ∧ k = dbKey e.2 e.1 := by
  unfold keyOf HasRecord
  cases hl : List.lookup e.2 db with
  | none => simp
  | some info =>
    by_cases hany : info.RelativePaths.any (fun p => p.Path == e.1) = true
    · have h2 := (any_path_iff _ _).1 hany
      simp only [hany, if_true, Option.some.injEq]
      constructor
      · rintro rfl; exact ⟨⟨info, rfl, h2⟩, rfl⟩
      · rintro ⟨-, rfl⟩; rfl
    · have h2 : ¬ ∃ p ∈ info.RelativePaths, p.Path = e.1 := fun h => hany ((any_path_iff _ _).2 h)
      simp only [hany]
      constructor
      · intro h; simp at h
      · rintro ⟨⟨info', h1, h3⟩, -⟩
        cases h1; exact absurd h3 h2

theorem movedOf_eq_some {db : ChecksumDB} {e : String × String} {r : Result} :
    movedOf db e = some r ↔
      ∃ info, db.lookup e.2 = some info ∧ (¬ ∃ p ∈ info.RelativePaths, p.Path = e.1) ∧
        r = mkMoved e.1 e.2 info := by
  unfold movedOf
  cases hl : List.lookup e.2 db with
  | none => simp
  | some info =>
    by_cases hany : info.RelativePaths.any (fun p => p.Path == e.1) = true
    · have h2 := (any_path_iff _ _).1 hany
      simp only [hany, if_true]
      constructor
      · intro h; simp at h
      · rintro ⟨info', h1, h3, -⟩
        cases h1; exact absurd h2 h3
    · have h2 : ¬ ∃ p ∈ info.RelativePaths, p.Path = e.1 := fun h => hany ((any_path_iff _ _).2 h)
      simp only [hany, Option.some.injEq]
      constructor
      · intro h; cases h; exact ⟨info, rfl, h2, rfl⟩
      · rintro ⟨info', h1, -, rfl⟩
        cases h1; rfl

theorem seenOf_eq_some {db : ChecksumDB} {e : String × String} {p : String} :
    seenOf db e = some p ↔ (∃ info, db.lookup e.2 = some info) ∧ p = e.1 := by
  unfold seenOf
  cases hl : List.lookup e.2 db with
  | none => simp
  | some info => simp [eq_comm]

theorem modOf_eq_some {disk : DiskFiles} {processed : List String} {x : String × PathEntry}
    {r : Result} :
    modOf disk processed x = some r ↔
      dbKey x.1 x.2.Path ∉ processed ∧
        ∃ diskHash, disk.lookup x.2.Path = some diskHash ∧ r = mkModified x.2.Path x.1 diskHash := by
  unfold modOf
  by_cases hc : dbKey x.1 x.2.Path ∈ processed
  · simp [hc]
  · cases hl : List.lookup x.2.Path disk with
    | none => simp [hc]
    | some diskHash => simp [hc, eq_comm]

theorem delOf_eq_some {disk : DiskFiles} {processed : List String} {x : String × PathEntry}
    {r : Result} :
    delOf disk processed x = some r ↔
      dbKey x.1 x.2.Path ∉ processed ∧ disk.lookup x.2.Path = none ∧
        r = mkDeleted x.2.Path x.1 := by
  unfold delOf
  by_cases hc : dbKey x.1 x.2.Path ∈ processed
  · simp [hc]
  · cases hl : List.lookup x.2.Path disk with
    | none => simp [hc, eq_comm]
    | some diskHash => simp [hc]

theorem newOf_eq_some {seen : List String} {e : String × String} {r : Result} :
    newOf seen e = some r ↔ e.1 ∉ seen ∧ r = mkPlain e.1 e.2 := by
  unfold newOf
  by_cases hc : e.1 ∈ seen
  · simp [hc]
  · simp [hc, eq_comm]

theorem mem_records {db : ChecksumDB} {x : String × PathEntry} :
    x ∈ records db ↔ ∃ info, (x.1, info) ∈ db ∧ x.2 ∈ info.RelativePaths := by
  unfold records
  simp only [List.mem_flatMap, List.mem_map]
  constructor
  · rintro ⟨⟨h, info⟩, he, p, hp, rfl⟩
    exact ⟨info, he, hp⟩
  · rintro ⟨info, he, hp⟩
    exact ⟨(x.1, info), he, x.2, hp, rfl⟩

theorem dbKey_inj {h1 h2 p1 p2 : String} (hlen : h1.data.length = h2.data.length)
    (hk : dbKey h1 p1 = dbKey h2 p2) : h1 = h2 ∧ p1 = p2 := by
  unfold dbKey at hk
  have hd := congrArg String.data hk
  simp only [String.data_append, List.append_assoc] at hd
  obtain ⟨e1, e2⟩ := List.append_inj hd hlen
  have e3 := List.append_cancel_left e2
  exact ⟨String.ext e1, String.ext e3⟩

theorem isMD5_length {h : String} (hm : isMD5 h = true) : h.data.length = 32 := by
  unfold isMD5 at hm
  simp only [Bool.and_eq_true, beq_iff_eq] at hm
  exact hm.1

end Provisional


section Verdict

theorem mem_renamedOf_group {st : VerifyState} {x : Result} :
    x ∈ (groupMoved st.MOVED).filterMap (renamedOf (groupDeleted st.DELETED)) ↔
      ∃ h, (∃ m ∈ st.MOVED, m.ContentHash = h) ∧ (∃ d ∈ st.DELETED, d.OriginalContentHash = h) ∧
        x = mkRenamed h (st.DELETED.filter (fun d => d.OriginalContentHash == h))
          (st.MOVED.filter (fun m => m.ContentHash == h)) := by
  simp only [List.mem_filterMap, groupMoved, groupDeleted, renamedOf]
  constructor
  · rintro ⟨⟨k, g⟩, hmem, hx⟩
    rw [mem_group] at hmem
    obtain ⟨rfl, hgne⟩ := hmem
    simp only [lookup_group] at hx
    split at hx
    · rename_i d hd
      split at hd
      · cases hd
      · rename_i hne
        cases hd
        obtain ⟨m, hm⟩ := List.exists_mem_of_ne_nil _ hgne
        obtain ⟨d, hd⟩ := List.exists_mem_of_ne_nil _ hne
        have hm2 := List.mem_filter.1 hm
        have hd2 := List.mem_filter.1 hd
        simp only [beq_iff_eq] at hm2 hd2
        refine ⟨k, ⟨m, hm2.1, hm2.2⟩, ⟨d, hd2.1, hd2.2⟩, ?_⟩
        simpa using hx.symm
    · cases hx
  · rintro ⟨h, ⟨m, hm, hmh⟩, ⟨d, hd, hdh⟩, rfl⟩
    refine ⟨(h, st.MOVED.filter (fun m => m.ContentHash == h)), ?_, ?_⟩
    · rw [mem_group]
      exact ⟨rfl, List.ne_nil_of_mem (List.mem_filter.2 ⟨hm, by simp [hmh]⟩)⟩
    · have hne : st.DELETED.filter (fun x => x.OriginalContentHash == h) ≠ [] :=
        List.ne_nil_of_mem (List.mem_filter.2 ⟨hd, by simp [hdh]⟩)
      simp only [lookup_group, if_neg hne]

theorem lists_of_totalDiscrepancies_zero {st : VerifyState} (h : totalDiscrepancies st = 0) :
    st.MODIFIED = [] ∧ st.MOVED = [] ∧ st.NEW = [] ∧ st.DELETED = [] ∧ st.RENAMED = [] := by
  unfold totalDiscrepancies at h
  refine ⟨?_, ?_, ?_, ?_, ?_⟩ <;> apply List.eq_nil_of_length_eq_zero <;> omega

theorem provisional_clean_of_final_clean {st : VerifyState}
    (hM : (handleRenamed st).MOVED = []) (hD : (handleRenamed st).DELETED = [])
    (hR : (handleRenamed st).RENAMED = []) : st.MOVED = [] ∧ st.DELETED = [] := by
  rw [handleRenamed_RENAMED] at hR
  have hR2 := (List.append_eq_nil.1 hR).2
  have hmoved : st.MOVED = [] := by
    apply List.eq_nil_iff_forall_not_mem.2
    intro r hr
    by_cases hex : ∃ d ∈ st.DELETED, d.OriginalContentHash = r.ContentHash
    · have : mkRenamed r.ContentHash
          (st.DELETED.filter (fun d => d.OriginalContentHash == r.ContentHash))
          (st.MOVED.filter (fun m => m.ContentHash == r.ContentHash)) ∈
          (groupMoved st.MOVED).filterMap (renamedOf (groupDeleted st.DELETED)) :=
        mem_renamedOf_group.2 ⟨r.ContentHash, ⟨r, hr, rfl⟩, hex, rfl⟩
      rw [hR2] at this
      simp at this
    · have : r ∈ (handleRenamed st).MOVED := by
        rw [handleRenamed_MOVED]
        refine List.mem_filter.2 ⟨hr, ?_⟩
        simp only [Bool.not_eq_true', List.any_eq_false, beq_iff_eq]
        intro d hd hdr
        exact hex ⟨d, hd, hdr⟩
      rw [hM] at this
      simp at this
  refine ⟨hmoved, ?_⟩
  apply List.eq_nil_iff_forall_not_mem.2
  intro d hd
  have : d ∈ (handleRenamed st).DELETED := by
    rw [handleRenamed_DELETED]
    refine List.mem_filter.2 ⟨hd, ?_⟩
    simp [hmoved]
  rw [hD] at this
  simp at this

theorem mem_db_of_lookup {db : ChecksumDB} {h : String} {info : InfoData}
    (hl : db.lookup h = some info) : (h, info) ∈ db := mem_of_lookup_eq_some hl

theorem eq_of_mem_nodupKeys {β : Type} {m : List (String × β)} (hnd : NodupKeys m)
    {e1 e2 : String × β} (h1 : e1 ∈ m) (h2 : e2 ∈ m) (hk : e1.1 = e2.1) : e1 = e2 := by
  obtain ⟨k1, v1⟩ := e1
  obtain ⟨k2, v2⟩ := e2
  simp only at hk
  subst hk
  have a := lookup_eq_some_of_mem hnd h1
  have b := lookup_eq_some_of_mem hnd h2
  rw [a] at b
  cases b
  rfl

end Verdict


section C1

/-- C1 (verdict soundness): if the store's keys are well-formed fingerprints, the disk index is a
map, and `TestMD5Hashes` counts no discrepancy (the final MODIFIED, MOVED, NEW, DELETED and
RENAMED lists are empty), then every disk pair `(path, h)` has a path record for `path` in the
store entry for `h`, and every path record `(h, path)` of the store has `disk[path] = h`. -/
theorem verdict_sound (checksumDB : ChecksumDB) (diskFiles : DiskFiles)
    (hwf : WellFormedKeys checksumDB) (hdisk : NodupKeys diskFiles)
    (hzero : totalDiscrepancies (reconcile checksumDB diskFiles) = 0) :
    (∀ e ∈ diskFiles, HasRecord checksumDB e.2 e.1) ∧
      (∀ x ∈ records checksumDB, diskFiles.lookup x.2.Path = some x.1) := by
  obtain ⟨hMod, hMov, hNew, hDel, hRen⟩ := lists_of_totalDiscrepancies_zero hzero
  unfold reconcile at hMod hMov hNew hDel hRen
  obtain ⟨hpM, hpD⟩ := provisional_clean_of_final_clean hMov hDel hRen
  obtain ⟨-, fMod, fNew⟩ := handleRenamed_frame (provisional checksumDB diskFiles)
  rw [fMod] at hMod
  rw [fNew] at hNew
  constructor
  · intro e he
    -- the pair is not NEW, so its path was marked in the first loop
    have hseen : e.1 ∈ (provisional checksumDB diskFiles).processedDiskPaths := by
      by_contra hns
      have : mkPlain e.1 e.2 ∈ (provisional checksumDB diskFiles).NEW := by
        rw [provisional_NEW]
        exact List.mem_filterMap.2 ⟨e, he, newOf_eq_some.2 ⟨hns, rfl⟩⟩
      rw [hNew] at this
      simp at this
    rw [provisional_processedDiskPaths, ← provisional_MODIFIED, hMod] at hseen
    simp only [List.map_nil, List.append_nil, List.mem_filterMap] at hseen
    obtain ⟨e', he', hs⟩ := hseen
    obtain ⟨⟨info, hl⟩, hp⟩ := seenOf_eq_some.1 hs
    have hee : e' = e := eq_of_mem_nodupKeys hdisk he' he hp.symm
    subst hee
    by_contra hno
    have : mkMoved e'.1 e'.2 info ∈ (provisional checksumDB diskFiles).MOVED := by
      rw [provisional_MOVED]
      refine List.mem_filterMap.2 ⟨e', he, movedOf_eq_some.2 ⟨info, hl, ?_, rfl⟩⟩
      intro hex
      exact hno ⟨info, hl, hex⟩
    rw [hpM] at this
    simp at this
  · intro x hx
    have hkey : dbKey x.1 x.2.Path ∈ diskFiles.filterMap (keyOf checksumDB) := by
      by_contra hnk
      cases hl : diskFiles.lookup x.2.Path with
      | none =>
        have : mkDeleted x.2.Path x.1 ∈ (provisional checksumDB diskFiles).DELETED := by
          rw [provisional_DELETED]
          exact List.mem_filterMap.2 ⟨x, hx, delOf_eq_some.2 ⟨hnk, hl, rfl⟩⟩
        rw [hpD] at this
        simp at this
      | some diskHash =>
        have : mkModified x.2.Path x.1 diskHash ∈ (provisional checksumDB diskFiles).MODIFIED := by
          rw [provisional_MODIFIED]
          exact List.mem_filterMap.2 ⟨x, hx, modOf_eq_some.2 ⟨hnk, diskHash, hl, rfl⟩⟩
        rw [hMod] at this
        simp at this
    obtain ⟨e, he, hk⟩ := List.mem_filterMap.1 hkey
    obtain ⟨⟨info, hl, -⟩, hkeq⟩ := keyOf_eq_some.1 hk
    obtain ⟨info', hx1, -⟩ := mem_records.1 hx
    have l1 := isMD5_length (hwf _ hx1)
    have l2 := isMD5_length (hwf _ (mem_db_of_lookup hl))
    obtain ⟨e1, e2⟩ := dbKey_inj (l1.trans l2.symm) hkeq
    simp only at l1 l2 e1
    rw [e1, e2]
    exact lookup_eq_some_of_mem hdisk he

theorem verdict_sound_witness :
    WellFormedKeys cleanDB ∧ NodupKeys cleanDisk ∧
      totalDiscrepancies (reconcile cleanDB cleanDisk) = 0 ∧
      ((∀ e ∈ cleanDisk, HasRecord cleanDB e.2 e.1) ∧
        (∀ x ∈ records cleanDB, cleanDisk.lookup x.2.Path = some x.1)) :=
  ⟨by decide, by decide, by decide,
    verdict_sound cleanDB cleanDisk (by decide) (by decide) (by decide)⟩

end C1


section C2

theorem mem_pathsOf {rs : List Result} {p : String} :
    p ∈ pathsOf rs ↔ ∃ r ∈ rs, r.Path = p := by
  simp [pathsOf]

theorem final_MOVED_subset {st : VerifyState} {r : Result}
    (h : r ∈ (handleRenamed st).MOVED) : r ∈ st.MOVED := by
  rw [handleRenamed_MOVED] at h
  exact (List.mem_filter.1 h).1

theorem eq_of_mem_records {db : ChecksumDB} (hu : UniquePaths db) {x y : String × PathEntry}
    (hx : x ∈ records db) (hy : y ∈ records db) (hp : x.2.Path = y.2.Path) : x = y :=
  List.inj_on_of_nodup_map hu hx hy hp

theorem mem_records_of_hasRecord {db : ChecksumDB} {h p : String} (hr : HasRecord db h p) :
    ∃ pe, (h, pe) ∈ records db ∧ pe.Path = p := by
  obtain ⟨info, hl, pe, hpe, hp⟩ := hr
  exact ⟨pe, mem_records.2 ⟨info, mem_db_of_lookup hl, hpe⟩, hp⟩

theorem seen_of_ok {db : ChecksumDB} {disk : DiskFiles} {p : String}
    (h : p ∈ pathsOf (provisional db disk).OK) :
    p ∈ (provisional db disk).processedDiskPaths := by
  obtain ⟨r, hr, rfl⟩ := mem_pathsOf.1 h
  rw [provisional_OK] at hr
  obtain ⟨e, he, ho⟩ := List.mem_filterMap.1 hr
  obtain ⟨⟨info, hl, -⟩, rfl⟩ := okOf_eq_some.1 ho
  rw [provisional_processedDiskPaths]
  exact List.mem_append_left _ (List.mem_filterMap.2 ⟨e, he, seenOf_eq_some.2 ⟨⟨info, hl⟩, rfl⟩⟩)

theorem seen_of_moved {db : ChecksumDB} {disk : DiskFiles} {p : String}
    (h : p ∈ pathsOf (provisional db disk).MOVED) :
    p ∈ (provisional db disk).processedDiskPaths := by
  obtain ⟨r, hr, rfl⟩ := mem_pathsOf.1 h
  rw [provisional_MOVED] at hr
  obtain ⟨e, he, ho⟩ := List.mem_filterMap.1 hr
  obtain ⟨info, hl, -, rfl⟩ := movedOf_eq_some.1 ho
  rw [provisional_processedDiskPaths]
  exact List.mem_append_left _ (List.mem_filterMap.2 ⟨e, he, seenOf_eq_some.2 ⟨⟨info, hl⟩, rfl⟩⟩)

theorem seen_of_modified {db : ChecksumDB} {disk : DiskFiles} {p : String}
    (h : p ∈ pathsOf (provisional db disk).MODIFIED) :
    p ∈ (provisional db disk).processedDiskPaths := by
  rw [provisional_processedDiskPaths, ← provisional_MODIFIED]
  exact List.mem_append_right _ h

theorem not_seen_of_new {db : ChecksumDB} {disk : DiskFiles} {p : String}
    (h : p ∈ pathsOf (provisional db disk).NEW) :
    p ∉ (provisional db disk).processedDiskPaths := by
  obtain ⟨r, hr, rfl⟩ := mem_pathsOf.1 h
  rw [provisional_NEW] at hr
  obtain ⟨e, -, ho⟩ := List.mem_filterMap.1 hr
  obtain ⟨hns, rfl⟩ := newOf_eq_some.1 ho
  exact hns

theorem final_paths (db : ChecksumDB) (disk : DiskFiles) :
    (reconcile db disk).OK = (provisional db disk).OK ∧
      (reconcile db disk).MODIFIED = (provisional db disk).MODIFIED ∧
      (reconcile db disk).NEW = (provisional db disk).NEW := handleRenamed_frame _

theorem final_MOVED_paths {db : ChecksumDB} {disk : DiskFiles} {p : String}
    (h : p ∈ pathsOf (reconcile db disk).MOVED) : p ∈ pathsOf (provisional db disk).MOVED := by
  obtain ⟨r, hr, rfl⟩ := mem_pathsOf.1 h
  exact mem_pathsOf.2 ⟨r, final_MOVED_subset hr, rfl⟩

/-- C2, the claim as stated fails: with `a.txt` under `fp1` and `b.txt` under `fp2` in the store
(every path in one entry, once) and both files carrying `fp2` on disk, the path `a.txt` is in the
final MOVED list and in the final MODIFIED list. -/
theorem disjoint_counterexample :
    UniquePaths twoDB ∧ NodupKeys twoDB ∧ NodupKeys overwrittenDisk ∧
      "a.txt" ∈ pathsOf (reconcile twoDB overwrittenDisk).MOVED ∧
      "a.txt" ∈ pathsOf (reconcile twoDB overwrittenDisk).MODIFIED := by
  decide

/-- C2 as amended: for a store in which each path occurs in at most one entry and at most once
in it, and a disk index that is a map, no path is the `Path` of results in two of the final OK,
MOVED, MODIFIED and NEW lists, the pair MOVED and MODIFIED excepted. -/
theorem disjoint_except_moved_modified (checksumDB : ChecksumDB) (diskFiles : DiskFiles)
    (hu : UniquePaths checksumDB) (hdisk : NodupKeys diskFiles) (p : String) :
    ¬ (p ∈ pathsOf (reconcile checksumDB diskFiles).OK ∧
        p ∈ pathsOf (reconcile checksumDB diskFiles).MOVED) ∧
    ¬ (p ∈ pathsOf (reconcile checksumDB diskFiles).OK ∧
        p ∈ pathsOf (reconcile checksumDB diskFiles).MODIFIED) ∧
    ¬ (p ∈ pathsOf (reconcile checksumDB diskFiles).OK ∧
        p ∈ pathsOf (reconcile checksumDB diskFiles).NEW) ∧
    ¬ (p ∈ pathsOf (reconcile checksumDB diskFiles).MOVED ∧
        p ∈ pathsOf (reconcile checksumDB diskFiles).NEW) ∧
    ¬ (p ∈ pathsOf (reconcile checksumDB diskFiles).MODIFIED ∧
        p ∈ pathsOf (reconcile checksumDB diskFiles).NEW) := by
  obtain ⟨fOK, fMod, fNew⟩ := final_paths checksumDB diskFiles
  rw [fOK, fMod, fNew]
  refine ⟨?_, ?_, ?_, ?_, ?_⟩
  · rintro ⟨hok, hmv⟩
    obtain ⟨r1, hr1, hp1⟩ := mem_pathsOf.1 hok
    obtain ⟨r2, hr2, hp2⟩ := mem_pathsOf.1 (final_MOVED_paths hmv)
    rw [provisional_OK] at hr1
    rw [provisional_MOVED] at hr2
    obtain ⟨e1, he1, ho1⟩ := List.mem_filterMap.1 hr1
    obtain ⟨e2, he2, ho2⟩ := List.mem_filterMap.1 hr2
    obtain ⟨⟨info1, hl1, hex1⟩, rfl⟩ := okOf_eq_some.1 ho1
    obtain ⟨info2, hl2, hno2, rfl⟩ := movedOf_eq_some.1 ho2
    simp only [mkPlain, mkMoved] at hp1 hp2
    have hee : e1 = e2 := eq_of_mem_nodupKeys hdisk he1 he2 (hp1.trans hp2.symm)
    subst hee
    rw [hl1] at hl2
    cases hl2
    exact hno2 hex1
  · rintro ⟨hok, hmd⟩
    obtain ⟨r1, hr1, hp1⟩ := mem_pathsOf.1 hok
    obtain ⟨r2, hr2, hp2⟩ := mem_pathsOf.1 hmd
    rw [provisional_OK] at hr1
    rw [provisional_MODIFIED] at hr2
    obtain ⟨e1, he1, ho1⟩ := List.mem_filterMap.1 hr1
    obtain ⟨x, hx, ho2⟩ := List.mem_filterMap.1 hr2
    obtain ⟨hrec, rfl⟩ := okOf_eq_some.1 ho1
    obtain ⟨hnk, diskHash, -, rfl⟩ := modOf_eq_some.1 ho2
    simp only [mkPlain, mkModified] at hp1 hp2
    obtain ⟨pe, hpe, hpp⟩ := mem_records_of_hasRecord hrec
    have hxy : x = (e1.2, pe) := eq_of_mem_records hu hx hpe (by simp [hp2, hpp, hp1])
    apply hnk
    refine List.mem_filterMap.2 ⟨e1, he1, keyOf_eq_some.2 ⟨hrec, ?_⟩⟩
    rw [hxy]
    simp [hpp]
  · rintro ⟨hok, hnew⟩
    exact not_seen_of_new hnew (seen_of_ok hok)
  · rintro ⟨hmv, hnew⟩
    exact not_seen_of_new hnew (seen_of_moved (final_MOVED_paths hmv))
  · rintro ⟨hmd, hnew⟩
    exact not_seen_of_new hnew (seen_of_modified hmd)

theorem disjoint_except_moved_modified_witness :
    UniquePaths twoDB ∧ NodupKeys overwrittenDisk ∧
      (¬ ("a.txt" ∈ pathsOf (reconcile twoDB overwrittenDisk).OK ∧
          "a.txt" ∈ pathsOf (reconcile twoDB overwrittenDisk).MOVED) ∧
        ¬ ("a.txt" ∈ pathsOf (reconcile twoDB overwrittenDisk).OK ∧
          "a.txt" ∈ pathsOf (reconcile twoDB overwrittenDisk).MODIFIED) ∧
        ¬ ("a.txt" ∈ pathsOf (reconcile twoDB overwrittenDisk).OK ∧
          "a.txt" ∈ pathsOf (reconcile twoDB overwrittenDisk).NEW) ∧
        ¬ ("a.txt" ∈ pathsOf (reconcile twoDB overwrittenDisk).MOVED ∧
          "a.txt" ∈ pathsOf (reconcile twoDB overwrittenDisk).NEW) ∧
        ¬ ("a.txt" ∈ pathsOf (reconcile twoDB overwrittenDisk).MODIFIED ∧
          "a.txt" ∈ pathsOf (reconcile twoDB overwrittenDisk).NEW)) :=
  ⟨by decide, by decide,
    disjoint_except_moved_modified twoDB overwrittenDisk (by decide) (by decide) "a.txt"⟩

end C2


section C3

theorem mem_getPathsFromResults {rs : List Result} {p : String} :
    p ∈ getPathsFromResults rs ↔ p ≠ "" ∧ ∃ r ∈ rs, r.Path = p := by
  unfold getPathsFromResults
  simp only [List.mem_map, List.mem_filter, bne_iff_ne, ne_eq]
  constructor
  · rintro ⟨r, ⟨hr, hne⟩, rfl⟩
    exact ⟨hne, r, hr, rfl⟩
  · rintro ⟨hne, r, hr, rfl⟩
    exact ⟨r, ⟨hr, hne⟩, rfl⟩

/-- Every provisional MOVED result with a non-empty path is either still MOVED in the final
state or its path is among the `NewPaths` of a RENAMED result. -/
theorem moved_or_renamed {st : VerifyState} {r : Result} (hr : r ∈ st.MOVED)
    (hne : r.Path ≠ "") :
    r ∈ (handleRenamed st).MOVED ∨ ∃ x ∈ (handleRenamed st).RENAMED, r.Path ∈ x.NewPaths := by
  by_cases hex : ∃ d ∈ st.DELETED, d.OriginalContentHash = r.ContentHash
  · right
    refine ⟨mkRenamed r.ContentHash
        (st.DELETED.filter (fun d => d.OriginalContentHash == r.ContentHash))
        (st.MOVED.filter (fun m => m.ContentHash == r.ContentHash)), ?_, ?_⟩
    · rw [handleRenamed_RENAMED]
      exact List.mem_append_right _ (mem_renamedOf_group.2 ⟨r.ContentHash, ⟨r, hr, rfl⟩, hex, rfl⟩)
    · simp only [mkRenamed]
      exact mem_getPathsFromResults.2 ⟨hne, r, List.mem_filter.2 ⟨hr, by simp⟩, rfl⟩
  · left
    rw [handleRenamed_MOVED]
    refine List.mem_filter.2 ⟨hr, ?_⟩
    simp only [Bool.not_eq_true', List.any_eq_false, beq_iff_eq]
    intro d hd hdr
    exact hex ⟨d, hd, hdr⟩

/-- Why disk-side coverage is stated for non-empty paths: on a list keyed by the empty path,
which is not a disk index `TestMD5Hashes` can build, the guard of `getPathsFromResults` leaves
the empty path out of every disk-side category. -/
theorem empty_disk_path_uncovered :
    "" ∈ emptyPathDisk.map Prod.fst ∧
      "" ∉ pathsOf (reconcile oneDB emptyPathDisk).OK ∧
      "" ∉ pathsOf (reconcile oneDB emptyPathDisk).MOVED ∧
      "" ∉ pathsOf (reconcile oneDB emptyPathDisk).MODIFIED ∧
      "" ∉ pathsOf (reconcile oneDB emptyPathDisk).NEW ∧
      ∀ r ∈ (reconcile oneDB emptyPathDisk).RENAMED, "" ∉ r.NewPaths := by
  decide

/-- C3 (disk-side coverage): for every store and every disk index, every path of the disk index
is the `Path` of a result in the final OK, MOVED, MODIFIED or NEW list, or a member of
`NewPaths` of a final RENAMED result. The paths of a disk index are the relative paths of the
walked files (verify.go 97-98), so they are not empty: that is the hypothesis `hne`. -/
theorem disk_coverage (checksumDB : ChecksumDB) (diskFiles : DiskFiles) (e : String × String)
    (he : e ∈ diskFiles) (hne : e.1 ≠ "") :
    e.1 ∈ pathsOf (reconcile checksumDB diskFiles).OK ∨
      e.1 ∈ pathsOf (reconcile checksumDB diskFiles).MOVED ∨
      e.1 ∈ pathsOf (reconcile checksumDB diskFiles).MODIFIED ∨
      e.1 ∈ pathsOf (reconcile checksumDB diskFiles).NEW ∨
      ∃ r ∈ (reconcile checksumDB diskFiles).RENAMED, e.1 ∈ r.NewPaths := by
  obtain ⟨fOK, fMod, fNew⟩ := final_paths checksumDB diskFiles
  rw [fOK, fMod, fNew]
  by_cases hseen : e.1 ∈ (provisional checksumDB diskFiles).processedDiskPaths
  · rw [provisional_processedDiskPaths, ← provisional_MODIFIED] at hseen
    rcases List.mem_append.1 hseen with h1 | h2
    · obtain ⟨e', he', hs⟩ := List.mem_filterMap.1 h1
      obtain ⟨⟨info, hl⟩, hp⟩ := seenOf_eq_some.1 hs
      by_cases hex : ∃ p ∈ info.RelativePaths, p.Path = e'.1
      · left
        rw [provisional_OK]
        exact mem_pathsOf.2 ⟨mkPlain e'.1 e'.2,
          List.mem_filterMap.2 ⟨e', he', okOf_eq_some.2 ⟨⟨info, hl, hex⟩, rfl⟩⟩, hp.symm⟩
      · have hmv : mkMoved e'.1 e'.2 info ∈ (provisional checksumDB diskFiles).MOVED := by
          rw [provisional_MOVED]
          exact List.mem_filterMap.2 ⟨e', he', movedOf_eq_some.2 ⟨info, hl, hex, rfl⟩⟩
        have hne2 : (mkMoved e'.1 e'.2 info).Path ≠ "" := by
          simp only [mkMoved]; rw [← hp]; exact hne
        rcases moved_or_renamed hmv hne2 with h | ⟨x, hx, hxp⟩
        · right; left
          exact mem_pathsOf.2 ⟨_, h, hp.symm⟩
        · right; right; right; right
          refine ⟨x, hx, ?_⟩
          simp only [mkMoved] at hxp
          rw [hp]; exact hxp
    · right; right; left
      exact h2
  · right; right; right; left
    rw [provisional_NEW]
    exact mem_pathsOf.2 ⟨mkPlain e.1 e.2,
      List.mem_filterMap.2 ⟨e, he, newOf_eq_some.2 ⟨hseen, rfl⟩⟩, rfl⟩

theorem disk_coverage_witness :
    ("b.txt", fp1) ∈ renamedDisk ∧ "b.txt" ≠ "" ∧
      ("b.txt" ∈ pathsOf (reconcile oneDB renamedDisk).OK ∨
        "b.txt" ∈ pathsOf (reconcile oneDB renamedDisk).MOVED ∨
        "b.txt" ∈ pathsOf (reconcile oneDB renamedDisk).MODIFIED ∨
        "b.txt" ∈ pathsOf (reconcile oneDB renamedDisk).NEW ∨
        ∃ r ∈ (reconcile oneDB renamedDisk).RENAMED, "b.txt" ∈ r.NewPaths) :=
  ⟨by decide, by decide,
    disk_coverage oneDB renamedDisk ("b.txt", fp1) (by decide) (by decide)⟩

end C3


section C4Lemmas

theorem filter_filterMap_eq_singleton {α β : Type} {l : List α} {f : α → Option β}
    {q : β → Bool} {a : α} {b : β} (hnd : l.Nodup) (ha : a ∈ l) (hfa : f a = some b)
    (hq : q b = true)
    (huniq : ∀ a' ∈ l, ∀ b', f a' = some b' → q b' = true → a' = a) :
    (l.filterMap f).filter q = [b] := by
  induction l with
  | nil => simp at ha
  | cons x rest ih =>
    obtain ⟨hx, hrest⟩ := List.nodup_cons.1 hnd
    have hrest_nil : a ∉ rest → (rest.filterMap f).filter q = [] := by
      intro hna
      apply List.filter_eq_nil_iff.2
      intro b' hb' hqb'
      obtain ⟨a', ha', hfa'⟩ := List.mem_filterMap.1 hb'
      have := huniq a' (List.mem_cons_of_mem _ ha') b' hfa' hqb'
      exact hna (this ▸ ha')
    by_cases hxa : x = a
    · subst hxa
      rw [List.filterMap_cons, hfa]
      simp only [List.filter_cons, hq, if_true]
      rw [hrest_nil hx]
    · have ha' : a ∈ rest := by
        rcases List.mem_cons.1 ha with h | h
        · exact absurd h.symm hxa
        · exact h
      have ih2 := ih hrest ha' (fun a' h' => huniq a' (List.mem_cons_of_mem _ h'))
      rw [List.filterMap_cons]
      cases hfx : f x with
      | none => simpa using ih2
      | some b' =>
        have hqb' : q b' = false := by
          by_contra hc
          have hc2 : q b' = true := by simpa using hc
          exact hxa (huniq x (List.mem_cons_self _ _) b' hfx hc2)
        simp only [List.filter_cons, hqb']
        simpa using ih2

theorem filter_filterMap_eq_nil {α β : Type} {l : List α} {f : α → Option β} {q : β → Bool}
    (h : ∀ a ∈ l, ∀ b, f a = some b → q b = false) : (l.filterMap f).filter q = [] := by
  apply List.filter_eq_nil_iff.2
  intro b hb hq
  obtain ⟨a, ha, hfa⟩ := List.mem_filterMap.1 hb
  rw [h a ha b hfa] at hq
  cases hq

theorem nodup_records {db : ChecksumDB} (hu : UniquePaths db) : (records db).Nodup :=
  List.Nodup.of_map _ hu

theorem nodup_of_nodupKeys {β : Type} {m : List (String × β)} (h : NodupKeys m) : m.Nodup :=
  List.Nodup.of_map _ h

theorem nodupKeys_groupMoved (moved : List Result) : NodupKeys (groupMoved moved) :=
  nodupKeys_groupFold _ moved [] (by simp [NodupKeys])

/-- A record of a well-keyed store whose path is not on disk is not marked in
`processedDBPaths`. -/
theorem key_unprocessed_of_absent {db : ChecksumDB} {disk : DiskFiles} (hwf : WellFormedKeys db)
    {x : String × PathEntry} (hx : x ∈ records db) (habs : disk.lookup x.2.Path = none) :
    dbKey x.1 x.2.Path ∉ disk.filterMap (keyOf db) := by
  intro hkey
  obtain ⟨e, he, hk⟩ := List.mem_filterMap.1 hkey
  obtain ⟨⟨info, hl, -⟩, hkeq⟩ := keyOf_eq_some.1 hk
  obtain ⟨info', hx1, -⟩ := mem_records.1 hx
  have l1 := isMD5_length (hwf _ hx1)
  have l2 := isMD5_length (hwf _ (mem_db_of_lookup hl))
  obtain ⟨-, e2⟩ := dbKey_inj (l1.trans l2.symm) hkeq
  apply lookup_eq_none_iff.1 habs
  rw [e2]
  exact List.mem_map_of_mem Prod.fst he

/-- Under path uniqueness the provisional DELETED results with a given path are the single one
made from its record. -/
theorem deleted_filter_path {db : ChecksumDB} {disk : DiskFiles} (hu : UniquePaths db)
    (hwf : WellFormedKeys db) {x : String × PathEntry} (hx : x ∈ records db)
    (habs : disk.lookup x.2.Path = none) :
    (provisional db disk).DELETED.filter (fun r => r.Path == x.2.Path) =
      [mkDeleted x.2.Path x.1] := by
  rw [provisional_DELETED]
  apply filter_filterMap_eq_singleton (nodup_records hu) hx
    (delOf_eq_some.2 ⟨key_unprocessed_of_absent hwf hx habs, habs, rfl⟩)
  · simp [mkDeleted]
  · intro y hy b hb hq
    obtain ⟨-, -, rfl⟩ := delOf_eq_some.1 hb
    simp only [mkDeleted, beq_iff_eq] at hq
    exact eq_of_mem_records hu hy hx hq

theorem mem_deleted_path {db : ChecksumDB} {disk : DiskFiles} (hu : UniquePaths db)
    (hwf : WellFormedKeys db) {x : String × PathEntry} (hx : x ∈ records db)
    (habs : disk.lookup x.2.Path = none) {d : Result}
    (hd : d ∈ (provisional db disk).DELETED) (hp : d.Path = x.2.Path) :
    d = mkDeleted x.2.Path x.1 := by
  have : d ∈ (provisional db disk).DELETED.filter (fun r => r.Path == x.2.Path) :=
    List.mem_filter.2 ⟨hd, by simp [hp]⟩
  rw [deleted_filter_path hu hwf hx habs] at this
  simpa using this

end C4Lemmas


section C4Main

theorem renamedOf_eq_some {st : VerifyState} {e : String × List Result} {b : Result}
    (he : e ∈ groupMoved st.MOVED) (hb : renamedOf (groupDeleted st.DELETED) e = some b) :
    e.2 = st.MOVED.filter (fun m => m.ContentHash == e.1) ∧
      (∃ m ∈ st.MOVED, m.ContentHash = e.1) ∧ (∃ d ∈ st.DELETED, d.OriginalContentHash = e.1) ∧
      b = mkRenamed e.1 (st.DELETED.filter (fun d => d.OriginalContentHash == e.1))
        (st.MOVED.filter (fun m => m.ContentHash == e.1)) := by
  obtain ⟨k, g⟩ := e
  simp only [groupMoved] at he
  rw [mem_group] at he
  obtain ⟨rfl, hgne⟩ := he
  simp only [renamedOf, groupDeleted, lookup_group] at hb
  split at hb
  · rename_i del hdel
    split at hdel
    · cases hdel
    · rename_i hne
      cases hdel
      obtain ⟨m, hm⟩ := List.exists_mem_of_ne_nil _ hgne
      obtain ⟨d, hd⟩ := List.exists_mem_of_ne_nil _ hne
      have hm2 := List.mem_filter.1 hm
      have hd2 := List.mem_filter.1 hd
      simp only [beq_iff_eq] at hm2 hd2
      refine ⟨rfl, ⟨m, hm2.1, hm2.2⟩, ⟨d, hd2.1, hd2.2⟩, ?_⟩
      simpa using hb.symm
  · cases hb

theorem renamedOf_group_of_mem {st : VerifyState} {h : String}
    (hm : ∃ m ∈ st.MOVED, m.ContentHash = h) (hd : ∃ d ∈ st.DELETED, d.OriginalContentHash = h) :
    (h, st.MOVED.filter (fun m => m.ContentHash == h)) ∈ groupMoved st.MOVED ∧
      renamedOf (groupDeleted st.DELETED) (h, st.MOVED.filter (fun m => m.ContentHash == h)) =
        some (mkRenamed h (st.DELETED.filter (fun d => d.OriginalContentHash == h))
          (st.MOVED.filter (fun m => m.ContentHash == h))) := by
  obtain ⟨m, hm1, hm2⟩ := hm
  obtain ⟨d, hd1, hd2⟩ := hd
  constructor
  · simp only [groupMoved]
    rw [mem_group]
    exact ⟨rfl, List.ne_nil_of_mem (List.mem_filter.2 ⟨hm1, by simp [hm2]⟩)⟩
  · have hne : st.DELETED.filter (fun x => x.OriginalContentHash == h) ≠ [] :=
      List.ne_nil_of_mem (List.mem_filter.2 ⟨hd1, by simp [hd2]⟩)
    simp only [renamedOf, groupDeleted, lookup_group, if_neg hne]

/-- C4, the claim as stated fails: in `collidingDB` every path occurs once, and
`collidingDisk` has non-empty paths and 32-digit digests. The path `c`, recorded under the key
`fp1 ++ ":b"`, and the empty path, recorded under `fp2`, are absent from the disk index, yet
neither is the `Path` of a final DELETED result nor among the `OldPaths` of a final RENAMED
result: the first is skipped because its key in `processedDBPaths` is that of the OK pair
`(b:c, fp1)`, the second is merged into RENAMED and left out by `getPathsFromResults`. -/
theorem store_coverage_counterexample :
    UniquePaths collidingDB ∧ NodupKeys collidingDB ∧ NodupKeys collidingDisk ∧
      (∀ e ∈ collidingDisk, isMD5 e.2 = true ∧ e.1 ≠ "") ∧
      (fp1 ++ ":b", pathAt "c") ∈ records collidingDB ∧ collidingDisk.lookup "c" = none ∧
      deletedCount (reconcile collidingDB collidingDisk) "c" = 0 ∧
      renamedOldCount (reconcile collidingDB collidingDisk) "c" = 0 ∧
      (fp2, pathAt "") ∈ records collidingDB ∧ collidingDisk.lookup "" = none ∧
      deletedCount (reconcile collidingDB collidingDisk) "" = 0 ∧
      renamedOldCount (reconcile collidingDB collidingDisk) "" = 0 := by
  decide

/-- C4 as amended: for a store whose keys are well-formed fingerprints and in which each path
occurs in at most one entry and at most once in it, and every disk index, every non-empty path
that has a path record in the store and is absent from the disk index is either the `Path` of
exactly one final DELETED result and in the `OldPaths` of no final RENAMED result, or in the
`OldPaths` of exactly one final RENAMED result and the `Path` of no final DELETED result. -/
theorem store_coverage (checksumDB : ChecksumDB) (diskFiles : DiskFiles)
    (hu : UniquePaths checksumDB) (hwf : WellFormedKeys checksumDB)
    (x : String × PathEntry) (hx : x ∈ records checksumDB)
    (habs : diskFiles.lookup x.2.Path = none) (hne : x.2.Path ≠ "") :
    (deletedCount (reconcile checksumDB diskFiles) x.2.Path = 1 ∧
        renamedOldCount (reconcile checksumDB diskFiles) x.2.Path = 0) ∨
      (deletedCount (reconcile checksumDB diskFiles) x.2.Path = 0 ∧
        renamedOldCount (reconcile checksumDB diskFiles) x.2.Path = 1) := by
  have hd0 : mkDeleted x.2.Path x.1 ∈ (provisional checksumDB diskFiles).DELETED := by
    have : mkDeleted x.2.Path x.1 ∈
        (provisional checksumDB diskFiles).DELETED.filter (fun r => r.Path == x.2.Path) := by
      rw [deleted_filter_path hu hwf hx habs]; simp
    exact (List.mem_filter.1 this).1
  have hkey : ∀ e ∈ groupMoved (provisional checksumDB diskFiles).MOVED, ∀ b,
      renamedOf (groupDeleted (provisional checksumDB diskFiles).DELETED) e = some b →
      b.OldPaths.contains x.2.Path = true → e.1 = x.1 := by
    intro e he b hb hq
    obtain ⟨-, -, -, rfl⟩ := renamedOf_eq_some he hb
    simp only [mkRenamed, List.contains_eq_any_beq, List.any_eq_true, beq_iff_eq] at hq
    obtain ⟨p', hp', hpp⟩ := hq
    obtain ⟨-, d, hd, hdp⟩ := mem_getPathsFromResults.1 hp'
    obtain ⟨hd1, hd2⟩ := List.mem_filter.1 hd
    have := mem_deleted_path hu hwf hx habs hd1 (hdp.trans hpp.symm)
    subst this
    have hd3 : x.1 = e.1 := by simpa [mkDeleted] using hd2
    exact hd3.symm
  unfold deletedCount renamedOldCount reconcile
  rw [handleRenamed_RENAMED, provisional_RENAMED, List.nil_append]
  by_cases hmv : ∃ m ∈ (provisional checksumDB diskFiles).MOVED, m.ContentHash = x.1
  · right
    constructor
    · rw [List.length_eq_zero, List.filter_eq_nil_iff]
      intro r hr hrp
      rw [handleRenamed_DELETED] at hr
      obtain ⟨hr1, hr2⟩ := List.mem_filter.1 hr
      simp only [beq_iff_eq] at hrp
      have hrd := mem_deleted_path hu hwf hx habs hr1 hrp
      subst hrd
      simp only [Bool.not_eq_true', List.any_eq_false, Bool.and_eq_true, List.any_eq_true,
        beq_iff_eq, not_and, not_exists] at hr2
      obtain ⟨m, hm1, hm2⟩ := hmv
      exact hr2 _ hd0 (by simp [sameItem]) m hm1 (by simpa [mkDeleted] using hm2)
    · obtain ⟨hmem, hsome⟩ := renamedOf_group_of_mem hmv ⟨_, hd0, rfl⟩
      rw [filter_filterMap_eq_singleton (nodup_of_nodupKeys (nodupKeys_groupMoved _)) hmem hsome]
      · rfl
      · simp only [mkRenamed, List.contains_eq_any_beq, List.any_eq_true, beq_iff_eq]
        exact ⟨x.2.Path, mem_getPathsFromResults.2
          ⟨hne, _, List.mem_filter.2 ⟨hd0, by simp [mkDeleted]⟩, rfl⟩, rfl⟩
      · intro e he b hb hq
        exact eq_of_mem_nodupKeys (nodupKeys_groupMoved _) he hmem (hkey e he b hb hq)
  · left
    constructor
    · rw [handleRenamed_DELETED, List.filter_filter]
      have hcomm : ∀ (l : List Result) (p q : Result → Bool),
          l.filter (fun a => p a && q a) = (l.filter p).filter q := by
        intro l p q
        rw [List.filter_filter]
        apply List.filter_congr
        intro a _
        exact Bool.and_comm _ _
      rw [hcomm, deleted_filter_path hu hwf hx habs]
      have hkeep : (!(provisional checksumDB diskFiles).DELETED.any (fun d =>
          sameItem (mkDeleted x.2.Path x.1) d &&
            (provisional checksumDB diskFiles).MOVED.any
              (fun m => m.ContentHash == d.OriginalContentHash))) = true := by
        simp only [Bool.not_eq_true', List.any_eq_false, Bool.and_eq_true, List.any_eq_true,
          beq_iff_eq, not_and, not_exists]
        intro d hd hsame m hm hmd
        simp only [sameItem, mkDeleted, Bool.and_eq_true, beq_iff_eq] at hsame
        have := mem_deleted_path hu hwf hx habs hd hsame.1.symm
        subst this
        exact hmv ⟨m, hm, by simpa [mkDeleted] using hmd⟩
      simp [List.filter_cons, hkeep]
    · rw [List.length_eq_zero]
      apply filter_filterMap_eq_nil
      intro e he b hb
      by_contra hq
      have hq2 : b.OldPaths.contains x.2.Path = true := by simpa using hq
      have hk := hkey e he b hb hq2
      obtain ⟨-, hm, -, -⟩ := renamedOf_eq_some he hb
      rw [hk] at hm
      exact hmv hm

theorem store_coverage_witness :
    UniquePaths oneDB ∧ WellFormedKeys oneDB ∧ (fp1, pathAt "a.txt") ∈ records oneDB ∧
      renamedDisk.lookup "a.txt" = none ∧ "a.txt" ≠ "" ∧
      ((deletedCount (reconcile oneDB renamedDisk) "a.txt" = 1 ∧
          renamedOldCount (reconcile oneDB renamedDisk) "a.txt" = 0) ∨
        (deletedCount (reconcile oneDB renamedDisk) "a.txt" = 0 ∧
          renamedOldCount (reconcile oneDB renamedDisk) "a.txt" = 1)) :=
  ⟨by decide, by decide, by decide, by decide, by decide,
    store_coverage oneDB renamedDisk (by decide) (by decide) (fp1, pathAt "a.txt")
      (by decide) (by decide) (by decide)⟩

end C4Main


section C5

theorem hasRecord_of_mem {db : ChecksumDB} (hnd : NodupKeys db) {h : String} {info : InfoData}
    (hmem : (h, info) ∈ db) {pe : PathEntry} (hpe : pe ∈ info.RelativePaths) :
    HasRecord db h pe.Path :=
  ⟨info, lookup_eq_some_of_mem hnd hmem, pe, hpe, rfl⟩

theorem hasRecord_of_mem_records {db : ChecksumDB} (hnd : NodupKeys db) {x : String × PathEntry}
    (hx : x ∈ records db) : HasRecord db x.1 x.2.Path := by
  obtain ⟨info, h1, h2⟩ := mem_records.1 hx
  exact hasRecord_of_mem hnd h1 h2

theorem filterMap_eq_map_of_forall {α β : Type} {l : List α} {f : α → Option β} {g : α → β}
    (h : ∀ a ∈ l, f a = some (g a)) : l.filterMap f = l.map g := by
  induction l with
  | nil => rfl
  | cons a rest ih =>
    rw [List.filterMap_cons, h a (List.mem_cons_self _ _), List.map_cons,
      ih (fun b hb => h b (List.mem_cons_of_mem _ hb))]

theorem filterMap_eq_nil_of_forall {α β : Type} {l : List α} {f : α → Option β}
    (h : ∀ a ∈ l, f a = none) : l.filterMap f = [] := by
  induction l with
  | nil => rfl
  | cons a rest ih =>
    rw [List.filterMap_cons, h a (List.mem_cons_self _ _),
      ih (fun b hb => h b (List.mem_cons_of_mem _ hb))]

theorem handleRenamed_of_clean {st : VerifyState} (hM : st.MOVED = []) (hD : st.DELETED = [])
    (hR : st.RENAMED = []) :
    (handleRenamed st).MOVED = [] ∧ (handleRenamed st).DELETED = [] ∧
      (handleRenamed st).RENAMED = [] := by
  refine ⟨?_, ?_, ?_⟩
  · rw [handleRenamed_MOVED, hM]; rfl
  · rw [handleRenamed_DELETED, hD]; rfl
  · rw [handleRenamed_RENAMED, hR, hM]; rfl

/-- When every disk pair is recorded in the store under its digest and every record of the store
is on disk with the key of its entry, reconciliation reports every disk pair as OK and nothing
else. -/
theorem reconcile_clean {db : ChecksumDB} {disk : DiskFiles}
    (h1 : ∀ e ∈ disk, HasRecord db e.2 e.1)
    (h2 : ∀ x ∈ records db, (x.2.Path, x.1) ∈ disk) :
    (reconcile db disk).OK = disk.map (fun e => mkPlain e.1 e.2) ∧
      (reconcile db disk).MODIFIED = [] ∧ (reconcile db disk).MOVED = [] ∧
      (reconcile db disk).NEW = [] ∧ (reconcile db disk).DELETED = [] ∧
      (reconcile db disk).RENAMED = [] := by
  obtain ⟨fOK, fMod, fNew⟩ := final_paths db disk
  have hkeys : ∀ x ∈ records db, dbKey x.1 x.2.Path ∈ disk.filterMap (keyOf db) := by
    intro x hx
    exact List.mem_filterMap.2 ⟨(x.2.Path, x.1), h2 x hx,
      keyOf_eq_some.2 ⟨h1 _ (h2 x hx), rfl⟩⟩
  have hMod : (provisional db disk).MODIFIED = [] := by
    rw [provisional_MODIFIED]
    apply filterMap_eq_nil_of_forall
    intro x hx
    simp [modOf, hkeys x hx]
  have hDel : (provisional db disk).DELETED = [] := by
    rw [provisional_DELETED]
    apply filterMap_eq_nil_of_forall
    intro x hx
    simp [delOf, hkeys x hx]
  have hMov : (provisional db disk).MOVED = [] := by
    rw [provisional_MOVED]
    apply filterMap_eq_nil_of_forall
    intro e he
    cases hm : movedOf db e with
    | none => rfl
    | some r =>
      obtain ⟨info, hl, hno, -⟩ := movedOf_eq_some.1 hm
      obtain ⟨info', hl', hex⟩ := h1 e he
      rw [hl] at hl'
      cases hl'
      exact absurd hex hno
  have hNew : (provisional db disk).NEW = [] := by
    rw [provisional_NEW]
    apply filterMap_eq_nil_of_forall
    intro e he
    have hseen : e.1 ∈ (provisional db disk).processedDiskPaths := by
      rw [provisional_processedDiskPaths]
      obtain ⟨info, hl, -⟩ := h1 e he
      exact List.mem_append_left _
        (List.mem_filterMap.2 ⟨e, he, seenOf_eq_some.2 ⟨⟨info, hl⟩, rfl⟩⟩)
    simp [newOf, hseen]
  obtain ⟨c1, c2, c3⟩ := handleRenamed_of_clean hMov hDel (provisional_RENAMED db disk)
  refine ⟨?_, ?_, c1, ?_, c2, c3⟩
  · rw [fOK, provisional_OK]
    apply filterMap_eq_map_of_forall
    intro e he
    exact okOf_eq_some.2 ⟨h1 e he, rfl⟩
  · rw [fMod, hMod]
  · rw [fNew, hNew]

/-- C5 (an unchanged state reconciles clean): for a store that is a map and a disk index that
holds exactly the store's paths, each with the key of its entry, the final OK list consists of
one result per disk pair, in enumeration order, and MODIFIED, MOVED, NEW, DELETED and RENAMED are
empty. -/
theorem unchanged_reconciles_clean (checksumDB : ChecksumDB) (diskFiles : DiskFiles)
    (hnd : NodupKeys checksumDB)
    (hdisk : ∀ e ∈ diskFiles, ∃ x ∈ records checksumDB, x.2.Path = e.1 ∧ x.1 = e.2)
    (hstore : ∀ x ∈ records checksumDB, (x.2.Path, x.1) ∈ diskFiles) :
    (reconcile checksumDB diskFiles).OK = diskFiles.map (fun e => mkPlain e.1 e.2) ∧
      pathsOf (reconcile checksumDB diskFiles).OK = diskFiles.map Prod.fst ∧
      (reconcile checksumDB diskFiles).MODIFIED = [] ∧
      (reconcile checksumDB diskFiles).MOVED = [] ∧
      (reconcile checksumDB diskFiles).NEW = [] ∧
      (reconcile checksumDB diskFiles).DELETED = [] ∧
      (reconcile checksumDB diskFiles).RENAMED = [] := by
  have h1 : ∀ e ∈ diskFiles, HasRecord checksumDB e.2 e.1 := by
    intro e he
    obtain ⟨x, hx, hp, hh⟩ := hdisk e he
    have := hasRecord_of_mem_records hnd hx
    rwa [hp, hh] at this
  obtain ⟨a, b, c, d, e, f⟩ := reconcile_clean h1 hstore
  refine ⟨a, ?_, b, c, d, e, f⟩
  rw [a]
  simp [pathsOf, mkPlain, List.map_map, Function.comp_def]

theorem unchanged_reconciles_clean_witness :
    NodupKeys cleanDB ∧
      (∀ e ∈ cleanDisk, ∃ x ∈ records cleanDB, x.2.Path = e.1 ∧ x.1 = e.2) ∧
      (∀ x ∈ records cleanDB, (x.2.Path, x.1) ∈ cleanDisk) ∧
      ((reconcile cleanDB cleanDisk).OK = cleanDisk.map (fun e => mkPlain e.1 e.2) ∧
        pathsOf (reconcile cleanDB cleanDisk).OK = cleanDisk.map Prod.fst ∧
        (reconcile cleanDB cleanDisk).MODIFIED = [] ∧
        (reconcile cleanDB cleanDisk).MOVED = [] ∧
        (reconcile cleanDB cleanDisk).NEW = [] ∧
        (reconcile cleanDB cleanDisk).DELETED = [] ∧
        (reconcile cleanDB cleanDisk).RENAMED = []) :=
  ⟨by decide, by decide, by decide,
    unchanged_reconciles_clean cleanDB cleanDisk (by decide) (by decide) (by decide)⟩

end C5


section MapOps

theorem lookup_mapSet {β : Type} (m : List (String × β)) (k k' : String) (v : β) :
    (mapSet m k v).lookup k' = if k = k' then some v else m.lookup k' := by
  induction m with
  | nil =>
    by_cases hk : k = k'
    · subst hk; simp [mapSet, List.lookup]
    · have hb : (k' == k) = false := by simpa using fun h => hk h.symm
      simp [mapSet, List.lookup, hk, hb]
  | cons a rest ih =>
    obtain ⟨k2, v2⟩ := a
    by_cases h2 : k2 = k
    · subst h2
      by_cases hk : k2 = k'
      · subst hk; simp [mapSet, List.lookup]
      · have hb : (k' == k2) = false := by simpa using fun h => hk h.symm
        simp [mapSet, List.lookup, hk, hb]
    · by_cases hk : k' = k2
      · subst hk
        have h3 : ¬ k = k' := fun h => h2 h.symm
        simp [mapSet, List.lookup, h2, h3]
      · have hb : (k' == k2) = false := by simpa using hk
        simp only [mapSet, h2, if_false, List.lookup, hb, ih]

theorem keys_mapSet {β : Type} (m : List (String × β)) (k : String) (v : β) :
    (mapSet m k v).map Prod.fst =
      if k ∈ m.map Prod.fst then m.map Prod.fst else m.map Prod.fst ++ [k] := by
  induction m with
  | nil => simp [mapSet]
  | cons a rest ih =>
    obtain ⟨k', g⟩ := a
    by_cases hk : k' = k
    · simp [mapSet, hk]
    · have hk2 : ¬ k = k' := fun h => hk h.symm
      simp only [mapSet, hk, if_false, List.map_cons, ih, List.mem_cons, hk2, false_or]
      split <;> simp

theorem nodupKeys_mapSet {β : Type} {m : List (String × β)} (hnd : NodupKeys m)
    (k : String) (v : β) : NodupKeys (mapSet m k v) := by
  unfold NodupKeys at *
  rw [keys_mapSet]
  split
  · exact hnd
  · rename_i hk
    exact List.Nodup.append hnd (List.nodup_singleton k) (by simpa using hk)

theorem lookup_mapDelete {β : Type} (m : List (String × β)) (k k' : String) :
    (mapDelete m k).lookup k' = if k = k' then none else m.lookup k' := by
  induction m with
  | nil => simp [mapDelete]
  | cons a rest ih =>
    obtain ⟨k2, v2⟩ := a
    unfold mapDelete at ih ⊢
    by_cases h2 : k2 = k
    · subst h2
      by_cases hk : k2 = k'
      · subst hk; simpa [List.filter_cons] using ih
      · have hb : (k' == k2) = false := by simpa using fun h => hk h.symm
        simp only [List.filter_cons, bne_self_eq_false, Bool.false_eq_true, if_false, ih, hk,
          List.lookup, hb]
    · have hb2 : (k2 != k) = true := by simpa using h2
      simp only [List.filter_cons, hb2, if_true]
      by_cases hk : k' = k2
      · subst hk
        have h3 : ¬ k = k' := fun h => h2 h.symm
        simp [List.lookup, h3]
      · have hb : (k' == k2) = false := by simpa using hk
        simp only [List.lookup, hb, ih]

theorem nodupKeys_mapDelete {β : Type} {m : List (String × β)} (hnd : NodupKeys m)
    (k : String) : NodupKeys (mapDelete m k) := by
  unfold NodupKeys mapDelete at *
  exact List.Nodup.sublist (List.Sublist.map _ (List.filter_sublist _)) hnd

theorem hasRecord_mapSet (db : ChecksumDB) (k : String) (v : InfoData) (h p : String) :
    HasRecord (mapSet db k v) h p ↔
      (k = h ∧ ∃ pe ∈ v.RelativePaths, pe.Path = p) ∨ (k ≠ h ∧ HasRecord db h p) := by
  unfold HasRecord
  rw [lookup_mapSet]
  by_cases hk : k = h
  · simp [hk]
  · simp [hk]

theorem hasRecord_mapDelete (db : ChecksumDB) (k h p : String) :
    HasRecord (mapDelete db k) h p ↔ k ≠ h ∧ HasRecord db h p := by
  unfold HasRecord
  rw [lookup_mapDelete]
  by_cases hk : k = h
  · simp [hk]
  · simp [hk]

theorem paths_refreshLastSeen (paths : List PathEntry) (path now : String) :
    (refreshLastSeen paths path now).map (fun p => p.Path) = paths.map (fun p => p.Path) := by
  induction paths with
  | nil => rfl
  | cons p rest ih =>
    unfold refreshLastSeen
    by_cases hp : p.Path = path
    · simp [hp]
    · simp [hp, ih]

theorem exists_path_iff_mem_map (paths : List PathEntry) (q : String) :
    (∃ pe ∈ paths, pe.Path = q) ↔ q ∈ paths.map (fun p => p.Path) := by
  simp [List.mem_map]

theorem hasRecord_removeFromOld (db : ChecksumDB) (eh p h q : String) :
    HasRecord (removeFromOld db eh p) h q ↔ HasRecord db h q ∧ ¬ (h = eh ∧ q = p) := by
  unfold removeFromOld
  simp only
  split
  · rename_i hlen
    have hnil := List.length_eq_zero.1 hlen
    rw [hasRecord_mapDelete]
    constructor
    · rintro ⟨hne, hr⟩
      exact ⟨hr, fun hc => hne hc.1.symm⟩
    · rintro ⟨hr, hn⟩
      refine ⟨?_, hr⟩
      intro hk
      subst hk
      obtain ⟨info, hl, pe, hpe, hq⟩ := hr
      apply hn
      refine ⟨rfl, ?_⟩
      rw [hl] at hnil
      simp only [Option.getD_some] at hnil
      by_contra hne
      have : pe ∈ info.RelativePaths.filter (fun x => x.Path != p) :=
        List.mem_filter.2 ⟨hpe, by simpa [hq] using hne⟩
      rw [hnil] at this
      simp at this
  · rename_i hlen
    rw [hasRecord_mapSet]
    simp only
    constructor
    · rintro (⟨rfl, pe, hpe, hq⟩ | ⟨hne, hr⟩)
      · obtain ⟨hpe1, hpe2⟩ := List.mem_filter.1 hpe
        cases hl : db.lookup eh with
        | none =>
          rw [hl] at hpe1
          simp [InfoData.zero] at hpe1
        | some info =>
          rw [hl] at hpe1
          simp only [Option.getD_some] at hpe1
          refine ⟨⟨info, hl, pe, hpe1, hq⟩, ?_⟩
          rintro ⟨-, hqp⟩
          simp only [bne_iff_ne, ne_eq] at hpe2
          exact hpe2 (hq.trans hqp)
      · exact ⟨hr, fun hc => hne hc.1.symm⟩
    · rintro ⟨hr, hn⟩
      by_cases hk : eh = h
      · left
        subst hk
        obtain ⟨info, hl, pe, hpe, hq⟩ := hr
        refine ⟨rfl, pe, ?_, hq⟩
        rw [hl]
        simp only [Option.getD_some]
        refine List.mem_filter.2 ⟨hpe, ?_⟩
        simp only [bne_iff_ne, ne_eq]
        intro hc
        exact hn ⟨rfl, hq.symm.trans hc⟩
      · right
        exact ⟨hk, hr⟩

theorem nodupKeys_removeFromOld {db : ChecksumDB} (hnd : NodupKeys db) (eh p : String) :
    NodupKeys (removeFromOld db eh p) := by
  unfold removeFromOld
  simp only
  split
  · exact nodupKeys_mapDelete hnd _
  · exact nodupKeys_mapSet hnd _ _

theorem findPathEntry_isSome_iff (paths : List PathEntry) (path : String) :
    (∃ pe, findPathEntry paths path = some pe) ↔ ∃ pe ∈ paths, pe.Path = path := by
  unfold findPathEntry
  constructor
  · rintro ⟨pe, h⟩
    exact ⟨pe, List.mem_of_find?_eq_some h, by simpa using List.find?_some h⟩
  · rintro ⟨pe, hpe, hp⟩
    cases hf : paths.find? (fun p => p.Path == path) with
    | none =>
      have := List.find?_eq_none.1 hf pe hpe
      simp [hp] at this
    | some x => exact ⟨x, rfl⟩

theorem hasRecord_addOrRefresh (st : GenState) (f : ScannedFile) (h q : String) :
    HasRecord (addOrRefresh st f).checksumDB h q ↔
      HasRecord st.checksumDB h q ∨ (h = f.Hash ∧ q = f.Path) := by
  have hbase : ∀ (paths' : List PathEntry) (info' : InfoData),
      info'.RelativePaths = paths' →
      (∀ q', q' ∈ paths'.map (fun p => p.Path) ↔
        q' ∈ (((st.checksumDB.lookup f.Hash).getD
          { ContentMD5 := f.Hash, RelativePaths := [], FirstCreated := f.Now,
            LastContentUpdate := f.Now }).RelativePaths).map (fun p => p.Path) ∨ q' = f.Path) →
      (HasRecord (mapSet st.checksumDB f.Hash info') h q ↔
        HasRecord st.checksumDB h q ∨ (h = f.Hash ∧ q = f.Path)) := by
    intro paths' info' hinfo hpaths
    rw [hasRecord_mapSet, hinfo, exists_path_iff_mem_map, hpaths]
    by_cases hk : f.Hash = h
    · subst hk
      simp only [true_and, ne_eq, not_true_eq_false, false_and, or_false]
      unfold HasRecord
      cases hl : st.checksumDB.lookup f.Hash with
      | none => simp
      | some info => simp
    · have hk2 : ¬ h = f.Hash := fun hc => hk hc.symm
      simp [hk, hk2]
  unfold addOrRefresh
  simp only
  split
  · rename_i pe hpe
    apply hbase _ _ rfl
    intro q'
    rw [paths_refreshLastSeen]
    constructor
    · intro hq; exact Or.inl hq
    · rintro (hq | rfl)
      · exact hq
      · exact (exists_path_iff_mem_map _ _).1 ((findPathEntry_isSome_iff _ _).1 ⟨pe, hpe⟩)
  · apply hbase _ _ rfl
    intro q'
    simp

theorem nodupKeys_addOrRefresh {st : GenState} (hnd : NodupKeys st.checksumDB)
    (f : ScannedFile) : NodupKeys (addOrRefresh st f).checksumDB := by
  unfold addOrRefresh
  simp only
  split <;> exact nodupKeys_mapSet hnd _ _

end MapOps


section Ingest

theorem findExistingHash_spec (db : ChecksumDB) (path : String) :
    (findExistingHash db path = "" ∧
        ∀ e ∈ db, e.1 ≠ "" → ¬ ∃ pe ∈ e.2.RelativePaths, pe.Path = path) ∨
      (findExistingHash db path ≠ "" ∧
        ∃ info, (findExistingHash db path, info) ∈ db ∧
          ∃ pe ∈ info.RelativePaths, pe.Path = path) := by
  induction db with
  | nil => left; simp [findExistingHash]
  | cons a rest ih =>
    obtain ⟨hash, info⟩ := a
    unfold findExistingHash
    simp only
    by_cases hany : info.RelativePaths.any (fun p => p.Path == path) = true
    · by_cases hh : hash = ""
      · subst hh
        simp only [hany, if_true, bne_self_eq_false, Bool.false_eq_true, if_false]
        rcases ih with ⟨h1, h2⟩ | ⟨h1, info', h2, h3⟩
        · left
          refine ⟨h1, ?_⟩
          intro e he hne
          rcases List.mem_cons.1 he with rfl | he'
          · exact absurd rfl hne
          · exact h2 e he' hne
        · right
          exact ⟨h1, info', List.mem_cons_of_mem _ h2, h3⟩
      · right
        have hb : (hash != "") = true := by simpa using hh
        simp only [hany, if_true, hb]
        exact ⟨hh, info, List.mem_cons_self _ _, (any_path_iff _ _).1 hany⟩
    · have hno : ¬ ∃ pe ∈ info.RelativePaths, pe.Path = path :=
        fun h => hany ((any_path_iff _ _).2 h)
      simp only [hany, Bool.false_eq_true, if_false, bne_self_eq_false]
      rcases ih with ⟨h1, h2⟩ | ⟨h1, info', h2, h3⟩
      · left
        refine ⟨h1, ?_⟩
        intro e he hne
        rcases List.mem_cons.1 he with rfl | he'
        · exact hno
        · exact h2 e he' hne
      · right
        exact ⟨h1, info', List.mem_cons_of_mem _ h2, h3⟩

theorem findExistingHash_of_hasRecord {db : ChecksumDB} (hnd : NodupKeys db)
    (hone : RecordedOnce db) (hne : db.lookup "" = none) {h p : String}
    (hr : HasRecord db h p) : findExistingHash db p = h := by
  obtain ⟨info, hl, hex⟩ := hr
  have hh : h ≠ "" := by
    intro hc; subst hc; rw [hne] at hl; cases hl
  rcases findExistingHash_spec db p with ⟨-, h2⟩ | ⟨-, info', h2, h3⟩
  · exact absurd hex (h2 (h, info) (mem_db_of_lookup hl) hh)
  · exact hone _ _ p ⟨info', lookup_eq_some_of_mem hnd h2, h3⟩ ⟨info, hl, hex⟩

theorem findExistingHash_of_no_record {db : ChecksumDB} (hnd : NodupKeys db) {p : String}
    (hno : ∀ h, ¬ HasRecord db h p) : findExistingHash db p = "" := by
  rcases findExistingHash_spec db p with ⟨h1, -⟩ | ⟨-, info', h2, h3⟩
  · exact h1
  · exact absurd ⟨info', lookup_eq_some_of_mem hnd h2, h3⟩ (hno _)

theorem isMD5_ne_empty {h : String} (hm : isMD5 h = true) : h ≠ "" := by
  intro hc
  subst hc
  simp [isMD5] at hm

/-- One Regenerate step on a well-formed store: afterwards the scanned path is recorded under
the scanned digest only, and every other path is recorded as before. -/
theorem hasRecord_processFile_regen {st : GenState} (hnd : NodupKeys st.checksumDB)
    (hone : RecordedOnce st.checksumDB) (hne : st.checksumDB.lookup "" = none)
    {f : ScannedFile} (hmd : isMD5 f.Hash = true) (h q : String) :
    HasRecord (processFile true st f).checksumDB h q ↔
      (q ≠ f.Path ∧ HasRecord st.checksumDB h q) ∨ (h = f.Hash ∧ q = f.Path) := by
  unfold processFile
  simp only [hmd, Bool.not_true, Bool.false_eq_true, if_false, Bool.false_and, Bool.true_and]
  by_cases hex : ∃ h0, HasRecord st.checksumDB h0 f.Path
  · obtain ⟨h0, hr0⟩ := hex
    have hfe := findExistingHash_of_hasRecord hnd hone hne hr0
    have h0ne : h0 ≠ "" := by
      intro hc; subst hc
      obtain ⟨info, hl, -⟩ := hr0
      rw [hne] at hl; cases hl
    rw [hfe]
    by_cases hsame : h0 = f.Hash
    · subst hsame
      simp only [bne_self_eq_false, Bool.and_false, Bool.false_eq_true, if_false]
      rw [hasRecord_addOrRefresh]
      constructor
      · rintro (hr | hr)
        · by_cases hq : q = f.Path
          · right
            subst hq
            exact ⟨hone _ _ _ hr hr0, rfl⟩
          · left; exact ⟨hq, hr⟩
        · right; exact hr
      · rintro (⟨-, hr⟩ | hr)
        · left; exact hr
        · right; exact hr
    · have hb1 : (h0 != "") = true := by simpa using h0ne
      have hb2 : (h0 != f.Hash) = true := by simpa using hsame
      simp only [hb1, hb2, Bool.and_self, if_true]
      rw [hasRecord_addOrRefresh]
      simp only [hasRecord_removeFromOld]
      constructor
      · rintro (⟨hr, hn⟩ | hr)
        · left
          refine ⟨?_, hr⟩
          intro hq
          subst hq
          exact hn ⟨hone _ _ _ hr hr0, rfl⟩
        · right; exact hr
      · rintro (⟨hq, hr⟩ | hr)
        · left; exact ⟨hr, fun hc => hq hc.2⟩
        · right; exact hr
  · have hno : ∀ h0, ¬ HasRecord st.checksumDB h0 f.Path := fun h0 hr => hex ⟨h0, hr⟩
    rw [findExistingHash_of_no_record hnd hno]
    simp only [bne_self_eq_false, Bool.false_and, Bool.false_eq_true, if_false]
    rw [hasRecord_addOrRefresh]
    constructor
    · rintro (hr | hr)
      · left
        refine ⟨?_, hr⟩
        intro hq; subst hq
        exact hno _ hr
      · right; exact hr
    · rintro (⟨-, hr⟩ | hr)
      · left; exact hr
      · right; exact hr

theorem nodupKeys_processFile {st : GenState} (hnd : NodupKeys st.checksumDB) (regen : Bool)
    (f : ScannedFile) : NodupKeys (processFile regen st f).checksumDB := by
  unfold processFile
  simp only
  split
  · exact hnd
  · split
    · split
      · split
        · exact nodupKeys_mapSet hnd _ _
        · exact hnd
      · exact hnd
    · apply nodupKeys_addOrRefresh
      split
      · exact nodupKeys_removeFromOld hnd _ _
      · exact hnd

end Ingest


section IngestLoop

theorem lookup_empty_processFile_regen {st : GenState} (hne : st.checksumDB.lookup "" = none)
    {f : ScannedFile} (hmd : isMD5 f.Hash = true) :
    (processFile true st f).checksumDB.lookup "" = none := by
  have hf : f.Hash ≠ "" := isMD5_ne_empty hmd
  have hadd : ∀ st' : GenState, st'.checksumDB.lookup "" = none →
      (addOrRefresh st' f).checksumDB.lookup "" = none := by
    intro st' h'
    unfold addOrRefresh
    simp only
    split <;> simp only [lookup_mapSet, hf, if_false, h']
  unfold processFile
  simp only [hmd, Bool.not_true, Bool.false_eq_true, if_false, Bool.false_and, Bool.true_and]
  apply hadd
  split
  · rename_i hc
    simp only [Bool.and_eq_true, bne_iff_ne, ne_eq] at hc
    unfold removeFromOld
    simp only
    split
    · rw [lookup_mapDelete]; simp [hne]
    · rw [lookup_mapSet]; simp [hc.1, hne]
  · exact hne

theorem oneEntry_processFile_regen {st : GenState} (hnd : NodupKeys st.checksumDB)
    (hone : RecordedOnce st.checksumDB) (hne : st.checksumDB.lookup "" = none)
    {f : ScannedFile} (hmd : isMD5 f.Hash = true) :
    RecordedOnce (processFile true st f).checksumDB := by
  intro h1 h2 p r1 r2
  rw [hasRecord_processFile_regen hnd hone hne hmd] at r1 r2
  rcases r1 with ⟨hq1, r1⟩ | ⟨rfl, rfl⟩
  · rcases r2 with ⟨-, r2⟩ | ⟨-, hq2⟩
    · exact hone _ _ _ r1 r2
    · exact absurd hq2 hq1
  · rcases r2 with ⟨hq2, -⟩ | ⟨rfl, -⟩
    · exact absurd rfl hq2
    · rfl

/-- The Regenerate loop on a well-formed store: afterwards every scanned path is recorded under
its scanned digest only, every other path as before, and the store is still well formed. -/
theorem regenerate_loop (scan : List ScannedFile) (st : GenState)
    (hpaths : (scan.map (fun f => f.Path)).Nodup) (hmd : ∀ f ∈ scan, isMD5 f.Hash = true)
    (hnd : NodupKeys st.checksumDB) (hone : RecordedOnce st.checksumDB)
    (hne : st.checksumDB.lookup "" = none) :
    NodupKeys (scan.foldl (processFile true) st).checksumDB ∧
      ∀ h q, HasRecord (scan.foldl (processFile true) st).checksumDB h q ↔
        (q ∉ scan.map (fun f => f.Path) ∧ HasRecord st.checksumDB h q) ∨
          (∃ f ∈ scan, f.Hash = h ∧ f.Path = q) := by
  induction scan generalizing st with
  | nil => simp [hnd]
  | cons f rest ih =>
    obtain ⟨hf, hrest⟩ := List.nodup_cons.1 hpaths
    have hmdf := hmd f (List.mem_cons_self _ _)
    obtain ⟨ih1, ih2⟩ := ih (processFile true st f) hrest
      (fun g hg => hmd g (List.mem_cons_of_mem _ hg))
      (nodupKeys_processFile hnd true f)
      (oneEntry_processFile_regen hnd hone hne hmdf)
      (lookup_empty_processFile_regen hne hmdf)
    rw [List.foldl_cons]
    refine ⟨ih1, ?_⟩
    intro h q
    rw [ih2, hasRecord_processFile_regen hnd hone hne hmdf]
    simp only [List.map_cons, List.mem_cons, not_or]
    constructor
    · rintro (⟨hq, ⟨hqf, hr⟩ | ⟨rfl, rfl⟩⟩ | ⟨g, hg, hgh, hgq⟩)
      · left; exact ⟨⟨hqf, hq⟩, hr⟩
      · right; exact ⟨f, Or.inl rfl, rfl, rfl⟩
      · right; exact ⟨g, Or.inr hg, hgh, hgq⟩
    · rintro (⟨⟨hqf, hq⟩, hr⟩ | ⟨g, hg | hg, hgh, hgq⟩)
      · left; exact ⟨hq, Or.inl ⟨hqf, hr⟩⟩
      · subst hg
        left
        refine ⟨?_, Or.inr ⟨hgh.symm, hgq.symm⟩⟩
        rw [← hgq]; exact hf
      · right; exact ⟨g, hg, hgh, hgq⟩

theorem keys_pruneEntries_sublist (fe : String → Bool) (db : ChecksumDB) :
    List.Sublist ((pruneEntries fe db).1.map Prod.fst) (db.map Prod.fst) := by
  induction db with
  | nil => simp [pruneEntries]
  | cons a rest ih =>
    obtain ⟨hash, info⟩ := a
    unfold pruneEntries
    simp only
    split
    · exact List.Sublist.cons _ ih
    · simp only [List.map_cons]
      exact List.Sublist.cons₂ _ ih

theorem nodupKeys_pruneEntries (fe : String → Bool) {db : ChecksumDB} (hnd : NodupKeys db) :
    NodupKeys (pruneEntries fe db).1 :=
  List.Nodup.sublist (keys_pruneEntries_sublist fe db) hnd

theorem hasRecord_pruneEntries (fe : String → Bool) {db : ChecksumDB} (hnd : NodupKeys db)
    (h q : String) :
    HasRecord (pruneEntries fe db).1 h q ↔ HasRecord db h q ∧ fe q = true := by
  induction db with
  | nil => simp [pruneEntries, HasRecord]
  | cons a rest ih =>
    obtain ⟨hash, info⟩ := a
    have hnd' : NodupKeys rest := (List.nodup_cons.1 hnd).2
    have hnotin : hash ∉ rest.map Prod.fst := (List.nodup_cons.1 hnd).1
    have ih' := ih hnd'
    have hrest_none : h = hash → ¬ HasRecord (pruneEntries fe rest).1 h q := by
      rintro rfl ⟨info', hl, -⟩
      have hm := mem_of_lookup_eq_some hl
      exact hnotin ((keys_pruneEntries_sublist fe rest).subset (List.mem_map_of_mem Prod.fst hm))
    unfold pruneEntries
    simp only
    by_cases hk : h = hash
    · subst hk
      have hl0 : List.lookup h ((h, info) :: rest) = some info := by simp [List.lookup]
      split
      · rename_i hlen
        have hnil := List.length_eq_zero.1 hlen
        constructor
        · intro hr; exact absurd hr (hrest_none rfl)
        · rintro ⟨⟨info', hl, pe, hpe, hq⟩, hfe⟩
          rw [hl0] at hl
          cases hl
          have : pe ∈ info.RelativePaths.filter (fun p => fe p.Path) :=
            List.mem_filter.2 ⟨hpe, by rw [hq]; exact hfe⟩
          rw [hnil] at this
          simp at this
      · unfold HasRecord
        simp only [List.lookup, beq_self_eq_true, Option.some.injEq]
        constructor
        · rintro ⟨info', rfl, pe, hpe, hq⟩
          obtain ⟨hpe1, hpe2⟩ := List.mem_filter.1 hpe
          exact ⟨⟨info, rfl, pe, hpe1, hq⟩, by rw [← hq]; exact hpe2⟩
        · rintro ⟨⟨info', rfl, pe, hpe, hq⟩, hfe⟩
          exact ⟨_, rfl, pe, List.mem_filter.2 ⟨hpe, by rw [hq]; exact hfe⟩, hq⟩
    · have hb : (h == hash) = false := by simpa using hk
      have hstep : ∀ db' : ChecksumDB, HasRecord ((hash, info) :: db') h q ↔ HasRecord db' h q := by
        intro db'
        unfold HasRecord
        simp only [List.lookup, hb]
      have hstep2 : ∀ (i : InfoData) (db' : ChecksumDB),
          HasRecord ((hash, i) :: db') h q ↔ HasRecord db' h q := by
        intro i db'
        unfold HasRecord
        simp only [List.lookup, hb]
      split
      · rw [hstep, ih']
      · rw [hstep2, hstep, ih']

end IngestLoop


section C6

theorem recordedOnce_of_oneEntryPerPath {db : ChecksumDB} (h : OneEntryPerPath db) :
    RecordedOnce db := by
  rintro h1 h2 p ⟨i1, l1, p1, hp1, e1⟩ ⟨i2, l2, p2, hp2, e2⟩
  exact h (h1, i1) (mem_db_of_lookup l1) (h2, i2) (mem_db_of_lookup l2) p1 hp1 p2 hp2
    (e1.trans e2.symm)

/-- C6, the claim as stated fails for four kinds of input, each with a scan of distinct paths
and well-formed fingerprints and a directory whose files are exactly the scanned paths: an
initial store that records `x.txt` under two fingerprints, an initial store whose entry is keyed
by the empty string, an empty scan over a non-empty store, and an initial store that records
`data`, which has become a directory. In the first two `x.txt` is reported MODIFIED after the
Regenerate run; in the third `a.txt` is reported DELETED, the run having returned before
pruning; in the fourth `data` passes the existence check of the prune pass, stays recorded and
is reported DELETED. -/
theorem round_trip_counterexample :
    ((scanX.map (fun f => f.Path)).Nodup ∧ (∀ f ∈ scanX, isMD5 f.Hash = true) ∧
        (scanData.map (fun f => f.Path)).Nodup ∧ (∀ f ∈ scanData, isMD5 f.Hash = true)) ∧
      pathsOf (reconcile (NewMD5Hashes true scanX (statIn ["x.txt"]) twiceDB).checksumDB
        (diskIndexOf scanX)).MODIFIED = ["x.txt"] ∧
      pathsOf (reconcile (NewMD5Hashes true scanX (statIn ["x.txt"]) emptyKeyDB).checksumDB
        (diskIndexOf scanX)).MODIFIED = ["x.txt"] ∧
      pathsOf (reconcile (NewMD5Hashes true [] (statIn []) oneDB).checksumDB
        (diskIndexOf [])).DELETED = ["a.txt"] ∧
      (NodupKeys dataDB ∧ OneEntryPerPath dataDB ∧ dataDB.lookup "" = none ∧
        pathsOf (reconcile (NewMD5Hashes true scanData (statIn ["data/x.txt"]) dataDB).checksumDB
          (diskIndexOf scanData)).DELETED = ["data"]) := by
  decide

/-- C6 as amended: for an initial store that is a map, has no entry keyed by the empty string
and records each path in at most one entry, and a non-empty scan with distinct paths and
well-formed fingerprints such that every scanned path passes the existence check of the prune
pass and every path recorded in the initial store that passes it is one of the scanned paths,
reconciling the store produced by a Regenerate run against the disk index of the scan yields one
OK result per scanned file and empty MODIFIED, MOVED, NEW, DELETED and RENAMED lists. -/
theorem round_trip (checksumDB : ChecksumDB) (scan : List ScannedFile)
    (fileExists : String → Bool)
    (hnd : NodupKeys checksumDB) (hone : OneEntryPerPath checksumDB)
    (hne : checksumDB.lookup "" = none) (hscan : scan ≠ [])
    (hpaths : (scan.map (fun f => f.Path)).Nodup) (hmd : ∀ f ∈ scan, isMD5 f.Hash = true)
    (hexists : ∀ f ∈ scan, fileExists f.Path = true)
    (hstale : ∀ x ∈ records checksumDB, fileExists x.2.Path = true →
      x.2.Path ∈ scan.map (fun f => f.Path)) :
    (reconcile (NewMD5Hashes true scan fileExists checksumDB).checksumDB (diskIndexOf scan)).OK =
        (diskIndexOf scan).map (fun e => mkPlain e.1 e.2) ∧
      (reconcile (NewMD5Hashes true scan fileExists checksumDB).checksumDB
        (diskIndexOf scan)).MODIFIED = [] ∧
      (reconcile (NewMD5Hashes true scan fileExists checksumDB).checksumDB
        (diskIndexOf scan)).MOVED = [] ∧
      (reconcile (NewMD5Hashes true scan fileExists checksumDB).checksumDB
        (diskIndexOf scan)).NEW = [] ∧
      (reconcile (NewMD5Hashes true scan fileExists checksumDB).checksumDB
        (diskIndexOf scan)).DELETED = [] ∧
      (reconcile (NewMD5Hashes true scan fileExists checksumDB).checksumDB
        (diskIndexOf scan)).RENAMED = [] := by
  have hlen : ¬ scan.length = 0 := fun h => hscan (List.length_eq_zero.1 h)
  obtain ⟨l1, l2⟩ := regenerate_loop scan
    { checksumDB := checksumDB, processedFilesCount := 0, pathsAddedToDbCount := 0,
      pathsUpdatedInDbCount := 0, pathsPrunedFromDbCount := 0, errorCount := 0 }
    hpaths hmd hnd (recordedOnce_of_oneEntryPerPath hone) hne
  have hfinal : ∀ h q,
      HasRecord (NewMD5Hashes true scan fileExists checksumDB).checksumDB h q ↔
        ∃ f ∈ scan, f.Hash = h ∧ f.Path = q := by
    intro h q
    unfold NewMD5Hashes
    simp only [hlen, if_false]
    rw [hasRecord_pruneEntries fileExists l1, l2]
    constructor
    · rintro ⟨⟨hq, hr⟩ | hex, hin⟩
      · obtain ⟨pe, hpe, hpq⟩ := mem_records_of_hasRecord hr
        have := hstale (h, pe) hpe (by simp only [hpq]; exact hin)
        simp only [hpq] at this
        exact absurd this hq
      · exact hex
    · rintro ⟨f, hf, hfh, hfq⟩
      exact ⟨Or.inr ⟨f, hf, hfh, hfq⟩, hfq ▸ hexists f hf⟩
  have hndfinal : NodupKeys (NewMD5Hashes true scan fileExists checksumDB).checksumDB := by
    unfold NewMD5Hashes
    simp only [hlen, if_false]
    exact nodupKeys_pruneEntries fileExists l1
  apply reconcile_clean
  · intro e he
    obtain ⟨f, hf, rfl⟩ := List.mem_map.1 he
    exact (hfinal _ _).2 ⟨f, hf, rfl, rfl⟩
  · intro x hx
    obtain ⟨f, hf, hfh, hfq⟩ := (hfinal _ _).1 (hasRecord_of_mem_records hndfinal hx)
    rw [← hfh, ← hfq]
    exact List.mem_map.2 ⟨f, hf, rfl⟩

theorem round_trip_witness :
    NodupKeys twoDB ∧ OneEntryPerPath twoDB ∧ twoDB.lookup "" = none ∧
      [changedA, copyC] ≠ [] ∧ ([changedA, copyC].map (fun f => f.Path)).Nodup ∧
      (∀ f ∈ [changedA, copyC], isMD5 f.Hash = true) ∧
      (∀ f ∈ [changedA, copyC], statIn ["a.txt", "c.txt"] f.Path = true) ∧
      (∀ x ∈ records twoDB, statIn ["a.txt", "c.txt"] x.2.Path = true →
        x.2.Path ∈ [changedA, copyC].map (fun f => f.Path)) ∧
      ((reconcile (NewMD5Hashes true [changedA, copyC] (statIn ["a.txt", "c.txt"])
            twoDB).checksumDB (diskIndexOf [changedA, copyC])).OK =
          (diskIndexOf [changedA, copyC]).map (fun e => mkPlain e.1 e.2) ∧
        (reconcile (NewMD5Hashes true [changedA, copyC] (statIn ["a.txt", "c.txt"])
          twoDB).checksumDB (diskIndexOf [changedA, copyC])).MODIFIED = [] ∧
        (reconcile (NewMD5Hashes true [changedA, copyC] (statIn ["a.txt", "c.txt"])
          twoDB).checksumDB (diskIndexOf [changedA, copyC])).MOVED = [] ∧
        (reconcile (NewMD5Hashes true [changedA, copyC] (statIn ["a.txt", "c.txt"])
          twoDB).checksumDB (diskIndexOf [changedA, copyC])).NEW = [] ∧
        (reconcile (NewMD5Hashes true [changedA, copyC] (statIn ["a.txt", "c.txt"])
          twoDB).checksumDB (diskIndexOf [changedA, copyC])).DELETED = [] ∧
        (reconcile (NewMD5Hashes true [changedA, copyC] (statIn ["a.txt", "c.txt"])
          twoDB).checksumDB (diskIndexOf [changedA, copyC])).RENAMED = []) :=
  ⟨by decide, by decide, by decide, by decide, by decide, by decide, by decide, by decide,
    round_trip twoDB [changedA, copyC] (statIn ["a.txt", "c.txt"]) (by decide) (by decide)
      (by decide) (by decide) (by decide) (by decide) (by decide) (by decide)⟩

end C6


section C7

theorem getPathsFromResults_eq (rs : List Result) :
    getPathsFromResults rs = (pathsOf rs).filter (fun p => p != "") := by
  unfold getPathsFromResults pathsOf
  rw [List.filter_map]
  rfl

/-- C7, the claim as stated fails: with the empty path recorded under `fp1` and `b.txt` carrying
`fp1` on disk, `fp1` has a provisional MOVED and a provisional DELETED result, the deleted paths
for `fp1` contain the empty path, and no final RENAMED result for `fp1` lists it in `OldPaths`. -/
theorem rename_resolution_counterexample :
    (∃ m ∈ (provisional emptyPathDB renamedDisk).MOVED, m.ContentHash = fp1) ∧
      (∃ d ∈ (provisional emptyPathDB renamedDisk).DELETED, d.OriginalContentHash = fp1) ∧
      "" ∈ pathsOf ((provisional emptyPathDB renamedDisk).DELETED.filter
        (fun d => d.OriginalContentHash == fp1)) ∧
      ∀ r ∈ (reconcile emptyPathDB renamedDisk).RENAMED, r.ContentHash = fp1 → "" ∉ r.OldPaths := by
  decide

/-- C7 as amended: for every store and disk index and every fingerprint `h` with a provisional
MOVED result and a provisional DELETED result, the final RENAMED list has exactly one result
with `ContentHash = h`; its `OldPaths` are the non-empty paths of the provisional DELETED
results for `h`, its `NewPaths` the non-empty paths of the provisional MOVED results for `h`
(both in list order); and the final MOVED and DELETED lists hold no result for `h`. -/
theorem rename_resolution (checksumDB : ChecksumDB) (diskFiles : DiskFiles) (h : String)
    (hm : ∃ m ∈ (provisional checksumDB diskFiles).MOVED, m.ContentHash = h)
    (hd : ∃ d ∈ (provisional checksumDB diskFiles).DELETED, d.OriginalContentHash = h) :
    (∃ r, (reconcile checksumDB diskFiles).RENAMED.filter (fun x => x.ContentHash == h) = [r] ∧
        r.OldPaths = (pathsOf ((provisional checksumDB diskFiles).DELETED.filter
          (fun d => d.OriginalContentHash == h))).filter (fun p => p != "") ∧
        r.NewPaths = (pathsOf ((provisional checksumDB diskFiles).MOVED.filter
          (fun m => m.ContentHash == h))).filter (fun p => p != "")) ∧
      (∀ r ∈ (reconcile checksumDB diskFiles).MOVED, r.ContentHash ≠ h) ∧
      (∀ r ∈ (reconcile checksumDB diskFiles).DELETED, r.OriginalContentHash ≠ h) := by
  unfold reconcile
  refine ⟨?_, ?_, ?_⟩
  · obtain ⟨hmem, hsome⟩ := renamedOf_group_of_mem hm hd
    refine ⟨mkRenamed h
      ((provisional checksumDB diskFiles).DELETED.filter (fun d => d.OriginalContentHash == h))
      ((provisional checksumDB diskFiles).MOVED.filter (fun m => m.ContentHash == h)),
      ?_, getPathsFromResults_eq _, getPathsFromResults_eq _⟩
    rw [handleRenamed_RENAMED, provisional_RENAMED, List.nil_append]
    apply filter_filterMap_eq_singleton (nodup_of_nodupKeys (nodupKeys_groupMoved _)) hmem hsome
    · simp [mkRenamed]
    · intro e he b hb hq
      obtain ⟨-, -, -, rfl⟩ := renamedOf_eq_some he hb
      simp only [mkRenamed, beq_iff_eq] at hq
      exact eq_of_mem_nodupKeys (nodupKeys_groupMoved _) he hmem hq
  · intro r hr hrh
    rw [handleRenamed_MOVED] at hr
    obtain ⟨-, hr2⟩ := List.mem_filter.1 hr
    simp only [Bool.not_eq_true', List.any_eq_false, beq_iff_eq] at hr2
    obtain ⟨d, hd1, hd2⟩ := hd
    exact hr2 d hd1 (hd2.trans hrh.symm)
  · intro r hr hrh
    rw [handleRenamed_DELETED] at hr
    obtain ⟨hr1, hr2⟩ := List.mem_filter.1 hr
    simp only [Bool.not_eq_true', List.any_eq_false, Bool.and_eq_true, List.any_eq_true,
      beq_iff_eq, not_and, not_exists] at hr2
    obtain ⟨m, hm1, hm2⟩ := hm
    exact hr2 r hr1 (by simp [sameItem]) m hm1 (hm2.trans hrh.symm)

theorem rename_resolution_witness :
    (∃ m ∈ (provisional oneDB renamedDisk).MOVED, m.ContentHash = fp1) ∧
      (∃ d ∈ (provisional oneDB renamedDisk).DELETED, d.OriginalContentHash = fp1) ∧
      ((∃ r, (reconcile oneDB renamedDisk).RENAMED.filter (fun x => x.ContentHash == fp1) = [r] ∧
          r.OldPaths = (pathsOf ((provisional oneDB renamedDisk).DELETED.filter
            (fun d => d.OriginalContentHash == fp1))).filter (fun p => p != "") ∧
          r.NewPaths = (pathsOf ((provisional oneDB renamedDisk).MOVED.filter
            (fun m => m.ContentHash == fp1))).filter (fun p => p != "")) ∧
        (∀ r ∈ (reconcile oneDB renamedDisk).MOVED, r.ContentHash ≠ fp1) ∧
        (∀ r ∈ (reconcile oneDB renamedDisk).DELETED, r.OriginalContentHash ≠ fp1)) :=
  ⟨by decide, by decide,
    rename_resolution oneDB renamedDisk fp1 (by decide) (by decide)⟩

end C7

section C8

/-- C8, the code at the failing input: with `a.txt` recorded under `fp1` and under `fp2` and
only `b.txt` (carrying `fp1`) on disk, the provisional DELETED result for `a.txt` under `fp2`
has no provisional MOVED result for `fp2`, yet it is missing from the final DELETED list, which
is empty. -/
theorem unmatched_deleted_dropped :
    mkDeleted "a.txt" fp2 ∈ (provisional sharedPathDB renamedDisk).DELETED ∧
      (∀ m ∈ (provisional sharedPathDB renamedDisk).MOVED, m.ContentHash ≠ fp2) ∧
      mkDeleted "a.txt" fp2 ∉ (reconcile sharedPathDB renamedDisk).DELETED ∧
      (reconcile sharedPathDB renamedDisk).DELETED = [] := by
  decide

/-- What the rename loop does keep: a provisional MOVED result whose fingerprint has no
provisional DELETED result stays MOVED, for every store and disk index; a provisional DELETED
result whose fingerprint has no provisional MOVED result stays DELETED when each path occurs in
at most one entry of the store and at most once in it. -/
theorem unmatched_kept (checksumDB : ChecksumDB) (diskFiles : DiskFiles) :
    (∀ r ∈ (provisional checksumDB diskFiles).MOVED,
        (∀ d ∈ (provisional checksumDB diskFiles).DELETED,
          d.OriginalContentHash ≠ r.ContentHash) →
        r ∈ (reconcile checksumDB diskFiles).MOVED) ∧
      (UniquePaths checksumDB →
        ∀ r ∈ (provisional checksumDB diskFiles).DELETED,
          (∀ m ∈ (provisional checksumDB diskFiles).MOVED,
            m.ContentHash ≠ r.OriginalContentHash) →
          r ∈ (reconcile checksumDB diskFiles).DELETED) := by
  unfold reconcile
  constructor
  · intro r hr hno
    rw [handleRenamed_MOVED]
    refine List.mem_filter.2 ⟨hr, ?_⟩
    simp only [Bool.not_eq_true', List.any_eq_false, beq_iff_eq]
    exact hno
  · intro hu r hr hno
    rw [handleRenamed_DELETED]
    refine List.mem_filter.2 ⟨hr, ?_⟩
    simp only [Bool.not_eq_true', List.any_eq_false, Bool.and_eq_true, List.any_eq_true,
      beq_iff_eq, not_and, not_exists]
    intro d hd hsame m hm hmd
    have hr' := hr
    rw [provisional_DELETED] at hr' hd
    obtain ⟨x, hx, hxr⟩ := List.mem_filterMap.1 hr'
    obtain ⟨y, hy, hyd⟩ := List.mem_filterMap.1 hd
    obtain ⟨-, -, rfl⟩ := delOf_eq_some.1 hxr
    obtain ⟨-, -, rfl⟩ := delOf_eq_some.1 hyd
    simp only [sameItem, mkDeleted, Bool.and_eq_true, beq_iff_eq] at hsame
    have hxy := eq_of_mem_records hu hx hy hsame.1
    subst hxy
    exact hno m hm (by simpa [mkDeleted] using hmd)

end C8


section C9

/-- C9 (move detection in the first loop): for every store and every disk index that is a map,
for every disk pair `(path, h)` such that the store has an entry for `h` with no path record
for `path`, the MOVED list before rename resolution holds exactly one result with that `Path`;
its `ContentHash` is `h` and its `KnownOldPaths` are the paths of the entry for `h` in entry
order. -/
theorem move_detection (checksumDB : ChecksumDB) (diskFiles : DiskFiles)
    (hdisk : NodupKeys diskFiles) (e : String × String) (he : e ∈ diskFiles)
    (infoData : InfoData) (hl : checksumDB.lookup e.2 = some infoData)
    (hno : ¬ ∃ p ∈ infoData.RelativePaths, p.Path = e.1) :
    ∃ r, (provisional checksumDB diskFiles).MOVED.filter (fun x => x.Path == e.1) = [r] ∧
      r.Path = e.1 ∧ r.ContentHash = e.2 ∧
      r.KnownOldPaths = infoData.RelativePaths.map (fun p => p.Path) := by
  refine ⟨mkMoved e.1 e.2 infoData, ?_, rfl, rfl, rfl⟩
  rw [provisional_MOVED]
  apply filter_filterMap_eq_singleton (nodup_of_nodupKeys hdisk) he
    (movedOf_eq_some.2 ⟨infoData, hl, hno, rfl⟩)
  · simp [mkMoved]
  · intro e' he' b hb hq
    obtain ⟨info', -, -, rfl⟩ := movedOf_eq_some.1 hb
    simp only [mkMoved, beq_iff_eq] at hq
    exact eq_of_mem_nodupKeys hdisk he' he hq

theorem move_detection_witness :
    NodupKeys renamedDisk ∧ ("b.txt", fp1) ∈ renamedDisk ∧
      oneDB.lookup fp1 = some (entryOf fp1 ["a.txt"]).2 ∧
      (¬ ∃ p ∈ (entryOf fp1 ["a.txt"]).2.RelativePaths, p.Path = "b.txt") ∧
      ∃ r, (provisional oneDB renamedDisk).MOVED.filter (fun x => x.Path == "b.txt") = [r] ∧
        r.Path = "b.txt" ∧ r.ContentHash = fp1 ∧
        r.KnownOldPaths = (entryOf fp1 ["a.txt"]).2.RelativePaths.map (fun p => p.Path) :=
  ⟨by decide, by decide, by decide, by decide,
    move_detection oneDB renamedDisk (by decide) ("b.txt", fp1) (by decide)
      (entryOf fp1 ["a.txt"]).2 (by decide) (by decide)⟩

end C9

section C10

/-- C10 (modification detection): for a store whose keys are well-formed fingerprints and in
which each path occurs in at most one entry and once in it, and a disk index that is a map, for
every path record `(h, path)` of the store with `disk[path] = h2` and `h2 ≠ h`, the final
MODIFIED list holds exactly one result with that `Path`, and it has `OriginalContentHash = h`
and `ContentHash = h2`. -/
theorem modification_detection (checksumDB : ChecksumDB) (diskFiles : DiskFiles)
    (hwf : WellFormedKeys checksumDB) (hu : UniquePaths checksumDB)
    (hdisk : NodupKeys diskFiles) (x : String × PathEntry) (hx : x ∈ records checksumDB)
    (h2 : String) (hl : diskFiles.lookup x.2.Path = some h2) (hne : h2 ≠ x.1) :
    ∃ r, (reconcile checksumDB diskFiles).MODIFIED.filter (fun y => y.Path == x.2.Path) = [r] ∧
      r.Path = x.2.Path ∧ r.OriginalContentHash = x.1 ∧ r.ContentHash = h2 := by
  refine ⟨mkModified x.2.Path x.1 h2, ?_, rfl, rfl, rfl⟩
  obtain ⟨-, fMod, -⟩ := final_paths checksumDB diskFiles
  rw [fMod, provisional_MODIFIED]
  have hkey : dbKey x.1 x.2.Path ∉ diskFiles.filterMap (keyOf checksumDB) := by
    intro hk
    obtain ⟨e, he, hke⟩ := List.mem_filterMap.1 hk
    obtain ⟨⟨info, hle, -⟩, hkeq⟩ := keyOf_eq_some.1 hke
    obtain ⟨info', hx1, -⟩ := mem_records.1 hx
    have l1 := isMD5_length (hwf _ hx1)
    have l2 := isMD5_length (hwf _ (mem_db_of_lookup hle))
    obtain ⟨e1, e2⟩ := dbKey_inj (l1.trans l2.symm) hkeq
    have hlk := lookup_eq_some_of_mem hdisk he
    rw [← e2, hl] at hlk
    simp only [Option.some.injEq] at hlk
    exact hne (hlk.trans e1.symm)
  apply filter_filterMap_eq_singleton (nodup_records hu) hx
    (modOf_eq_some.2 ⟨hkey, h2, hl, rfl⟩)
  · simp [mkModified]
  · intro y hy b hb hq
    obtain ⟨-, dh, -, rfl⟩ := modOf_eq_some.1 hb
    simp only [mkModified, beq_iff_eq] at hq
    exact eq_of_mem_records hu hy hx hq

theorem modification_detection_witness :
    WellFormedKeys oneDB ∧ UniquePaths oneDB ∧ NodupKeys modifiedDisk ∧
      (fp1, pathAt "a.txt") ∈ records oneDB ∧ modifiedDisk.lookup "a.txt" = some fp3 ∧
      fp3 ≠ fp1 ∧
      ∃ r, (reconcile oneDB modifiedDisk).MODIFIED.filter (fun y => y.Path == "a.txt") = [r] ∧
        r.Path = "a.txt" ∧ r.OriginalContentHash = fp1 ∧ r.ContentHash = fp3 :=
  ⟨by decide, by decide, by decide, by decide, by decide, by decide,
    modification_detection oneDB modifiedDisk (by decide) (by decide) (by decide)
      (fp1, pathAt "a.txt") (by decide) fp3 (by decide) (by decide)⟩

end C10


section C11

/-- C11, the claim as stated fails: with `a.txt` recorded under `fp1` and carrying `fp3` on
disk, `fp3` is not a key of the store, yet `a.txt` is not in the final NEW list (it is
MODIFIED). -/
theorem new_file_counterexample :
    ("a.txt", fp3) ∈ modifiedDisk ∧ oneDB.lookup fp3 = none ∧
      "a.txt" ∉ pathsOf (reconcile oneDB modifiedDisk).NEW ∧
      "a.txt" ∈ pathsOf (reconcile oneDB modifiedDisk).MODIFIED := by
  decide

/-- C11 as amended: for every store and every disk index that is a map, a disk pair `(path, h)`
whose fingerprint `h` is not a key of the store is the `Path` of no MOVED result, before or
after rename resolution, and when in addition the store has no path record for `path` it is
reported in the final NEW list. -/
theorem new_file_detection (checksumDB : ChecksumDB) (diskFiles : DiskFiles)
    (hdisk : NodupKeys diskFiles) (e : String × String) (he : e ∈ diskFiles)
    (hkey : checksumDB.lookup e.2 = none) :
    e.1 ∉ pathsOf (provisional checksumDB diskFiles).MOVED ∧
      e.1 ∉ pathsOf (reconcile checksumDB diskFiles).MOVED ∧
      ((∀ x ∈ records checksumDB, x.2.Path ≠ e.1) →
        mkPlain e.1 e.2 ∈ (reconcile checksumDB diskFiles).NEW) := by
  have hnm : e.1 ∉ pathsOf (provisional checksumDB diskFiles).MOVED := by
    intro hm
    obtain ⟨r, hr, hp⟩ := mem_pathsOf.1 hm
    rw [provisional_MOVED] at hr
    obtain ⟨e', he', ho⟩ := List.mem_filterMap.1 hr
    obtain ⟨info, hl, -, rfl⟩ := movedOf_eq_some.1 ho
    simp only [mkMoved] at hp
    have hee : e' = e := eq_of_mem_nodupKeys hdisk he' he hp
    subst hee
    rw [hkey] at hl
    cases hl
  refine ⟨hnm, fun h => hnm (final_MOVED_paths h), ?_⟩
  intro hnorec
  obtain ⟨-, -, fNew⟩ := final_paths checksumDB diskFiles
  rw [fNew, provisional_NEW]
  refine List.mem_filterMap.2 ⟨e, he, newOf_eq_some.2 ⟨?_, rfl⟩⟩
  rw [provisional_processedDiskPaths]
  intro hseen
  rcases List.mem_append.1 hseen with h1 | h2
  · obtain ⟨e', he', hs⟩ := List.mem_filterMap.1 h1
    obtain ⟨⟨info, hl⟩, hp⟩ := seenOf_eq_some.1 hs
    have hee : e' = e := eq_of_mem_nodupKeys hdisk he' he hp.symm
    subst hee
    rw [hkey] at hl
    cases hl
  · obtain ⟨r, hr, hp⟩ := List.mem_map.1 h2
    obtain ⟨x, hx, hm⟩ := List.mem_filterMap.1 hr
    obtain ⟨-, dh, -, rfl⟩ := modOf_eq_some.1 hm
    exact hnorec x hx hp

theorem new_file_detection_witness :
    NodupKeys newFileDisk ∧ ("c.txt", fp3) ∈ newFileDisk ∧ oneDB.lookup fp3 = none ∧
      (∀ x ∈ records oneDB, x.2.Path ≠ "c.txt") ∧
      "c.txt" ∉ pathsOf (provisional oneDB newFileDisk).MOVED ∧
      "c.txt" ∉ pathsOf (reconcile oneDB newFileDisk).MOVED ∧
      mkPlain "c.txt" fp3 ∈ (reconcile oneDB newFileDisk).NEW :=
  ⟨by decide, by decide, by decide, by decide,
    (new_file_detection oneDB newFileDisk (by decide) ("c.txt", fp3) (by decide) (by decide)).1,
    (new_file_detection oneDB newFileDisk (by decide) ("c.txt", fp3) (by decide) (by decide)).2.1,
    (new_file_detection oneDB newFileDisk (by decide) ("c.txt", fp3) (by decide) (by decide)).2.2
      (by decide)⟩

end C11

section C12

/-- C12 (OK classification): for every store and every disk index that is a map, and every disk
pair `(path, h)`, the final OK list holds a result with `Path = path` if and only if the store
has an entry for `h` with a path record for `path`; in that case there is exactly one such
result, and its `ContentHash` is `h`. -/
theorem ok_classification (checksumDB : ChecksumDB) (diskFiles : DiskFiles)
    (hdisk : NodupKeys diskFiles) (e : String × String) (he : e ∈ diskFiles) :
    (e.1 ∈ pathsOf (reconcile checksumDB diskFiles).OK ↔ HasRecord checksumDB e.2 e.1) ∧
      (HasRecord checksumDB e.2 e.1 →
        ∃ r, (reconcile checksumDB diskFiles).OK.filter (fun x => x.Path == e.1) = [r] ∧
          r.Path = e.1 ∧ r.ContentHash = e.2) := by
  obtain ⟨fOK, -, -⟩ := final_paths checksumDB diskFiles
  rw [fOK, provisional_OK]
  constructor
  · constructor
    · intro h
      obtain ⟨r, hr, hp⟩ := mem_pathsOf.1 h
      obtain ⟨e', he', ho⟩ := List.mem_filterMap.1 hr
      obtain ⟨hrec, rfl⟩ := okOf_eq_some.1 ho
      simp only [mkPlain] at hp
      have hee : e' = e := eq_of_mem_nodupKeys hdisk he' he hp
      subst hee
      exact hrec
    · intro hrec
      exact mem_pathsOf.2 ⟨mkPlain e.1 e.2,
        List.mem_filterMap.2 ⟨e, he, okOf_eq_some.2 ⟨hrec, rfl⟩⟩, rfl⟩
  · intro hrec
    refine ⟨mkPlain e.1 e.2, ?_, rfl, rfl⟩
    apply filter_filterMap_eq_singleton (nodup_of_nodupKeys hdisk) he
      (okOf_eq_some.2 ⟨hrec, rfl⟩)
    · simp [mkPlain]
    · intro e' he' b hb hq
      obtain ⟨-, rfl⟩ := okOf_eq_some.1 hb
      simp only [mkPlain, beq_iff_eq] at hq
      exact eq_of_mem_nodupKeys hdisk he' he hq

theorem ok_classification_witness :
    NodupKeys cleanDisk ∧ ("dir/b.txt", fp1) ∈ cleanDisk ∧
      (("dir/b.txt" ∈ pathsOf (reconcile cleanDB cleanDisk).OK ↔
          HasRecord cleanDB fp1 "dir/b.txt") ∧
        (HasRecord cleanDB fp1 "dir/b.txt" →
          ∃ r, (reconcile cleanDB cleanDisk).OK.filter (fun x => x.Path == "dir/b.txt") = [r] ∧
            r.Path = "dir/b.txt" ∧ r.ContentHash = fp1)) :=
  ⟨by decide, by decide,
    ok_classification cleanDB cleanDisk (by decide) ("dir/b.txt", fp1) (by decide)⟩

end C12


section AppendOnly

theorem hasRecordB_iff {db : ChecksumDB} {h p : String} :
    hasRecordB db h p = true ↔ HasRecord db h p := by
  unfold hasRecordB HasRecord
  cases hl : db.lookup h with
  | none => simp
  | some info => simp [List.any_eq_true]

theorem key_ne_empty_of_mem {db : ChecksumDB} (hne : db.lookup "" = none) {e : String × InfoData}
    (he : e ∈ db) : e.1 ≠ "" := by
  intro hc
  apply lookup_eq_none_iff.1 hne
  rw [← hc]
  exact List.mem_map_of_mem Prod.fst he

/-- On a map without an empty key, `existingHash` is empty exactly when the path has no record,
and otherwise names an entry that records the path. -/
theorem findExistingHash_cases {db : ChecksumDB} (hnd : NodupKeys db)
    (hne : db.lookup "" = none) (p : String) :
    (findExistingHash db p = "" ∧ ∀ h, ¬ HasRecord db h p) ∨
      (findExistingHash db p ≠ "" ∧ HasRecord db (findExistingHash db p) p) := by
  rcases findExistingHash_spec db p with ⟨h1, h2⟩ | ⟨h1, info, h2, h3⟩
  · left
    refine ⟨h1, ?_⟩
    rintro h ⟨info, hl, hex⟩
    have hm := mem_db_of_lookup hl
    exact h2 (h, info) hm (key_ne_empty_of_mem hne hm) hex
  · right
    exact ⟨h1, info, lookup_eq_some_of_mem hnd h2, h3⟩

theorem hasRecord_refresh {db : ChecksumDB} {eh : String} {info : InfoData}
    (hl : db.lookup eh = some info) (path now h q : String) :
    HasRecord (mapSet db eh
      { info with RelativePaths := refreshLastSeen info.RelativePaths path now }) h q ↔
      HasRecord db h q := by
  rw [hasRecord_mapSet]
  simp only
  rw [exists_path_iff_mem_map, paths_refreshLastSeen, ← exists_path_iff_mem_map]
  constructor
  · rintro (⟨rfl, hex⟩ | ⟨-, hr⟩)
    · exact ⟨info, hl, hex⟩
    · exact hr
  · intro hr
    by_cases hk : eh = h
    · left
      subst hk
      obtain ⟨info', hl', hex⟩ := hr
      rw [hl] at hl'
      cases hl'
      exact ⟨rfl, hex⟩
    · right; exact ⟨hk, hr⟩

/-- The AppendOnly branch for a known path (generate.go 159-172) changes no path binding. -/
theorem hasRecord_appendKnown (st : GenState) (eh : String) (f : ScannedFile) (h q : String) :
    HasRecord (if eh = f.Hash then
        if ((st.checksumDB.lookup eh).getD InfoData.zero).RelativePaths.any
            (fun p => p.Path == f.Path) then
          { st with
            checksumDB := mapSet st.checksumDB eh
              { (st.checksumDB.lookup eh).getD InfoData.zero with
                RelativePaths := refreshLastSeen
                  ((st.checksumDB.lookup eh).getD InfoData.zero).RelativePaths f.Path f.Now }
            pathsUpdatedInDbCount := st.pathsUpdatedInDbCount + 1 }
        else st
      else st).checksumDB h q ↔ HasRecord st.checksumDB h q := by
  split
  · split
    · rename_i hany
      cases hl : st.checksumDB.lookup eh with
      | none =>
        rw [hl] at hany
        simp [InfoData.zero] at hany
      | some info =>
        simp only [Option.getD_some]
        exact hasRecord_refresh hl _ _ _ _
    · exact Iff.rfl
  · exact Iff.rfl

/-- One AppendOnly step on a map without an empty key: existing records stay, and a record is
added only for a well-formed digest and a path that had no record at all. -/
theorem hasRecord_processFile_append {st : GenState} (hnd : NodupKeys st.checksumDB)
    (hne : st.checksumDB.lookup "" = none) (f : ScannedFile) (h q : String) :
    HasRecord (processFile false st f).checksumDB h q ↔
      HasRecord st.checksumDB h q ∨
        (isMD5 f.Hash = true ∧ (∀ h0, ¬ HasRecord st.checksumDB h0 f.Path) ∧
          h = f.Hash ∧ q = f.Path) := by
  unfold processFile
  by_cases hmd : isMD5 f.Hash = true
  · simp only [hmd, Bool.not_true, Bool.false_eq_true, if_false, Bool.not_false, Bool.true_and,
      Bool.false_and, true_and]
    rcases findExistingHash_cases hnd hne f.Path with ⟨h1, h2⟩ | ⟨h1, h2⟩
    · rw [h1]
      simp only [bne_self_eq_false, Bool.false_eq_true, if_false]
      rw [hasRecord_addOrRefresh]
      constructor
      · rintro (hr | hr)
        · left; exact hr
        · right; exact ⟨h2, hr⟩
      · rintro (hr | ⟨-, hr⟩)
        · left; exact hr
        · right; exact hr
    · have hb : (findExistingHash st.checksumDB f.Path != "") = true := by simpa using h1
      simp only [hb, if_true]
      rw [hasRecord_appendKnown]
      constructor
      · intro hr; left; exact hr
      · rintro (hr | ⟨hno, -⟩)
        · exact hr
        · exact absurd h2 (hno _)
  · have hmd2 : isMD5 f.Hash = false := by simpa using hmd
    simp [hmd2]

theorem lookup_empty_processFile {st : GenState} (hne : st.checksumDB.lookup "" = none)
    (regen : Bool) (f : ScannedFile) :
    (processFile regen st f).checksumDB.lookup "" = none := by
  unfold processFile
  by_cases hmd : isMD5 f.Hash = true
  · have hf : f.Hash ≠ "" := isMD5_ne_empty hmd
    have hadd : ∀ st' : GenState, st'.checksumDB.lookup "" = none →
        (addOrRefresh st' f).checksumDB.lookup "" = none := by
      intro st' h'
      unfold addOrRefresh
      simp only
      split <;> simp only [lookup_mapSet, hf, if_false, h']
    simp only [hmd, Bool.not_true, Bool.false_eq_true, if_false]
    split
    · rename_i hc
      simp only [Bool.and_eq_true, bne_iff_ne, ne_eq] at hc
      split
      · split
        · simp only [lookup_mapSet, hc.2, if_false, hne]
        · exact hne
      · exact hne
    · apply hadd
      split
      · rename_i hc
        simp only [Bool.and_eq_true, bne_iff_ne, ne_eq] at hc
        unfold removeFromOld
        simp only
        split
        · rw [lookup_mapDelete]; simp [hne]
        · rw [lookup_mapSet]; simp [hc.1.2, hne]
      · exact hne
  · have hmd2 : isMD5 f.Hash = false := by simpa using hmd
    simp [hmd2, hne]

theorem recordedOnce_processFile {st : GenState} (hnd : NodupKeys st.checksumDB)
    (hone : RecordedOnce st.checksumDB) (hne : st.checksumDB.lookup "" = none)
    (regen : Bool) (f : ScannedFile) : RecordedOnce (processFile regen st f).checksumDB := by
  cases regen with
  | true =>
    by_cases hmd : isMD5 f.Hash = true
    · exact oneEntry_processFile_regen hnd hone hne hmd
    · have hmd2 : isMD5 f.Hash = false := by simpa using hmd
      have : (processFile true st f).checksumDB = st.checksumDB := by
        unfold processFile; simp [hmd2]
      rw [this]; exact hone
  | false =>
    intro h1 h2 p r1 r2
    rw [hasRecord_processFile_append hnd hne] at r1 r2
    rcases r1 with r1 | ⟨-, hno1, rfl, rfl⟩
    · rcases r2 with r2 | ⟨-, hno2, -, rfl⟩
      · exact hone _ _ _ r1 r2
      · exact absurd r1 (hno2 _)
    · rcases r2 with r2 | ⟨-, -, rfl, -⟩
      · exact absurd r2 (hno1 _)
      · rfl

end AppendOnly


section C13

/-- The processing loop, in either mode, keeps a store a map without an empty key in which no
path is recorded under two keys. -/
theorem loop_invariants (regen : Bool) (scan : List ScannedFile) (st : GenState)
    (hnd : NodupKeys st.checksumDB) (hne : st.checksumDB.lookup "" = none)
    (hone : RecordedOnce st.checksumDB) :
    NodupKeys (scan.foldl (processFile regen) st).checksumDB ∧
      (scan.foldl (processFile regen) st).checksumDB.lookup "" = none ∧
      RecordedOnce (scan.foldl (processFile regen) st).checksumDB := by
  induction scan generalizing st with
  | nil => exact ⟨hnd, hne, hone⟩
  | cons f rest ih =>
    rw [List.foldl_cons]
    exact ih _ (nodupKeys_processFile hnd regen f) (lookup_empty_processFile hne regen f)
      (recordedOnce_processFile hnd hone hne regen f)

/-- The AppendOnly loop on a map without an empty key keeps every record and adds records only
for paths that had none. -/
theorem append_loop (scan : List ScannedFile) (st : GenState)
    (hnd : NodupKeys st.checksumDB) (hne : st.checksumDB.lookup "" = none) :
    (∀ h q, HasRecord st.checksumDB h q →
        HasRecord (scan.foldl (processFile false) st).checksumDB h q) ∧
      (∀ h q, HasRecord (scan.foldl (processFile false) st).checksumDB h q →
        HasRecord st.checksumDB h q ∨ ∀ h0, ¬ HasRecord st.checksumDB h0 q) := by
  induction scan generalizing st with
  | nil => exact ⟨fun _ _ h => h, fun _ _ h => Or.inl h⟩
  | cons f rest ih =>
    rw [List.foldl_cons]
    obtain ⟨ih1, ih2⟩ := ih (processFile false st f) (nodupKeys_processFile hnd false f)
      (lookup_empty_processFile hne false f)
    constructor
    · intro h q hr
      exact ih1 h q ((hasRecord_processFile_append hnd hne f h q).2 (Or.inl hr))
    · intro h q hr
      rcases ih2 h q hr with h1 | h1
      · rcases (hasRecord_processFile_append hnd hne f h q).1 h1 with h2 | ⟨-, hno, -, rfl⟩
        · left; exact h2
        · right; exact hno
      · right
        intro h0 hr0
        exact h1 h0 ((hasRecord_processFile_append hnd hne f h0 q).2 (Or.inl hr0))

/-- C13, the claim as stated fails for two kinds of initial store. When the only entry is keyed
by the empty string, `x.txt` is recorded under that key before the AppendOnly loop and also
under `fp3` after it. When `x.txt` is recorded under `fp1` and `fp2`, it is recorded under
`fp1` before the loop and under the other fingerprint `fp2` after it. -/
theorem append_only_counterexample :
    (HasRecord emptyKeyDB "" "x.txt" ∧
        HasRecord (scanX.foldl (processFile false) (startOf emptyKeyDB)).checksumDB fp3 "x.txt" ∧
        fp3 ≠ "") ∧
      (HasRecord twiceDB fp1 "x.txt" ∧
        HasRecord (scanX.foldl (processFile false) (startOf twiceDB)).checksumDB fp2 "x.txt" ∧
        fp2 ≠ fp1) :=
  ⟨⟨hasRecordB_iff.1 (by decide), hasRecordB_iff.1 (by decide), by decide⟩,
    ⟨hasRecordB_iff.1 (by decide), hasRecordB_iff.1 (by decide), by decide⟩⟩

/-- C13 as amended: for an initial store that is a map, has no entry keyed by the empty string
and records each path in at most one entry, and every scan, after the AppendOnly processing
loop every path that had a path record under `hOld` still has one under `hOld` and has none
under any other key, whatever digest the scan reports for it. -/
theorem append_only_keeps_bindings (scan : List ScannedFile) (st : GenState)
    (hnd : NodupKeys st.checksumDB) (hone : OneEntryPerPath st.checksumDB)
    (hne : st.checksumDB.lookup "" = none) (hOld path : String)
    (hrec : HasRecord st.checksumDB hOld path) :
    HasRecord (scan.foldl (processFile false) st).checksumDB hOld path ∧
      ∀ h, HasRecord (scan.foldl (processFile false) st).checksumDB h path → h = hOld := by
  obtain ⟨l1, l2⟩ := append_loop scan st hnd hne
  refine ⟨l1 _ _ hrec, ?_⟩
  intro h hr
  rcases l2 h path hr with h1 | h1
  · exact recordedOnce_of_oneEntryPerPath hone _ _ _ h1 hrec
  · exact absurd hrec (h1 _)

theorem append_only_keeps_bindings_witness :
    NodupKeys (startOf oneDB).checksumDB ∧ OneEntryPerPath (startOf oneDB).checksumDB ∧
      (startOf oneDB).checksumDB.lookup "" = none ∧
      HasRecord (startOf oneDB).checksumDB fp1 "a.txt" ∧
      (HasRecord
          ([{ Path := "a.txt", Hash := fp3, Now := "2024-02-02T00:00:00Z" }].foldl
            (processFile false) (startOf oneDB)).checksumDB fp1 "a.txt" ∧
        ∀ h, HasRecord
          ([{ Path := "a.txt", Hash := fp3, Now := "2024-02-02T00:00:00Z" }].foldl
            (processFile false) (startOf oneDB)).checksumDB h "a.txt" → h = fp1) :=
  ⟨by decide, by decide, by decide, hasRecordB_iff.1 (by decide),
    append_only_keeps_bindings [{ Path := "a.txt", Hash := fp3, Now := "2024-02-02T00:00:00Z" }]
      (startOf oneDB) (by decide) (by decide) (by decide) fp1 "a.txt"
      (hasRecordB_iff.1 (by decide))⟩

end C13


section Uniqueness

theorem paths_records (db : ChecksumDB) :
    (records db).map (fun x => x.2.Path) =
      db.flatMap (fun e => e.2.RelativePaths.map (fun p => p.Path)) := by
  induction db with
  | nil => rfl
  | cons e rest ih =>
    simp only [records, List.flatMap_cons, List.map_append, List.map_map] at ih ⊢
    rw [ih]
    rfl

theorem entriesNodup_of_uniquePaths {db : ChecksumDB} (hu : UniquePaths db) :
    EntriesNodup db := by
  intro h info hl
  unfold UniquePaths at hu
  rw [paths_records] at hu
  exact (List.nodup_flatMap.1 hu).1 (h, info) (mem_db_of_lookup hl)

theorem recordedOnce_of_uniquePaths {db : ChecksumDB} (hu : UniquePaths db) :
    RecordedOnce db := by
  intro h1 h2 p r1 r2
  obtain ⟨pe1, m1, e1⟩ := mem_records_of_hasRecord r1
  obtain ⟨pe2, m2, e2⟩ := mem_records_of_hasRecord r2
  have := eq_of_mem_records hu m1 m2 (e1.trans e2.symm)
  exact congrArg Prod.fst this

theorem uniquePaths_of_invariants {db : ChecksumDB} (hnd : NodupKeys db)
    (hen : EntriesNodup db) (hone : RecordedOnce db) : UniquePaths db := by
  unfold UniquePaths
  rw [paths_records]
  refine List.nodup_flatMap.2 ⟨?_, ?_⟩
  · intro e he
    exact hen e.1 e.2 (lookup_eq_some_of_mem hnd he)
  · apply List.Nodup.pairwise_of_forall_ne (nodup_of_nodupKeys hnd)
    intro a ha b hb hab
    simp only [Function.onFun]
    intro p hpa hpb
    apply hab
    have ra : HasRecord db a.1 p :=
      ⟨a.2, lookup_eq_some_of_mem hnd ha, (exists_path_iff_mem_map _ _).2 hpa⟩
    have rb : HasRecord db b.1 p :=
      ⟨b.2, lookup_eq_some_of_mem hnd hb, (exists_path_iff_mem_map _ _).2 hpb⟩
    exact eq_of_mem_nodupKeys hnd ha hb (hone _ _ _ ra rb)

theorem entriesNodup_mapSet {db : ChecksumDB} (hen : EntriesNodup db) (k : String)
    (v : InfoData) (hv : (v.RelativePaths.map (fun p => p.Path)).Nodup) :
    EntriesNodup (mapSet db k v) := by
  intro h info hl
  rw [lookup_mapSet] at hl
  split at hl
  · cases hl; exact hv
  · exact hen h info hl

theorem entriesNodup_mapDelete {db : ChecksumDB} (hen : EntriesNodup db) (k : String) :
    EntriesNodup (mapDelete db k) := by
  intro h info hl
  rw [lookup_mapDelete] at hl
  split at hl
  · cases hl
  · exact hen h info hl

theorem nodup_paths_getD {db : ChecksumDB} (hen : EntriesNodup db) (k : String)
    (dflt : InfoData) (hd : dflt.RelativePaths = []) :
    (((db.lookup k).getD dflt).RelativePaths.map (fun p => p.Path)).Nodup := by
  cases hl : db.lookup k with
  | none => simp [hd]
  | some info => exact hen k info hl

theorem entriesNodup_removeFromOld {db : ChecksumDB} (hen : EntriesNodup db) (eh p : String) :
    EntriesNodup (removeFromOld db eh p) := by
  unfold removeFromOld
  simp only
  split
  · exact entriesNodup_mapDelete hen _
  · apply entriesNodup_mapSet hen
    exact List.Nodup.sublist (List.Sublist.map _ (List.filter_sublist _))
      (nodup_paths_getD hen eh InfoData.zero rfl)

theorem entriesNodup_addOrRefresh {st : GenState} (hen : EntriesNodup st.checksumDB)
    (f : ScannedFile) : EntriesNodup (addOrRefresh st f).checksumDB := by
  have hbase := nodup_paths_getD hen f.Hash
    { ContentMD5 := f.Hash, RelativePaths := [], FirstCreated := f.Now,
      LastContentUpdate := f.Now } rfl
  unfold addOrRefresh
  simp only
  split
  · apply entriesNodup_mapSet hen
    simp only
    rw [paths_refreshLastSeen]
    exact hbase
  · rename_i hnone
    apply entriesNodup_mapSet hen
    simp only [List.map_append, List.map_cons, List.map_nil]
    refine List.Nodup.append hbase (List.nodup_singleton _) ?_
    simp only [List.disjoint_singleton]
    intro hin
    obtain ⟨pe, hpe⟩ := (findPathEntry_isSome_iff _ _).2 ((exists_path_iff_mem_map _ _).2 hin)
    rw [hpe] at hnone
    cases hnone

theorem entriesNodup_processFile {st : GenState} (hen : EntriesNodup st.checksumDB)
    (regen : Bool) (f : ScannedFile) : EntriesNodup (processFile regen st f).checksumDB := by
  unfold processFile
  simp only
  split
  · exact hen
  · split
    · split
      · split
        · apply entriesNodup_mapSet hen
          simp only
          rw [paths_refreshLastSeen]
          exact nodup_paths_getD hen _ InfoData.zero rfl
        · exact hen
      · exact hen
    · apply entriesNodup_addOrRefresh
      split
      · exact entriesNodup_removeFromOld hen _ _
      · exact hen

theorem entriesNodup_loop (regen : Bool) (scan : List ScannedFile) (st : GenState)
    (hen : EntriesNodup st.checksumDB) :
    EntriesNodup (scan.foldl (processFile regen) st).checksumDB := by
  induction scan generalizing st with
  | nil => exact hen
  | cons f rest ih =>
    rw [List.foldl_cons]
    exact ih _ (entriesNodup_processFile hen regen f)

theorem lookup_pruneEntries (fe : String → Bool) {db : ChecksumDB} (hnd : NodupKeys db)
    (h : String) :
    (pruneEntries fe db).1.lookup h =
      match db.lookup h with
      | some info =>
        if (info.RelativePaths.filter (fun p => fe p.Path)).length = 0 then none
        else some { info with RelativePaths := info.RelativePaths.filter (fun p => fe p.Path) }
      | none => none := by
  induction db with
  | nil => simp [pruneEntries]
  | cons a rest ih =>
    obtain ⟨hash, info⟩ := a
    have hnd' : NodupKeys rest := (List.nodup_cons.1 hnd).2
    have hnotin : hash ∉ rest.map Prod.fst := (List.nodup_cons.1 hnd).1
    have ih' := ih hnd'
    unfold pruneEntries
    simp only
    by_cases hk : h = hash
    · subst hk
      have hrest : (pruneEntries fe rest).1.lookup h = none := by
        apply lookup_eq_none_iff.2
        intro hin
        exact hnotin ((keys_pruneEntries_sublist fe rest).subset hin)
      split
      · rename_i hlen
        simp [List.lookup, hlen, hrest]
      · rename_i hlen
        simp [List.lookup, hlen]
    · have hb : (h == hash) = false := by simpa using hk
      split
      · simp only [List.lookup, hb, ih']
      · simp only [List.lookup, hb, ih']

theorem entriesNodup_pruneEntries (fe : String → Bool) {db : ChecksumDB} (hnd : NodupKeys db)
    (hen : EntriesNodup db) : EntriesNodup (pruneEntries fe db).1 := by
  intro h info hl
  rw [lookup_pruneEntries fe hnd] at hl
  split at hl
  · rename_i info0 hl0
    split at hl
    · cases hl
    · cases hl
      exact List.Nodup.sublist (List.Sublist.map _ (List.filter_sublist _)) (hen h info0 hl0)
  · cases hl

theorem recordedOnce_pruneEntries (fe : String → Bool) {db : ChecksumDB} (hnd : NodupKeys db)
    (hone : RecordedOnce db) : RecordedOnce (pruneEntries fe db).1 := by
  intro h1 h2 p r1 r2
  rw [hasRecord_pruneEntries fe hnd] at r1 r2
  exact hone _ _ _ r1.1 r2.1

end Uniqueness


section C14

/-- C14, the claim as stated fails: in a store whose only entry is keyed by the empty string
every path occurs once, but after either mode has ingested the scan of `x.txt` with digest
`fp3` the path `x.txt` is recorded under two keys. -/
theorem uniqueness_counterexample :
    UniquePaths emptyKeyDB ∧ NodupKeys emptyKeyDB ∧
      ¬ UniquePaths (NewMD5Hashes false scanX (existsIn scanX) emptyKeyDB).checksumDB ∧
      ¬ UniquePaths (NewMD5Hashes true scanX (existsIn scanX) emptyKeyDB).checksumDB := by
  decide

/-- C14 as amended: for an initial store that is a map, has no entry keyed by the empty string,
and in which each path occurs in at most one entry and at most once in it, and for every scan,
every file-existence test and either mode, the store produced by `NewMD5Hashes` is again a map
in which each path occurs in at most one entry and at most once in it. -/
theorem ingestion_preserves_uniqueness (regenerateAll : Bool) (scan : List ScannedFile)
    (fileExists : String → Bool) (checksumDB : ChecksumDB)
    (hnd : NodupKeys checksumDB) (hu : UniquePaths checksumDB)
    (hne : checksumDB.lookup "" = none) :
    UniquePaths (NewMD5Hashes regenerateAll scan fileExists checksumDB).checksumDB ∧
      NodupKeys (NewMD5Hashes regenerateAll scan fileExists checksumDB).checksumDB := by
  unfold NewMD5Hashes
  simp only
  split
  · exact ⟨hu, hnd⟩
  · obtain ⟨l1, -, l3⟩ := loop_invariants regenerateAll scan (startOf checksumDB) hnd hne
      (recordedOnce_of_uniquePaths hu)
    have l4 := entriesNodup_loop regenerateAll scan (startOf checksumDB)
      (entriesNodup_of_uniquePaths hu)
    exact ⟨uniquePaths_of_invariants (nodupKeys_pruneEntries fileExists l1)
      (entriesNodup_pruneEntries fileExists l1 l4)
      (recordedOnce_pruneEntries fileExists l1 l3), nodupKeys_pruneEntries fileExists l1⟩

theorem ingestion_preserves_uniqueness_witness :
    NodupKeys twoDB ∧ UniquePaths twoDB ∧ twoDB.lookup "" = none ∧
      (UniquePaths (NewMD5Hashes true
          [{ Path := "a.txt", Hash := fp2, Now := "2024-02-02T00:00:00Z" },
            { Path := "c.txt", Hash := fp3, Now := "2024-02-02T00:00:01Z" }]
          (fun _ => true) twoDB).checksumDB ∧
        NodupKeys (NewMD5Hashes true
          [{ Path := "a.txt", Hash := fp2, Now := "2024-02-02T00:00:00Z" },
            { Path := "c.txt", Hash := fp3, Now := "2024-02-02T00:00:01Z" }]
          (fun _ => true) twoDB).checksumDB) :=
  ⟨by decide, by decide, by decide,
    ingestion_preserves_uniqueness true
      [{ Path := "a.txt", Hash := fp2, Now := "2024-02-02T00:00:00Z" },
        { Path := "c.txt", Hash := fp3, Now := "2024-02-02T00:00:01Z" }]
      (fun _ => true) twoDB (by decide) (by decide) (by decide)⟩

end C14

section C15

theorem pruneEntries_nonempty (fe : String → Bool) (db : ChecksumDB) :
    ∀ e ∈ (pruneEntries fe db).1, e.2.RelativePaths ≠ [] := by
  induction db with
  | nil => simp [pruneEntries]
  | cons a rest ih =>
    obtain ⟨hash, info⟩ := a
    unfold pruneEntries
    simp only
    split
    · exact ih
    · rename_i hlen
      intro e he
      rcases List.mem_cons.1 he with rfl | he'
      · simp only
        intro hc
        exact hlen (by rw [hc]; rfl)
      · exact ih e he'

/-- C15, the claim as stated fails: when the scan is empty, `NewMD5Hashes` returns before the
prune pass in either mode, and an entry with an empty path list stays in the store. -/
theorem no_empty_entries_counterexample :
    (entryOf fp1 []) ∈ (NewMD5Hashes false [] (fun _ => true) [entryOf fp1 []]).checksumDB ∧
      (entryOf fp1 []) ∈ (NewMD5Hashes true [] (fun _ => true) [entryOf fp1 []]).checksumDB ∧
      (entryOf fp1 []).2.RelativePaths = [] := by
  decide

/-- C15 as amended: for every initial store, every non-empty scan, every file-existence test
and either mode, no entry of the store produced by `NewMD5Hashes` has an empty `RelativePaths`
list. -/
theorem no_empty_entries (regenerateAll : Bool) (scan : List ScannedFile)
    (fileExists : String → Bool) (checksumDB : ChecksumDB) (hscan : scan ≠ []) :
    ∀ e ∈ (NewMD5Hashes regenerateAll scan fileExists checksumDB).checksumDB,
      e.2.RelativePaths ≠ [] := by
  have hlen : ¬ scan.length = 0 := fun h => hscan (List.length_eq_zero.1 h)
  unfold NewMD5Hashes
  simp only [hlen, if_false]
  exact pruneEntries_nonempty fileExists _

theorem no_empty_entries_witness :
    scanX ≠ [] ∧
      ∀ e ∈ (NewMD5Hashes false scanX (existsIn scanX) [entryOf fp1 []]).checksumDB,
        e.2.RelativePaths ≠ [] :=
  ⟨by decide,
    no_empty_entries false scanX (existsIn scanX) [entryOf fp1 []] (by decide)⟩

end C15


section C16

theorem mapDelete_eq_self {β : Type} {m : List (String × β)} {k : String}
    (h : k ∉ m.map Prod.fst) : mapDelete m k = m := by
  unfold mapDelete
  apply List.filter_eq_self.2
  intro a ha
  simp only [bne_iff_ne, ne_eq]
  intro hc
  exact h (hc ▸ List.mem_map_of_mem Prod.fst ha)

theorem mapDelete_append {β : Type} (m1 m2 : List (String × β)) (k : String) :
    mapDelete (m1 ++ m2) k = mapDelete m1 k ++ mapDelete m2 k := by
  unfold mapDelete
  exact List.filter_append _ _

theorem mapDelete_cons_self {β : Type} (m : List (String × β)) (k : String) (v : β) :
    mapDelete ((k, v) :: m) k = mapDelete m k := by
  unfold mapDelete
  simp [List.filter_cons]

theorem mapSet_append {β : Type} {pre : List (String × β)} {k : String}
    (h : k ∉ pre.map Prod.fst) (m : List (String × β)) (v : β) :
    mapSet (pre ++ m) k v = pre ++ mapSet m k v := by
  induction pre with
  | nil => rfl
  | cons a rest ih =>
    obtain ⟨k', v'⟩ := a
    simp only [List.map_cons, List.mem_cons, not_or] at h
    have hk : ¬ k' = k := fun hc => h.1 hc.symm
    have hstep : mapSet ((k', v') :: (rest ++ m)) k v = (k', v') :: mapSet (rest ++ m) k v := by
      simp [mapSet, hk]
    rw [List.cons_append, hstep, ih h.2, List.cons_append]

theorem pruneFold_eq (fe : String → Bool) (l pre : ChecksumDB) (n : Nat)
    (hnd : NodupKeys (pre ++ l)) :
    l.foldl (pruneStep fe) (pre ++ l, n) =
      (pre ++ (pruneEntries fe l).1, n + (pruneEntries fe l).2) := by
  induction l generalizing pre n with
  | nil => simp [pruneEntries]
  | cons a rest ih =>
    obtain ⟨h, info⟩ := a
    unfold NodupKeys at hnd
    simp only [List.map_append, List.map_cons] at hnd
    have hpre : h ∉ pre.map Prod.fst := by
      intro hin
      exact (List.nodup_append.1 hnd).2.2 hin (List.mem_cons_self _ _)
    have hrest : h ∉ rest.map Prod.fst :=
      (List.nodup_cons.1 (List.nodup_append.1 hnd).2.1).1
    rw [List.foldl_cons]
    unfold pruneEntries
    simp only [pruneStep]
    split
    · rename_i hlen
      rw [mapDelete_append, mapDelete_cons_self, mapDelete_eq_self hpre, mapDelete_eq_self hrest]
      have hnd2 : NodupKeys (pre ++ rest) := by
        unfold NodupKeys
        rw [List.map_append]
        exact List.Nodup.sublist
          (List.Sublist.append_left (List.sublist_cons_self _ _) _) hnd
      rw [ih pre _ hnd2]
      simp only [Prod.mk.injEq, true_and]
      omega
    · rename_i hlen
      rw [mapSet_append hpre]
      simp only [mapSet, if_true]
      have key : ∀ v : InfoData, NodupKeys ((pre ++ [(h, v)]) ++ rest) := by
        intro v
        unfold NodupKeys
        simpa [List.map_append] using hnd
      rw [List.append_cons, ih _ _ (key _)]
      simp only [List.append_assoc, List.singleton_append, Prod.mk.injEq, true_and]
      omega

theorem pruneLoop_eq (fe : String → Bool) {db : ChecksumDB} (hnd : NodupKeys db) :
    pruneLoop fe db = pruneEntries fe db := by
  have := pruneFold_eq fe db [] 0 (by simpa using hnd)
  simpa [pruneLoop] using this

theorem pruneEntries_count (fe : String → Bool) (db : ChecksumDB) :
    (pruneEntries fe db).2 = ((records db).filter (fun x => !fe x.2.Path)).length := by
  induction db with
  | nil => simp [pruneEntries, records]
  | cons a rest ih =>
    obtain ⟨h, info⟩ := a
    have hrec : records ((h, info) :: rest) =
        info.RelativePaths.map (fun p => (h, p)) ++ records rest := by
      simp [records]
    have hsnd : (pruneEntries fe ((h, info) :: rest)).2 =
        (pruneEntries fe rest).2 + (info.RelativePaths.filter (fun p => !fe p.Path)).length := by
      rw [pruneEntries]
      split <;> rfl
    rw [hrec, List.filter_append, List.length_append, ← ih, List.filter_map, List.length_map,
      hsnd]
    simp only [Function.comp_def]
    omega

theorem pruneEntries_exist (fe : String → Bool) (db : ChecksumDB) :
    ∀ x ∈ records (pruneEntries fe db).1, fe x.2.Path = true := by
  induction db with
  | nil => simp [pruneEntries, records]
  | cons a rest ih =>
    obtain ⟨h, info⟩ := a
    unfold pruneEntries
    simp only
    split
    · exact ih
    · intro x hx
      have hrec : ∀ (i : InfoData) (r : ChecksumDB), records ((h, i) :: r) =
          i.RelativePaths.map (fun p => (h, p)) ++ records r := by
        intro i r; simp [records]
      rw [hrec] at hx
      rcases List.mem_append.1 hx with h1 | h1
      · obtain ⟨p, hp, rfl⟩ := List.mem_map.1 h1
        exact (List.mem_filter.1 hp).2
      · exact ih x h1

/-- C16 (pruning): for every store that is a map and every file-existence test, the prune loop,
which deletes or overwrites the current key while ranging over the map, leaves under each key
exactly the path records whose path exists, in their original order and with the entry's other
fields unchanged, removes each entry left with none, counts one pruned path per dropped record,
and so leaves no path record that names a non-existent file. -/
theorem prune_pass (fileExists : String → Bool) (checksumDB : ChecksumDB)
    (hnd : NodupKeys checksumDB) :
    pruneLoop fileExists checksumDB = pruneEntries fileExists checksumDB ∧
      (∀ h, (pruneLoop fileExists checksumDB).1.lookup h =
        match checksumDB.lookup h with
        | some info =>
          if (info.RelativePaths.filter (fun p => fileExists p.Path)).length = 0 then none
          else some { info with
            RelativePaths := info.RelativePaths.filter (fun p => fileExists p.Path) }
        | none => none) ∧
      (pruneLoop fileExists checksumDB).2 =
        ((records checksumDB).filter (fun x => !fileExists x.2.Path)).length ∧
      (∀ x ∈ records (pruneLoop fileExists checksumDB).1, fileExists x.2.Path = true) ∧
      NodupKeys (pruneLoop fileExists checksumDB).1 := by
  rw [pruneLoop_eq fileExists hnd]
  exact ⟨rfl, lookup_pruneEntries fileExists hnd, pruneEntries_count fileExists checksumDB,
    pruneEntries_exist fileExists checksumDB, nodupKeys_pruneEntries fileExists hnd⟩

theorem prune_pass_witness :
    NodupKeys staleDB ∧
      (pruneLoop onlyA staleDB = pruneEntries onlyA staleDB ∧
        (∀ h, (pruneLoop onlyA staleDB).1.lookup h =
          match staleDB.lookup h with
          | some info =>
            if (info.RelativePaths.filter (fun p => onlyA p.Path)).length = 0 then none
            else some { info with
              RelativePaths := info.RelativePaths.filter (fun p => onlyA p.Path) }
          | none => none) ∧
        (pruneLoop onlyA staleDB).2 =
          ((records staleDB).filter (fun x => !onlyA x.2.Path)).length ∧
        (∀ x ∈ records (pruneLoop onlyA staleDB).1, onlyA x.2.Path = true) ∧
        NodupKeys (pruneLoop onlyA staleDB).1) :=
  ⟨by decide, prune_pass onlyA staleDB (by decide)⟩

end C16


section C17

theorem mem_keys_mapSet {β : Type} {m : List (String × β)} {k x : String} {v : β}
    (h : x ∈ (mapSet m k v).map Prod.fst) : x ∈ m.map Prod.fst ∨ x = k := by
  rw [keys_mapSet] at h
  split at h
  · left; exact h
  · rcases List.mem_append.1 h with h1 | h1
    · left; exact h1
    · right; simpa using h1

theorem mem_keys_mapDelete {β : Type} {m : List (String × β)} {k x : String}
    (h : x ∈ (mapDelete m k).map Prod.fst) : x ∈ m.map Prod.fst := by
  unfold mapDelete at h
  exact (List.Sublist.map _ (List.filter_sublist _)).subset h

theorem mem_keys_of_lookup {β : Type} {m : List (String × β)} {k : String} {v : β}
    (h : m.lookup k = some v) : k ∈ m.map Prod.fst :=
  List.mem_map_of_mem Prod.fst (mem_of_lookup_eq_some h)

theorem mem_keys_removeFromOld {db : ChecksumDB} {eh p x : String}
    (h : x ∈ (removeFromOld db eh p).map Prod.fst) : x ∈ db.map Prod.fst := by
  unfold removeFromOld at h
  simp only at h
  split at h
  · exact mem_keys_mapDelete h
  · rename_i hlen
    rcases mem_keys_mapSet h with h1 | rfl
    · exact h1
    · cases hl : db.lookup x with
      | none =>
        rw [hl] at hlen
        simp [InfoData.zero] at hlen
      | some info => exact mem_keys_of_lookup hl

theorem mem_keys_addOrRefresh {st : GenState} {f : ScannedFile} {x : String}
    (h : x ∈ (addOrRefresh st f).checksumDB.map Prod.fst) :
    x ∈ st.checksumDB.map Prod.fst ∨ x = f.Hash := by
  unfold addOrRefresh at h
  simp only at h
  split at h <;> exact mem_keys_mapSet h

/-- Every key of the store after one processing step was a key before or is a well-formed
fingerprint. -/
theorem mem_keys_processFile {regen : Bool} {st : GenState} {f : ScannedFile} {x : String}
    (h : x ∈ (processFile regen st f).checksumDB.map Prod.fst) :
    x ∈ st.checksumDB.map Prod.fst ∨ isMD5 x = true := by
  unfold processFile at h
  by_cases hmd : isMD5 f.Hash = true
  · simp only [hmd, Bool.not_true, Bool.false_eq_true, if_false] at h
    split at h
    · split at h
      · rename_i heq
        split at h
        · rcases mem_keys_mapSet h with h1 | h1
          · left; exact h1
          · right; rw [h1, heq]; exact hmd
        · left; exact h
      · left; exact h
    · rcases mem_keys_addOrRefresh h with h1 | h1
      · split at h1
        · left; exact mem_keys_removeFromOld h1
        · left; exact h1
      · right; rw [h1]; exact hmd
  · have hmd2 : isMD5 f.Hash = false := by simpa using hmd
    simp only [hmd2, Bool.not_false, if_true] at h
    left; exact h

theorem mem_keys_loop {regen : Bool} (scan : List ScannedFile) (st : GenState) {x : String}
    (h : x ∈ (scan.foldl (processFile regen) st).checksumDB.map Prod.fst) :
    x ∈ st.checksumDB.map Prod.fst ∨ isMD5 x = true := by
  induction scan generalizing st with
  | nil => left; exact h
  | cons f rest ih =>
    rw [List.foldl_cons] at h
    rcases ih _ h with h1 | h1
    · exact mem_keys_processFile h1
    · right; exact h1

/-- C17 (fingerprint format rejection): in either mode, a scanned file whose digest is not
exactly 32 characters of `[0-9a-f]` leaves the store and the other counters as they are and
adds one to the error counter; and every key of the store produced by `NewMD5Hashes` was a key
of the initial store or is a 32-character lowercase hexadecimal string. -/
theorem fingerprint_format (regenerateAll : Bool) (scan : List ScannedFile)
    (fileExists : String → Bool) (checksumDB : ChecksumDB) :
    (∀ (st : GenState) (f : ScannedFile), isMD5 f.Hash = false →
        processFile regenerateAll st f = { st with errorCount := st.errorCount + 1 }) ∧
      (∀ k ∈ (NewMD5Hashes regenerateAll scan fileExists checksumDB).checksumDB.map Prod.fst,
        k ∈ checksumDB.map Prod.fst ∨ isMD5 k = true) := by
  constructor
  · intro st f hbad
    unfold processFile
    simp [hbad]
  · intro k hk
    unfold NewMD5Hashes at hk
    simp only at hk
    split at hk
    · left; exact hk
    · exact mem_keys_loop scan _ ((keys_pruneEntries_sublist fileExists _).subset hk)

theorem fingerprint_format_witness :
    isMD5 "0123456789ABCDEF0123456789ABCDEF" = false ∧
      processFile false (startOf oneDB)
          { Path := "c.txt", Hash := "0123456789ABCDEF0123456789ABCDEF", Now := "t" } =
        { startOf oneDB with errorCount := (startOf oneDB).errorCount + 1 } ∧
      (∀ k ∈ (NewMD5Hashes true scanX (existsIn scanX) oneDB).checksumDB.map Prod.fst,
        k ∈ oneDB.map Prod.fst ∨ isMD5 k = true) :=
  ⟨by decide,
    (fingerprint_format false scanX (existsIn scanX) oneDB).1 (startOf oneDB)
      { Path := "c.txt", Hash := "0123456789ABCDEF0123456789ABCDEF", Now := "t" } (by decide),
    (fingerprint_format true scanX (existsIn scanX) oneDB).2⟩

end C17


section C18

theorem lookup_perm {β : Type} {l1 l2 : List (String × β)} (hp : l1.Perm l2)
    (hnd : NodupKeys l1) (k : String) : l1.lookup k = l2.lookup k := by
  have hnd2 : NodupKeys l2 := ((hp.map Prod.fst).nodup_iff).1 hnd
  cases h1 : l1.lookup k with
  | none =>
    symm
    apply lookup_eq_none_iff.2
    intro hin
    exact lookup_eq_none_iff.1 h1 (((hp.map Prod.fst).mem_iff).2 hin)
  | some v =>
    symm
    exact lookup_eq_some_of_mem hnd2 (hp.mem_iff.1 (mem_of_lookup_eq_some h1))

theorem any_perm {α : Type} {l1 l2 : List α} (hp : l1.Perm l2) (p : α → Bool) :
    l1.any p = l2.any p := by
  rw [Bool.eq_iff_iff]
  simp only [List.any_eq_true]
  constructor
  · rintro ⟨x, hx, hpx⟩; exact ⟨x, hp.mem_iff.1 hx, hpx⟩
  · rintro ⟨x, hx, hpx⟩; exact ⟨x, hp.mem_iff.2 hx, hpx⟩

theorem contains_perm {l1 l2 : List String} (hp : l1.Perm l2) (k : String) :
    l1.contains k = l2.contains k := by
  rw [Bool.eq_iff_iff]
  simp only [List.contains_iff_exists_mem_beq, beq_iff_eq]
  constructor
  · rintro ⟨x, hx, hk⟩; exact ⟨x, hp.mem_iff.1 hx, hk⟩
  · rintro ⟨x, hx, hk⟩; exact ⟨x, hp.mem_iff.2 hx, hk⟩

theorem okOf_perm {db1 db2 : ChecksumDB} (hp : db1.Perm db2) (hnd : NodupKeys db1) :
    okOf db1 = okOf db2 := by
  funext e; unfold okOf; rw [lookup_perm hp hnd]

theorem movedOf_perm {db1 db2 : ChecksumDB} (hp : db1.Perm db2) (hnd : NodupKeys db1) :
    movedOf db1 = movedOf db2 := by
  funext e; unfold movedOf; rw [lookup_perm hp hnd]

theorem keyOf_perm {db1 db2 : ChecksumDB} (hp : db1.Perm db2) (hnd : NodupKeys db1) :
    keyOf db1 = keyOf db2 := by
  funext e; unfold keyOf; rw [lookup_perm hp hnd]

theorem seenOf_perm {db1 db2 : ChecksumDB} (hp : db1.Perm db2) (hnd : NodupKeys db1) :
    seenOf db1 = seenOf db2 := by
  funext e; unfold seenOf; rw [lookup_perm hp hnd]

theorem modOf_perm {disk1 disk2 : DiskFiles} (hp : disk1.Perm disk2) (hnd : NodupKeys disk1)
    {k1 k2 : List String} (hk : k1.Perm k2) : modOf disk1 k1 = modOf disk2 k2 := by
  funext x; unfold modOf; rw [contains_perm hk, lookup_perm hp hnd]

theorem delOf_perm {disk1 disk2 : DiskFiles} (hp : disk1.Perm disk2) (hnd : NodupKeys disk1)
    {k1 k2 : List String} (hk : k1.Perm k2) : delOf disk1 k1 = delOf disk2 k2 := by
  funext x; unfold delOf; rw [contains_perm hk, lookup_perm hp hnd]

theorem newOf_perm {s1 s2 : List String} (hs : s1.Perm s2) : newOf s1 = newOf s2 := by
  funext e; unfold newOf; rw [contains_perm hs]

theorem records_perm {db1 db2 : ChecksumDB} (hp : db1.Perm db2) :
    (records db1).Perm (records db2) := by
  unfold records
  exact List.Perm.flatMap_right _ hp

/-- The provisional lists of two runs over the same maps in different enumeration orders are
permutations of each other. -/
theorem provisional_perm {db1 db2 : ChecksumDB} {disk1 disk2 : DiskFiles}
    (hdb : db1.Perm db2) (hdisk : disk1.Perm disk2) (hnd : NodupKeys db1)
    (hndd : NodupKeys disk1) :
    (provisional db1 disk1).OK.Perm (provisional db2 disk2).OK ∧
      (provisional db1 disk1).MODIFIED.Perm (provisional db2 disk2).MODIFIED ∧
      (provisional db1 disk1).MOVED.Perm (provisional db2 disk2).MOVED ∧
      (provisional db1 disk1).NEW.Perm (provisional db2 disk2).NEW ∧
      (provisional db1 disk1).DELETED.Perm (provisional db2 disk2).DELETED := by
  have hkeys : (disk1.filterMap (keyOf db1)).Perm (disk2.filterMap (keyOf db2)) := by
    rw [keyOf_perm hdb hnd]; exact hdisk.filterMap _
  have hmod : (provisional db1 disk1).MODIFIED.Perm (provisional db2 disk2).MODIFIED := by
    rw [provisional_MODIFIED, provisional_MODIFIED, modOf_perm hdisk hndd hkeys]
    exact (records_perm hdb).filterMap _
  have hseen : (provisional db1 disk1).processedDiskPaths.Perm
      (provisional db2 disk2).processedDiskPaths := by
    rw [provisional_processedDiskPaths, provisional_processedDiskPaths,
      ← provisional_MODIFIED, ← provisional_MODIFIED, seenOf_perm hdb hnd]
    exact (hdisk.filterMap _).append (hmod.map _)
  refine ⟨?_, hmod, ?_, ?_, ?_⟩
  · rw [provisional_OK, provisional_OK, okOf_perm hdb hnd]
    exact hdisk.filterMap _
  · rw [provisional_MOVED, provisional_MOVED, movedOf_perm hdb hnd]
    exact hdisk.filterMap _
  · rw [provisional_NEW, provisional_NEW, newOf_perm hseen]
    exact hdisk.filterMap _
  · rw [provisional_DELETED, provisional_DELETED, delOf_perm hdisk hndd hkeys]
    exact (records_perm hdb).filterMap _

theorem renamedList_eq (moved deleted : List Result) :
    (groupMoved moved).filterMap (renamedOf (groupDeleted deleted)) =
      ((groupMoved moved).map Prod.fst).filterMap (renamedFor moved deleted) := by
  rw [List.filterMap_map]
  apply List.filterMap_congr
  intro e he
  obtain ⟨k, g⟩ := e
  simp only [groupMoved] at he
  rw [mem_group] at he
  obtain ⟨rfl, -⟩ := he
  simp only [Function.comp, renamedOf, renamedFor, groupDeleted, lookup_group]
  split
  · rename_i d hd
    split at hd
    · cases hd
    · rename_i hne
      cases hd
      rw [if_neg hne]
  · rename_i hd
    split at hd
    · rename_i hnil
      rw [if_pos hnil]
    · cases hd

theorem mem_keys_groupMoved {moved : List Result} {k : String} :
    k ∈ (groupMoved moved).map Prod.fst ↔ ∃ m ∈ moved, m.ContentHash = k := by
  constructor
  · intro h
    obtain ⟨e, he, rfl⟩ := List.mem_map.1 h
    obtain ⟨k, g⟩ := e
    simp only [groupMoved] at he
    rw [mem_group] at he
    obtain ⟨m, hm⟩ := List.exists_mem_of_ne_nil _ (he.1 ▸ he.2)
    obtain ⟨hm1, hm2⟩ := List.mem_filter.1 hm
    exact ⟨m, hm1, by simpa using hm2⟩
  · rintro ⟨m, hm, rfl⟩
    refine List.mem_map.2 ⟨(m.ContentHash, moved.filter (fun x => x.ContentHash == m.ContentHash)),
      ?_, rfl⟩
    simp only [groupMoved]
    rw [mem_group]
    exact ⟨rfl, List.ne_nil_of_mem (List.mem_filter.2 ⟨hm, by simp⟩)⟩

theorem forall2_filterMap {α β : Type} {R : β → β → Prop} {f1 f2 : α → Option β}
    (l : List α)
    (h : ∀ a, (f1 a = none ∧ f2 a = none) ∨ ∃ b1 b2, f1 a = some b1 ∧ f2 a = some b2 ∧ R b1 b2) :
    List.Forall₂ R (l.filterMap f1) (l.filterMap f2) := by
  induction l with
  | nil => exact List.Forall₂.nil
  | cons a rest ih =>
    rcases h a with ⟨h1, h2⟩ | ⟨b1, b2, h1, h2, hr⟩
    · rw [List.filterMap_cons, List.filterMap_cons, h1, h2]
      exact ih
    · rw [List.filterMap_cons, List.filterMap_cons, h1, h2]
      exact List.Forall₂.cons hr ih

theorem getPathsFromResults_perm {l1 l2 : List Result} (hp : l1.Perm l2) :
    (getPathsFromResults l1).Perm (getPathsFromResults l2) := by
  unfold getPathsFromResults
  exact (hp.filter _).map _

theorem renamedFor_perm {m1 m2 d1 d2 : List Result} (hm : m1.Perm m2) (hd : d1.Perm d2)
    (k : String) :
    (renamedFor m1 d1 k = none ∧ renamedFor m2 d2 k = none) ∨
      ∃ b1 b2, renamedFor m1 d1 k = some b1 ∧ renamedFor m2 d2 k = some b2 ∧
        SameRenamed b1 b2 := by
  have hdf := hd.filter (fun d => d.OriginalContentHash == k)
  have hmf := hm.filter (fun m => m.ContentHash == k)
  unfold renamedFor
  by_cases hnil : d1.filter (fun d => d.OriginalContentHash == k) = []
  · left
    have hnil2 : d2.filter (fun d => d.OriginalContentHash == k) = [] := by
      rw [hnil] at hdf
      exact (List.Perm.nil_eq hdf).symm
    simp [hnil, hnil2]
  · right
    have hnil2 : ¬ d2.filter (fun d => d.OriginalContentHash == k) = [] := by
      intro hc
      rw [hc] at hdf
      exact hnil (List.Perm.eq_nil hdf)
    refine ⟨_, _, if_neg hnil, if_neg hnil2, rfl, rfl, rfl, rfl, ?_, ?_⟩
    · exact getPathsFromResults_perm hdf
    · exact getPathsFromResults_perm hmf

end C18


section C18Main

/-- C18 (determinism up to ordering): for a store and a disk index that are maps, two runs of
the reconciliation that enumerate the store and the disk index in different orders produce OK,
MODIFIED, MOVED, NEW and DELETED lists that are permutations of each other, and RENAMED lists
that are permutations of each other once `OldPaths` and `NewPaths` are compared up to order. -/
theorem reconcile_deterministic (db1 db2 : ChecksumDB) (disk1 disk2 : DiskFiles)
    (hdb : db1.Perm db2) (hdisk : disk1.Perm disk2) (hnd : NodupKeys db1)
    (hndd : NodupKeys disk1) :
    (reconcile db1 disk1).OK.Perm (reconcile db2 disk2).OK ∧
      (reconcile db1 disk1).MODIFIED.Perm (reconcile db2 disk2).MODIFIED ∧
      (reconcile db1 disk1).MOVED.Perm (reconcile db2 disk2).MOVED ∧
      (reconcile db1 disk1).NEW.Perm (reconcile db2 disk2).NEW ∧
      (reconcile db1 disk1).DELETED.Perm (reconcile db2 disk2).DELETED ∧
      ∃ l, (reconcile db1 disk1).RENAMED.Perm l ∧
        List.Forall₂ SameRenamed l (reconcile db2 disk2).RENAMED := by
  obtain ⟨pOK, pMod, pMov, pNew, pDel⟩ := provisional_perm hdb hdisk hnd hndd
  obtain ⟨f1, f2, f3⟩ := final_paths db1 disk1
  obtain ⟨g1, g2, g3⟩ := final_paths db2 disk2
  rw [f1, f2, f3, g1, g2, g3]
  refine ⟨pOK, pMod, ?_, pNew, ?_, ?_⟩
  · unfold reconcile
    rw [handleRenamed_MOVED, handleRenamed_MOVED]
    have hpred : (fun r : Result => !((provisional db1 disk1).DELETED.any
          (fun d => d.OriginalContentHash == r.ContentHash))) =
        (fun r : Result => !((provisional db2 disk2).DELETED.any
          (fun d => d.OriginalContentHash == r.ContentHash))) := by
      funext r
      rw [any_perm pDel]
    rw [hpred]
    exact pMov.filter _
  · unfold reconcile
    rw [handleRenamed_DELETED, handleRenamed_DELETED]
    have hpred : (fun r : Result => !((provisional db1 disk1).DELETED.any (fun d =>
          sameItem r d && (provisional db1 disk1).MOVED.any
            (fun m => m.ContentHash == d.OriginalContentHash)))) =
        (fun r : Result => !((provisional db2 disk2).DELETED.any (fun d =>
          sameItem r d && (provisional db2 disk2).MOVED.any
            (fun m => m.ContentHash == d.OriginalContentHash)))) := by
      funext r
      have hinner : (fun d : Result => sameItem r d && (provisional db1 disk1).MOVED.any
            (fun m => m.ContentHash == d.OriginalContentHash)) =
          (fun d : Result => sameItem r d && (provisional db2 disk2).MOVED.any
            (fun m => m.ContentHash == d.OriginalContentHash)) := by
        funext d
        rw [any_perm pMov]
      rw [hinner, any_perm pDel]
    rw [hpred]
    exact pDel.filter _
  · unfold reconcile
    rw [handleRenamed_RENAMED, handleRenamed_RENAMED, provisional_RENAMED, provisional_RENAMED,
      List.nil_append, List.nil_append, renamedList_eq, renamedList_eq]
    have hkeys : ((groupMoved (provisional db1 disk1).MOVED).map Prod.fst).Perm
        ((groupMoved (provisional db2 disk2).MOVED).map Prod.fst) := by
      apply (List.perm_ext_iff_of_nodup (nodupKeys_groupMoved _) (nodupKeys_groupMoved _)).2
      intro k
      rw [mem_keys_groupMoved, mem_keys_groupMoved]
      constructor
      · rintro ⟨m, hm, hk⟩; exact ⟨m, pMov.mem_iff.1 hm, hk⟩
      · rintro ⟨m, hm, hk⟩; exact ⟨m, pMov.mem_iff.2 hm, hk⟩
    exact ⟨_, hkeys.filterMap _, forall2_filterMap _ (renamedFor_perm pMov pDel)⟩

theorem reconcile_deterministic_witness :
    threeDB.Perm threeDBSwapped ∧ mixedDisk.Perm mixedDiskSwapped ∧ NodupKeys threeDB ∧
      NodupKeys mixedDisk ∧
      ((reconcile threeDB mixedDisk).OK.Perm (reconcile threeDBSwapped mixedDiskSwapped).OK ∧
        (reconcile threeDB mixedDisk).MODIFIED.Perm
          (reconcile threeDBSwapped mixedDiskSwapped).MODIFIED ∧
        (reconcile threeDB mixedDisk).MOVED.Perm
          (reconcile threeDBSwapped mixedDiskSwapped).MOVED ∧
        (reconcile threeDB mixedDisk).NEW.Perm (reconcile threeDBSwapped mixedDiskSwapped).NEW ∧
        (reconcile threeDB mixedDisk).DELETED.Perm
          (reconcile threeDBSwapped mixedDiskSwapped).DELETED ∧
        ∃ l, (reconcile threeDB mixedDisk).RENAMED.Perm l ∧
          List.Forall₂ SameRenamed l (reconcile threeDBSwapped mixedDiskSwapped).RENAMED) :=
  ⟨by decide, by decide, by decide, by decide,
    reconcile_deterministic threeDB threeDBSwapped mixedDisk mixedDiskSwapped
      (by decide) (by decide) (by decide) (by decide)⟩

end C18Main


section Steps

theorem findPathEntry_eq_none {paths : List PathEntry} {path : String}
    (h : ¬ ∃ pe ∈ paths, pe.Path = path) : findPathEntry paths path = none := by
  cases hf : findPathEntry paths path with
  | none => rfl
  | some pe => exact absurd ((findPathEntry_isSome_iff _ _).1 ⟨pe, hf⟩) h

/-- When the entry for the scanned digest does not list the scanned path, `addOrRefresh`
appends a new path record to it and counts one added path. -/
theorem addOrRefresh_of_absent (st : GenState) (f : ScannedFile)
    (h : ¬ ∃ pe ∈ (baseEntry st.checksumDB f).RelativePaths, pe.Path = f.Path) :
    addOrRefresh st f =
      { st with
        checksumDB := mapSet st.checksumDB f.Hash (extendedEntry st.checksumDB f)
        pathsAddedToDbCount := st.pathsAddedToDbCount + 1
        processedFilesCount := st.processedFilesCount + 1 } := by
  unfold baseEntry at h
  unfold addOrRefresh
  simp only
  rw [findPathEntry_eq_none h]
  rfl

theorem lookup_removeFromOld (db : ChecksumDB) (eh p k : String) :
    (removeFromOld db eh p).lookup k =
      if eh = k then
        (if (((db.lookup eh).getD InfoData.zero).RelativePaths.filter
            (fun x => x.Path != p)).length = 0 then none
          else some { (db.lookup eh).getD InfoData.zero with
            RelativePaths := ((db.lookup eh).getD InfoData.zero).RelativePaths.filter
              (fun x => x.Path != p) })
      else db.lookup k := by
  unfold removeFromOld
  simp only
  split
  · rw [lookup_mapDelete]
  · rw [lookup_mapSet]

/-- In a map that records each path under one key, `existingHash` is the non-empty key under
which the path is recorded. -/
theorem findExistingHash_of_nonempty {db : ChecksumDB} (hnd : NodupKeys db)
    (hone : RecordedOnce db) {h p : String} (hr : HasRecord db h p) (hh : h ≠ "") :
    findExistingHash db p = h := by
  obtain ⟨info, hl, hex⟩ := hr
  rcases findExistingHash_spec db p with ⟨-, h2⟩ | ⟨-, info', h2, h3⟩
  · exact absurd hex (h2 (h, info) (mem_db_of_lookup hl) hh)
  · exact hone _ _ p ⟨info', lookup_eq_some_of_mem hnd h2, h3⟩ ⟨info, hl, hex⟩

theorem findExistingHash_of_unknown {db : ChecksumDB} {p : String}
    (hno : ∀ x ∈ records db, x.2.Path ≠ p) : findExistingHash db p = "" := by
  rcases findExistingHash_spec db p with ⟨h1, -⟩ | ⟨-, info', h2, pe, hpe, hp⟩
  · exact h1
  · exact absurd hp (hno (_, pe) (mem_records.2 ⟨info', h2, hpe⟩))

theorem baseEntry_absent_of_unknown {db : ChecksumDB} {f : ScannedFile}
    (hno : ∀ x ∈ records db, x.2.Path ≠ f.Path) :
    ¬ ∃ pe ∈ (baseEntry db f).RelativePaths, pe.Path = f.Path := by
  rintro ⟨pe, hpe, hp⟩
  unfold baseEntry at hpe
  cases hl : db.lookup f.Hash with
  | none =>
    rw [hl] at hpe
    simp at hpe
  | some info =>
    rw [hl] at hpe
    simp only [Option.getD_some] at hpe
    exact hno (f.Hash, pe) (mem_records.2 ⟨info, mem_db_of_lookup hl, hpe⟩) hp

end Steps

section C20

/-- C20 (AppendOnly adds unknown paths): for every store and every scanned file with a
well-formed digest `h` whose path has no path record under any key, the AppendOnly step sets
the entry for `h` to the stored entry (or, when there is none, a fresh one with
`FirstCreated = now`) extended by exactly one path record with that path and
`FirstSeen = LastSeen = now`, leaves every other entry as it is, adds one to the added counter
and to the processed counter and leaves the other counters unchanged. -/
theorem append_adds_unknown (st : GenState) (f : ScannedFile) (hmd : isMD5 f.Hash = true)
    (hno : ∀ x ∈ records st.checksumDB, x.2.Path ≠ f.Path) :
    (processFile false st f).checksumDB.lookup f.Hash =
        some { baseEntry st.checksumDB f with
          RelativePaths := (baseEntry st.checksumDB f).RelativePaths ++
            [{ Path := f.Path, FirstSeen := f.Now, LastSeen := f.Now }]
          LastContentUpdate := f.Now } ∧
      (st.checksumDB.lookup f.Hash = none →
        baseEntry st.checksumDB f =
          { ContentMD5 := f.Hash, RelativePaths := [], FirstCreated := f.Now,
            LastContentUpdate := f.Now }) ∧
      (∀ info, st.checksumDB.lookup f.Hash = some info → baseEntry st.checksumDB f = info) ∧
      (∀ k, k ≠ f.Hash → (processFile false st f).checksumDB.lookup k = st.checksumDB.lookup k) ∧
      (processFile false st f).pathsAddedToDbCount = st.pathsAddedToDbCount + 1 ∧
      (processFile false st f).processedFilesCount = st.processedFilesCount + 1 ∧
      (processFile false st f).pathsUpdatedInDbCount = st.pathsUpdatedInDbCount ∧
      (processFile false st f).pathsPrunedFromDbCount = st.pathsPrunedFromDbCount ∧
      (processFile false st f).errorCount = st.errorCount := by
  have hstep : processFile false st f =
      { st with
        checksumDB := mapSet st.checksumDB f.Hash (extendedEntry st.checksumDB f)
        pathsAddedToDbCount := st.pathsAddedToDbCount + 1
        processedFilesCount := st.processedFilesCount + 1 } := by
    unfold processFile
    simp only [hmd, findExistingHash_of_unknown hno, Bool.not_true, Bool.false_eq_true, if_false,
      Bool.not_false, bne_self_eq_false, Bool.and_false, Bool.false_and]
    exact addOrRefresh_of_absent st f (baseEntry_absent_of_unknown hno)
  rw [hstep]
  refine ⟨?_, ?_, ?_, ?_, rfl, rfl, rfl, rfl, rfl⟩
  · simp only [lookup_mapSet, if_true]
    rfl
  · intro hl
    unfold baseEntry
    rw [hl]
    rfl
  · intro info hl
    unfold baseEntry
    rw [hl]
    rfl
  · intro k hk
    have hk2 : ¬ f.Hash = k := fun hc => hk hc.symm
    simp only [lookup_mapSet, hk2, if_false]

theorem append_adds_unknown_witness :
    isMD5 copyC.Hash = true ∧ (∀ x ∈ records (startOf oneDB).checksumDB, x.2.Path ≠ copyC.Path) ∧
      (processFile false (startOf oneDB) copyC).checksumDB.lookup copyC.Hash =
        some { baseEntry (startOf oneDB).checksumDB copyC with
          RelativePaths := (baseEntry (startOf oneDB).checksumDB copyC).RelativePaths ++
            [{ Path := copyC.Path, FirstSeen := copyC.Now, LastSeen := copyC.Now }]
          LastContentUpdate := copyC.Now } ∧
      (processFile false (startOf oneDB) copyC).pathsAddedToDbCount =
        (startOf oneDB).pathsAddedToDbCount + 1 :=
  ⟨by decide, by decide,
    (append_adds_unknown (startOf oneDB) copyC (by decide) (by decide)).1,
    (append_adds_unknown (startOf oneDB) copyC (by decide) (by decide)).2.2.2.2.1⟩

end C20


section C19

/-- C19, the claim as stated fails: in a store whose only entry is keyed by the empty string
each path occurs in one entry, `x.txt` is recorded under the key `hOld = ""`, the scan reports
it with the well-formed digest `fp3`, and after the Regenerate step the entry for `hOld` still
holds a path record for `x.txt`. -/
theorem regenerate_rebinds_counterexample :
    NodupKeys emptyKeyDB ∧ OneEntryPerPath emptyKeyDB ∧ isMD5 changedX.Hash = true ∧
      HasRecord emptyKeyDB "" changedX.Path ∧ "" ≠ changedX.Hash ∧
      HasRecord (processFile true (startOf emptyKeyDB) changedX).checksumDB "" changedX.Path :=
  ⟨by decide, by decide, by decide, hasRecordB_iff.1 (by decide), by decide,
    hasRecordB_iff.1 (by decide)⟩

/-- C19 as amended: for a store that is a map and records each path in at most one entry, and a
scanned file with a well-formed digest `h` whose path is recorded under a non-empty key
`hOld ≠ h`, after the Regenerate step the entry for `h` is the stored one (or a fresh one)
extended by a new path record for the path, the entry for `hOld` holds its other path records in
their order and is deleted when there is none, so it has no record for the path, and every
entry under another key is unchanged. -/
theorem regenerate_rebinds (st : GenState) (f : ScannedFile) (hOld : String)
    (hnd : NodupKeys st.checksumDB) (hone : OneEntryPerPath st.checksumDB)
    (hmd : isMD5 f.Hash = true) (hrec : HasRecord st.checksumDB hOld f.Path)
    (hne : hOld ≠ f.Hash) (hOldne : hOld ≠ "") :
    HasRecord (processFile true st f).checksumDB f.Hash f.Path ∧
      ¬ HasRecord (processFile true st f).checksumDB hOld f.Path ∧
      (processFile true st f).checksumDB.lookup f.Hash =
        some { baseEntry st.checksumDB f with
          RelativePaths := (baseEntry st.checksumDB f).RelativePaths ++
            [{ Path := f.Path, FirstSeen := f.Now, LastSeen := f.Now }]
          LastContentUpdate := f.Now } ∧
      (∃ oldInfo, st.checksumDB.lookup hOld = some oldInfo ∧
        (processFile true st f).checksumDB.lookup hOld =
          if (oldInfo.RelativePaths.filter (fun p => p.Path != f.Path)).length = 0 then none
          else some { oldInfo with
            RelativePaths := oldInfo.RelativePaths.filter (fun p => p.Path != f.Path) }) ∧
      (∀ k, k ≠ hOld → k ≠ f.Hash →
        (processFile true st f).checksumDB.lookup k = st.checksumDB.lookup k) := by
  have honce := recordedOnce_of_oneEntryPerPath hone
  have hfe := findExistingHash_of_nonempty hnd honce hrec hOldne
  obtain ⟨oldInfo, hlOld, hrec_path⟩ := hrec
  have hb1 : (hOld != "") = true := by simpa using hOldne
  have hb2 : (hOld != f.Hash) = true := by simpa using hne
  have hne2 : ¬ f.Hash = hOld := fun hc => hne hc.symm
  -- the store after the removal from the old entry
  have hbase : baseEntry (removeFromOld st.checksumDB hOld f.Path) f = baseEntry st.checksumDB f := by
    unfold baseEntry
    rw [lookup_removeFromOld, if_neg hne]
  have habsent : ¬ ∃ pe ∈ (baseEntry st.checksumDB f).RelativePaths, pe.Path = f.Path := by
    rintro ⟨pe, hpe, hp⟩
    unfold baseEntry at hpe
    cases hl : st.checksumDB.lookup f.Hash with
    | none =>
      rw [hl] at hpe
      simp at hpe
    | some info =>
      rw [hl] at hpe
      simp only [Option.getD_some] at hpe
      exact hne2 (honce _ _ _ ⟨info, hl, pe, hpe, hp⟩ ⟨oldInfo, hlOld, hrec_path⟩)
  have hstep : processFile true st f =
      { st with
        checksumDB := mapSet (removeFromOld st.checksumDB hOld f.Path) f.Hash
          (extendedEntry st.checksumDB f)
        pathsAddedToDbCount := st.pathsAddedToDbCount + 1
        processedFilesCount := st.processedFilesCount + 1 } := by
    unfold processFile
    simp only [hmd, hfe, hb1, hb2, Bool.not_true, Bool.false_eq_true, if_false, Bool.false_and,
      Bool.and_self, if_true]
    have := addOrRefresh_of_absent
      { st with checksumDB := removeFromOld st.checksumDB hOld f.Path } f
      (by simpa only [hbase] using habsent)
    rw [this]
    simp only [extendedEntry, hbase]
  have hlnew : (processFile true st f).checksumDB.lookup f.Hash =
      some (extendedEntry st.checksumDB f) := by
    rw [hstep]
    simp only [lookup_mapSet, if_true]
  have hlold : (processFile true st f).checksumDB.lookup hOld =
      if (oldInfo.RelativePaths.filter (fun p => p.Path != f.Path)).length = 0 then none
      else some { oldInfo with
        RelativePaths := oldInfo.RelativePaths.filter (fun p => p.Path != f.Path) } := by
    rw [hstep]
    simp only [lookup_mapSet, hne2, if_false, lookup_removeFromOld, if_true, hlOld,
      Option.getD_some]
  refine ⟨?_, ?_, hlnew, ⟨oldInfo, hlOld, hlold⟩, ?_⟩
  · exact ⟨_, hlnew, newRecord f, by simp [extendedEntry], rfl⟩
  · rintro ⟨info, hl, pe, hpe, hp⟩
    rw [hlold] at hl
    split at hl
    · cases hl
    · cases hl
      have := (List.mem_filter.1 hpe).2
      simp [hp] at this
  · intro k hk1 hk2
    rw [hstep]
    have a1 : ¬ f.Hash = k := fun hc => hk2 hc.symm
    have a2 : ¬ hOld = k := fun hc => hk1 hc.symm
    simp only [lookup_mapSet, a1, if_false, lookup_removeFromOld, a2]

theorem regenerate_rebinds_witness :
    NodupKeys (startOf twoDB).checksumDB ∧ OneEntryPerPath (startOf twoDB).checksumDB ∧
      isMD5 changedA.Hash = true ∧ HasRecord (startOf twoDB).checksumDB fp1 changedA.Path ∧
      fp1 ≠ changedA.Hash ∧ fp1 ≠ "" ∧
      HasRecord (processFile true (startOf twoDB) changedA).checksumDB changedA.Hash
        changedA.Path ∧
      ¬ HasRecord (processFile true (startOf twoDB) changedA).checksumDB fp1 changedA.Path ∧
      (∀ k, k ≠ fp1 → k ≠ changedA.Hash →
        (processFile true (startOf twoDB) changedA).checksumDB.lookup k =
          (startOf twoDB).checksumDB.lookup k) :=
  ⟨by decide, by decide, by decide, hasRecordB_iff.1 (by decide), by decide, by decide,
    (regenerate_rebinds (startOf twoDB) changedA fp1 (by decide) (by decide) (by decide)
      (hasRecordB_iff.1 (by decide)) (by decide) (by decide)).1,
    (regenerate_rebinds (startOf twoDB) changedA fp1 (by decide) (by decide) (by decide)
      (hasRecordB_iff.1 (by decide)) (by decide) (by decide)).2.1,
    (regenerate_rebinds (startOf twoDB) changedA fp1 (by decide) (by decide) (by decide)
      (hasRecordB_iff.1 (by decide)) (by decide) (by decide)).2.2.2.2⟩

end C19


section C22

/-- C22 (soundness of reported results): for a store and a disk index that are maps, every
result in the final OK, MOVED, MODIFIED or NEW list has a `Path` that is a key of the disk index
and a `ContentHash` equal to `disk[Path]`; every result in the final DELETED list has a `Path`
that has a path record in the store entry for its `OriginalContentHash` and is not a key of the
disk index. -/
theorem results_sound (checksumDB : ChecksumDB) (diskFiles : DiskFiles)
    (hnd : NodupKeys checksumDB) (hdisk : NodupKeys diskFiles) :
    (∀ r ∈ (reconcile checksumDB diskFiles).OK,
        diskFiles.lookup r.Path = some r.ContentHash) ∧
      (∀ r ∈ (reconcile checksumDB diskFiles).MOVED,
        diskFiles.lookup r.Path = some r.ContentHash) ∧
      (∀ r ∈ (reconcile checksumDB diskFiles).MODIFIED,
        diskFiles.lookup r.Path = some r.ContentHash) ∧
      (∀ r ∈ (reconcile checksumDB diskFiles).NEW,
        diskFiles.lookup r.Path = some r.ContentHash) ∧
      (∀ r ∈ (reconcile checksumDB diskFiles).DELETED,
        HasRecord checksumDB r.OriginalContentHash r.Path ∧
          diskFiles.lookup r.Path = none ∧ r.Path ∉ diskFiles.map Prod.fst) := by
  obtain ⟨fOK, fMod, fNew⟩ := final_paths checksumDB diskFiles
  rw [fOK, fMod, fNew]
  refine ⟨?_, ?_, ?_, ?_, ?_⟩
  · intro r hr
    rw [provisional_OK] at hr
    obtain ⟨e, he, ho⟩ := List.mem_filterMap.1 hr
    obtain ⟨-, rfl⟩ := okOf_eq_some.1 ho
    exact lookup_eq_some_of_mem hdisk he
  · intro r hr
    have hr2 := final_MOVED_subset hr
    rw [provisional_MOVED] at hr2
    obtain ⟨e, he, ho⟩ := List.mem_filterMap.1 hr2
    obtain ⟨info, -, -, rfl⟩ := movedOf_eq_some.1 ho
    exact lookup_eq_some_of_mem hdisk he
  · intro r hr
    rw [provisional_MODIFIED] at hr
    obtain ⟨x, -, ho⟩ := List.mem_filterMap.1 hr
    obtain ⟨-, dh, hl, rfl⟩ := modOf_eq_some.1 ho
    exact hl
  · intro r hr
    rw [provisional_NEW] at hr
    obtain ⟨e, he, ho⟩ := List.mem_filterMap.1 hr
    obtain ⟨-, rfl⟩ := newOf_eq_some.1 ho
    exact lookup_eq_some_of_mem hdisk he
  · intro r hr
    unfold reconcile at hr
    rw [handleRenamed_DELETED] at hr
    have hr2 := (List.mem_filter.1 hr).1
    rw [provisional_DELETED] at hr2
    obtain ⟨x, hx, ho⟩ := List.mem_filterMap.1 hr2
    obtain ⟨-, hl, rfl⟩ := delOf_eq_some.1 ho
    exact ⟨hasRecord_of_mem_records hnd hx, hl, lookup_eq_none_iff.1 hl⟩

theorem results_sound_witness :
    NodupKeys threeDB ∧ NodupKeys mixedDisk ∧
      ((∀ r ∈ (reconcile threeDB mixedDisk).OK,
          mixedDisk.lookup r.Path = some r.ContentHash) ∧
        (∀ r ∈ (reconcile threeDB mixedDisk).MOVED,
          mixedDisk.lookup r.Path = some r.ContentHash) ∧
        (∀ r ∈ (reconcile threeDB mixedDisk).MODIFIED,
          mixedDisk.lookup r.Path = some r.ContentHash) ∧
        (∀ r ∈ (reconcile threeDB mixedDisk).NEW,
          mixedDisk.lookup r.Path = some r.ContentHash) ∧
        (∀ r ∈ (reconcile threeDB mixedDisk).DELETED,
          HasRecord threeDB r.OriginalContentHash r.Path ∧
            mixedDisk.lookup r.Path = none ∧ r.Path ∉ mixedDisk.map Prod.fst)) :=
  ⟨by decide, by decide, results_sound threeDB mixedDisk (by decide) (by decide)⟩

end C22

section C23

/-- C23 (a MODIFIED report is a real change): for every store that is a map and every disk
index, whatever the shape of fingerprints and paths, every result in the MODIFIED list, before
and after rename resolution, has `ContentHash ≠ OriginalContentHash`. -/
theorem modified_is_change (checksumDB : ChecksumDB) (diskFiles : DiskFiles)
    (hnd : NodupKeys checksumDB) :
    (∀ r ∈ (provisional checksumDB diskFiles).MODIFIED,
        r.ContentHash ≠ r.OriginalContentHash) ∧
      (∀ r ∈ (reconcile checksumDB diskFiles).MODIFIED,
        r.ContentHash ≠ r.OriginalContentHash) := by
  have hprov : ∀ r ∈ (provisional checksumDB diskFiles).MODIFIED,
      r.ContentHash ≠ r.OriginalContentHash := by
    intro r hr
    rw [provisional_MODIFIED] at hr
    obtain ⟨x, hx, ho⟩ := List.mem_filterMap.1 hr
    obtain ⟨hnk, dh, hl, rfl⟩ := modOf_eq_some.1 ho
    simp only [mkModified]
    intro hc
    apply hnk
    have hmem : (x.2.Path, x.1) ∈ diskFiles := by
      rw [← hc]; exact mem_of_lookup_eq_some hl
    exact List.mem_filterMap.2 ⟨(x.2.Path, x.1), hmem,
      keyOf_eq_some.2 ⟨hasRecord_of_mem_records hnd hx, rfl⟩⟩
  obtain ⟨-, fMod, -⟩ := final_paths checksumDB diskFiles
  refine ⟨hprov, ?_⟩
  rw [fMod]
  exact hprov

theorem modified_is_change_witness :
    NodupKeys twoDB ∧
      ((∀ r ∈ (provisional twoDB overwrittenDisk).MODIFIED,
          r.ContentHash ≠ r.OriginalContentHash) ∧
        (∀ r ∈ (reconcile twoDB overwrittenDisk).MODIFIED,
          r.ContentHash ≠ r.OriginalContentHash)) :=
  ⟨by decide, modified_is_change twoDB overwrittenDisk (by decide)⟩

end C23


section C21

/-- The common tail of the loop body stamps the entry of the scanned digest and leaves the
entries under every other key as they are. -/
theorem lookup_addOrRefresh (st : GenState) (f : ScannedFile) :
    (∃ v, (addOrRefresh st f).checksumDB.lookup f.Hash = some v ∧
        v.LastContentUpdate = f.Now) ∧
      ∀ k, k ≠ f.Hash → (addOrRefresh st f).checksumDB.lookup k = st.checksumDB.lookup k := by
  unfold addOrRefresh
  simp only
  split
  · constructor
    · exact ⟨_, by rw [lookup_mapSet, if_pos rfl], rfl⟩
    · intro k hk
      have hk2 : ¬ f.Hash = k := fun hc => hk hc.symm
      simp only [lookup_mapSet, hk2, if_false]
  · constructor
    · exact ⟨_, by rw [lookup_mapSet, if_pos rfl], rfl⟩
    · intro k hk
      have hk2 : ¬ f.Hash = k := fun hc => hk hc.symm
      simp only [lookup_mapSet, hk2, if_false]

/-- A non-empty `existingHash` is a key of the store. -/
theorem lookup_findExistingHash {db : ChecksumDB} {p : String}
    (h : findExistingHash db p ≠ "") : ∃ u, db.lookup (findExistingHash db p) = some u := by
  rcases findExistingHash_spec db p with ⟨h1, -⟩ | ⟨-, info, h2, -⟩
  · exact absurd h1 h
  · cases hl : db.lookup (findExistingHash db p) with
    | none => exact absurd (List.mem_map_of_mem Prod.fst h2) (lookup_eq_none_iff.1 hl)
    | some u => exact ⟨u, rfl⟩

/-- The AppendOnly branch for a known path changes no `LastContentUpdate`, removes and adds no
entry, and leaves the entries under every key other than `existingHash` as they are. -/
theorem lookup_appendKnown (st : GenState) (eh : String) (f : ScannedFile) :
    (∀ k, updateStamp (if eh = f.Hash then
          if ((st.checksumDB.lookup eh).getD InfoData.zero).RelativePaths.any
              (fun p => p.Path == f.Path) then
            { st with
              checksumDB := mapSet st.checksumDB eh
                { (st.checksumDB.lookup eh).getD InfoData.zero with
                  RelativePaths := refreshLastSeen
                    ((st.checksumDB.lookup eh).getD InfoData.zero).RelativePaths f.Path f.Now }
              pathsUpdatedInDbCount := st.pathsUpdatedInDbCount + 1 }
          else st
        else st).checksumDB k = updateStamp st.checksumDB k) ∧
      (∀ k, k ≠ eh → (if eh = f.Hash then
          if ((st.checksumDB.lookup eh).getD InfoData.zero).RelativePaths.any
              (fun p => p.Path == f.Path) then
            { st with
              checksumDB := mapSet st.checksumDB eh
                { (st.checksumDB.lookup eh).getD InfoData.zero with
                  RelativePaths := refreshLastSeen
                    ((st.checksumDB.lookup eh).getD InfoData.zero).RelativePaths f.Path f.Now }
              pathsUpdatedInDbCount := st.pathsUpdatedInDbCount + 1 }
          else st
        else st).checksumDB.lookup k = st.checksumDB.lookup k) := by
  split
  · split
    · rename_i hany
      constructor
      · intro k
        unfold updateStamp
        simp only [lookup_mapSet]
        split
        · rename_i hk
          subst hk
          cases hl : st.checksumDB.lookup eh with
          | none =>
            rw [hl] at hany
            simp [InfoData.zero] at hany
          | some u => simp
        · rfl
      · intro k hk
        have hk2 : ¬ eh = k := fun hc => hk hc.symm
        simp only [lookup_mapSet, hk2, if_false]
    · exact ⟨fun _ => rfl, fun _ _ => rfl⟩
  · exact ⟨fun _ => rfl, fun _ _ => rfl⟩

/-- C21, the claim as stated fails in both modes. Regenerate: `b.txt`, recorded under `fp2`
next to `c.txt`, is scanned with digest `fp3`; the entry for `fp2` loses a path record and keeps
its old `LastContentUpdate`. AppendOnly: `a.txt` is scanned with its recorded digest `fp1`; its
`LastSeen` is refreshed and the entry for `fp1` keeps its old `LastContentUpdate`. -/
theorem lastContentUpdate_counterexample :
    (isMD5 changedB.Hash = true ∧
        ((processFile true (startOf threeDB) changedB).checksumDB.lookup fp2).map
            (fun v => v.RelativePaths) ≠
          (threeDB.lookup fp2).map (fun v => v.RelativePaths) ∧
        ((processFile true (startOf threeDB) changedB).checksumDB.lookup fp2).map
            (fun v => v.LastContentUpdate) = some "2024-01-01T00:00:00Z" ∧
        changedB.Now ≠ "2024-01-01T00:00:00Z") ∧
      (isMD5 sameA.Hash = true ∧
        ((processFile false (startOf oneDB) sameA).checksumDB.lookup fp1).map
            (fun v => v.RelativePaths) ≠
          (oneDB.lookup fp1).map (fun v => v.RelativePaths) ∧
        ((processFile false (startOf oneDB) sameA).checksumDB.lookup fp1).map
            (fun v => v.LastContentUpdate) = some "2024-01-01T00:00:00Z" ∧
        sameA.Now ≠ "2024-01-01T00:00:00Z") := by
  decide

/-- C21 as amended: for every store, mode and scanned file with a well-formed digest `h`.
When the step reaches the common tail of the loop body (Regenerate mode, or AppendOnly mode
with `existingHash` empty): the entry for `h` has `LastContentUpdate = now` afterwards; the
entry under every key other than `h` and `existingHash` is unchanged; and every key other than
`h` has an entry afterwards exactly when it had one before, with the same `LastContentUpdate`,
except that in Regenerate mode the entry under `existingHash` is deleted when all its path
records were for the scanned path. When the step takes the AppendOnly branch for a known path:
every key has an entry afterwards exactly when it had one before, with the same
`LastContentUpdate` (also when a `LastSeen` is refreshed), and the entry under every key other
than `existingHash` is unchanged. -/
theorem lastContentUpdate_tracking (regenerateAll : Bool) (st : GenState) (f : ScannedFile)
    (hmd : isMD5 f.Hash = true) :
    ((regenerateAll = true ∨ findExistingHash st.checksumDB f.Path = "") →
        updateStamp (processFile regenerateAll st f).checksumDB f.Hash = some f.Now ∧
        (∀ k, k ≠ f.Hash → k ≠ findExistingHash st.checksumDB f.Path →
          (processFile regenerateAll st f).checksumDB.lookup k = st.checksumDB.lookup k) ∧
        (∀ k, k ≠ f.Hash →
          updateStamp (processFile regenerateAll st f).checksumDB k =
              updateStamp st.checksumDB k ∨
            (regenerateAll = true ∧ k = findExistingHash st.checksumDB f.Path ∧
              (processFile regenerateAll st f).checksumDB.lookup k = none ∧
              ∃ u, st.checksumDB.lookup k = some u ∧
                ∀ p ∈ u.RelativePaths, p.Path = f.Path))) ∧
      ((regenerateAll = false ∧ findExistingHash st.checksumDB f.Path ≠ "") →
        (∀ k, updateStamp (processFile regenerateAll st f).checksumDB k =
          updateStamp st.checksumDB k) ∧
        (∀ k, k ≠ findExistingHash st.checksumDB f.Path →
          (processFile regenerateAll st f).checksumDB.lookup k = st.checksumDB.lookup k)) := by
  constructor
  · intro hcase
    have hcond : (!regenerateAll && findExistingHash st.checksumDB f.Path != "") = false := by
      rcases hcase with h | h
      · simp [h]
      · simp [h]
    have hstep : processFile regenerateAll st f =
        addOrRefresh
          (if (regenerateAll && findExistingHash st.checksumDB f.Path != "" &&
              findExistingHash st.checksumDB f.Path != f.Hash) = true then
            { st with checksumDB :=
                removeFromOld st.checksumDB (findExistingHash st.checksumDB f.Path) f.Path }
          else st) f := by
      unfold processFile
      simp only [hmd, Bool.not_true, Bool.false_eq_true, if_false, hcond]
    obtain ⟨⟨v, hv1, hv2⟩, h2⟩ := lookup_addOrRefresh
      (if (regenerateAll && findExistingHash st.checksumDB f.Path != "" &&
          findExistingHash st.checksumDB f.Path != f.Hash) = true then
        { st with checksumDB :=
            removeFromOld st.checksumDB (findExistingHash st.checksumDB f.Path) f.Path }
      else st) f
    rw [hstep]
    refine ⟨?_, ?_, ?_⟩
    · unfold updateStamp
      rw [hv1]
      simp [hv2]
    · intro k hk hke
      rw [h2 k hk]
      split
      · have hke2 : ¬ findExistingHash st.checksumDB f.Path = k := fun hc => hke hc.symm
        simp only [lookup_removeFromOld, hke2, if_false]
      · rfl
    · intro k hk
      unfold updateStamp
      rw [h2 k hk]
      split
      · rename_i hc
        simp only [Bool.and_eq_true, bne_iff_ne, ne_eq] at hc
        by_cases hke : findExistingHash st.checksumDB f.Path = k
        · obtain ⟨u, hu⟩ := lookup_findExistingHash hc.1.2
          subst hke
          rw [lookup_removeFromOld, if_pos rfl, hu, Option.getD_some]
          by_cases hlen : (u.RelativePaths.filter (fun x => x.Path != f.Path)).length = 0
          · right
            refine ⟨hc.1.1, rfl, by simp only [hlen, if_true], u, rfl, ?_⟩
            intro p hp
            have hnil := List.length_eq_zero.1 hlen
            have := List.filter_eq_nil_iff.1 hnil p hp
            simpa using this
          · left
            simp only [hlen, if_false, Option.map_some']
        · left
          simp only [lookup_removeFromOld, hke, if_false]
      · left; rfl
  · rintro ⟨hreg, heh⟩
    have hcond : (!regenerateAll && findExistingHash st.checksumDB f.Path != "") = true := by
      simp [hreg, heh]
    have hstep : processFile regenerateAll st f =
        (if findExistingHash st.checksumDB f.Path = f.Hash then
          if ((st.checksumDB.lookup (findExistingHash st.checksumDB f.Path)).getD
              InfoData.zero).RelativePaths.any (fun p => p.Path == f.Path) then
            { st with
              checksumDB := mapSet st.checksumDB (findExistingHash st.checksumDB f.Path)
                { (st.checksumDB.lookup (findExistingHash st.checksumDB f.Path)).getD
                    InfoData.zero with
                  RelativePaths := refreshLastSeen
                    ((st.checksumDB.lookup (findExistingHash st.checksumDB f.Path)).getD
                      InfoData.zero).RelativePaths f.Path f.Now }
              pathsUpdatedInDbCount := st.pathsUpdatedInDbCount + 1 }
          else st
        else st) := by
      unfold processFile
      simp only [hmd, Bool.not_true, Bool.false_eq_true, if_false, hcond, if_true]
    rw [hstep]
    exact lookup_appendKnown st _ f

theorem lastContentUpdate_tracking_witness :
    isMD5 changedB.Hash = true ∧
      (updateStamp (processFile true (startOf threeDB) changedB).checksumDB changedB.Hash =
          some changedB.Now ∧
        (∀ k, k ≠ changedB.Hash →
          k ≠ findExistingHash (startOf threeDB).checksumDB changedB.Path →
          (processFile true (startOf threeDB) changedB).checksumDB.lookup k =
            (startOf threeDB).checksumDB.lookup k) ∧
        (∀ k, k ≠ changedB.Hash →
          updateStamp (processFile true (startOf threeDB) changedB).checksumDB k =
              updateStamp (startOf threeDB).checksumDB k ∨
            (true = true ∧ k = findExistingHash (startOf threeDB).checksumDB changedB.Path ∧
              (processFile true (startOf threeDB) changedB).checksumDB.lookup k = none ∧
              ∃ u, (startOf threeDB).checksumDB.lookup k = some u ∧
                ∀ p ∈ u.RelativePaths, p.Path = changedB.Path))) ∧
      isMD5 sameA.Hash = true ∧ findExistingHash (startOf oneDB).checksumDB sameA.Path ≠ "" ∧
      ((∀ k, updateStamp (processFile false (startOf oneDB) sameA).checksumDB k =
          updateStamp (startOf oneDB).checksumDB k) ∧
        (∀ k, k ≠ findExistingHash (startOf oneDB).checksumDB sameA.Path →
          (processFile false (startOf oneDB) sameA).checksumDB.lookup k =
            (startOf oneDB).checksumDB.lookup k)) :=
  ⟨by decide,
    (lastContentUpdate_tracking true (startOf threeDB) changedB (by decide)).1 (Or.inl rfl),
    by decide, by decide,
    (lastContentUpdate_tracking false (startOf oneDB) sameA (by decide)).2 ⟨rfl, by decide⟩⟩

end C21

end MD5Checker
